import Mathlib

/-!
# A shallow embedding of `list.h`

`list.h` implements a circular doubly-linked list anchored at a sentinel
(`_fake_node`) that is embedded in the list object.  Nodes are addressed by
raw pointers, so the embedding works over an explicit memory:

* an address is a natural number, `nullptr` is address `0`;
* `Heap.cells` maps an address to the object living there (a `BaseNode`, or a
  `Node` carrying an element), `none` meaning that no object lives there;
* `Heap.allocated` is the set of blocks handed out by the node allocator and not
  yet given back;
* an access through a pointer at which no object lives is undefined behaviour
  and is reported as `none` / `Result.undefined`;
* `size_t` is 64 bits wide (`_size` is kept modulo `2 ^ 64`), `int` is 32 bits
  wide (iterator offsets are kept in two's complement).
-/

set_option autoImplicit false

/-- Addresses of objects in memory. -/
abbrev Addr := Nat

/-- The null pointer. -/
def nullptr : Addr := 0

/-- Number of values of a `size_t` (and of distinct addresses). -/
def SIZE_MOD : Nat := 2 ^ 64

/-- Wrap an integer into the range of a 32-bit `int` (`difference_type`). -/
def wrap_int (x : Int) : Int := (x + 2147483648) % 4294967296 - 2147483648

/-- `BaseNode` and `Node` of the source.  `object = none` is a plain `BaseNode`
(the sentinel), `object = some x` is a `Node` whose stored element is `x`. -/
structure Node (T : Type) where
  prev : Addr
  next : Addr
  object : Option T
deriving DecidableEq

/-- Memory: the objects that are alive and the blocks the node allocator has
handed out. -/
structure Heap (T : Type) where
  cells : Addr → Option (Node T)
  allocated : Finset Addr

/-- Outcome of a call that may throw. -/
inductive Result (ε σ : Type) where
  /-- the call returned normally, leaving state `s` -/
  | ok (s : σ) : Result ε σ
  /-- the call was left by an exception, leaving state `e` -/
  | threw (e : ε) : Result ε σ
  /-- the call ran into undefined behaviour -/
  | undefined : Result ε σ

/-- What the surroundings do during one `insert` / `emplace` call:
`allocate` is the block returned by `AllocNodeTraits::allocate(alloc, 1)`
(`none` when it throws), `construct` is the element constructor selected by
`AllocNodeTraits::construct` (`none` when it throws). -/
structure Env (A T : Type) where
  allocate : Option Addr
  construct : A → Option T

namespace Heap

variable {T : Type}

/-- Replace the object at address `p`. -/
def write (h : Heap T) (p : Addr) (c : Option (Node T)) : Heap T :=
  { h with cells := fun a => if a = p then c else h.cells a }

/-- The assignment `p->next = q`. -/
def set_next (h : Heap T) (p q : Addr) : Option (Heap T) :=
  match h.cells p with
  | none => none
  | some c => some (h.write p (some { c with next := q }))

/-- The assignment `p->prev = q`. -/
def set_prev (h : Heap T) (p q : Addr) : Option (Heap T) :=
  match h.cells p with
  | none => none
  | some c => some (h.write p (some { c with prev := q }))

/-- Allocator hands out block `p`: `AllocNodeTraits::allocate`. -/
def allocate (h : Heap T) (p : Addr) : Heap T :=
  { h with allocated := Insert.insert p h.allocated }

/-- Allocator takes block `p` back: `AllocNodeTraits::deallocate`. -/
def deallocate (h : Heap T) (p : Addr) : Heap T :=
  { h with allocated := h.allocated.erase p }

/-- The object at `p` ends its life: `AllocNodeTraits::destroy`. -/
def destroy (h : Heap T) (p : Addr) : Heap T :=
  h.write p none

end Heap

/-- The class `List_Iterator_Base`: a pointer to a `BaseNode`. -/
structure List_Iterator_Base where
  ptr_ : Addr
deriving DecidableEq

namespace List_Iterator_Base

variable {T : Type}

/-- The private accessor `get_pointer`. -/
def get_pointer (it : List_Iterator_Base) : Addr := it.ptr_

/-- The dereference `operator*`: the element of the `Node` pointed at.  Undefined when
nothing lives there or when the object is a plain `BaseNode`. -/
def deref (h : Heap T) (it : List_Iterator_Base) : Option T :=
  match h.cells it.ptr_ with
  | none => none
  | some c => c.object

/-- The loop `while (offset != 0) { ptr_ = ptr_->next; --offset; }`. -/
def walk_next (h : Heap T) : Nat → Addr → Option Addr
  | 0, p => some p
  | n + 1, p =>
    match h.cells p with
    | none => none
    | some c => walk_next h n c.next

/-- The loop `while (offset != 0) { ptr_ = ptr_->prev; ++offset; }`. -/
def walk_prev (h : Heap T) : Nat → Addr → Option Addr
  | 0, p => some p
  | n + 1, p =>
    match h.cells p with
    | none => none
    | some c => walk_prev h n c.prev

/-- The compound assignment `operator+=`. -/
def add_assign (h : Heap T) (it : List_Iterator_Base) (offset : Int) :
    Option List_Iterator_Base :=
  if offset > 0 then
    (walk_next h offset.toNat it.ptr_).map List_Iterator_Base.mk
  else if offset < 0 then
    (walk_prev h (-offset).toNat it.ptr_).map List_Iterator_Base.mk
  else some it

/-- The compound assignment `operator-=`: `*this += -offset`, the negation
taken in 32-bit two's complement. -/
def sub_assign (h : Heap T) (it : List_Iterator_Base) (offset : Int) :
    Option List_Iterator_Base :=
  add_assign h it (wrap_int (-offset))

/-- Pre-increment `operator++`: `*this += 1`. -/
def incr (h : Heap T) (it : List_Iterator_Base) : Option List_Iterator_Base :=
  add_assign h it 1

/-- Pre-decrement `operator--`: `*this -= 1`. -/
def decr (h : Heap T) (it : List_Iterator_Base) : Option List_Iterator_Base :=
  sub_assign h it 1

/-- The free `operator+ (it, offset)`. -/
def plus (h : Heap T) (it : List_Iterator_Base) (offset : Int) :
    Option List_Iterator_Base :=
  add_assign h it offset

/-- The free `operator- (it, offset)`. -/
def minus (h : Heap T) (it : List_Iterator_Base) (offset : Int) :
    Option List_Iterator_Base :=
  sub_assign h it offset

end List_Iterator_Base

/-- The class `List`: `_fake_node` is the address of the embedded sentinel
(its `prev` / `next` live in memory at that address), `_size` the element count. -/
structure LinkedList where
  _fake_node : Addr
  _size : Nat
deriving DecidableEq

namespace LinkedList

variable {T A : Type}

/-- State a member function works on: memory and the list object. -/
abbrev State (T : Type) := Heap T × LinkedList

/-- The constructors `List()` and `List(const allocator_type&)` run on the
storage at `self`: the sentinel is linked to itself, `_size` is `0`. -/
def default_ctor (h : Heap T) (self : Addr) : State T :=
  (h.write self (some { prev := self, next := self, object := none }),
   { _fake_node := self, _size := 0 })

/-- The constructor `List(const allocator_type& alloc)` run on the storage at
`self`: the allocator base is copied from `alloc`, the body is that of `List()`. -/
def alloc_ctor (h : Heap T) (self : Addr) : State T :=
  (h.write self (some { prev := self, next := self, object := none }),
   { _fake_node := self, _size := 0 })

/-- The member `size()`. -/
def size (l : LinkedList) : Nat := l._size

/-- The members `cbegin()` / `begin()`: an iterator to `_fake_node.next`. -/
def cbegin (h : Heap T) (l : LinkedList) : Option List_Iterator_Base :=
  match h.cells l._fake_node with
  | none => none
  | some s => some ⟨s.next⟩

/-- The members `cend()` / `end()`: an iterator to `&_fake_node`. -/
def cend (l : LinkedList) : List_Iterator_Base := ⟨l._fake_node⟩

/-- The member `insert(it, value)`. -/
def insert (h : Heap T) (l : LinkedList) (it : List_Iterator_Base) (value : T)
    (env : Env T T) : Result (State T) (State T) :=
  let node := it.get_pointer
  match h.cells node with
  | none => .undefined
  | some nc =>
    let prev := nc.prev
    match env.allocate with
    | none => .threw (h, l)
    | some ptr =>
      let h1 := h.allocate ptr
      match env.construct value with
      | none => .threw (h1.deallocate ptr, l)
      | some obj =>
        let h2 := h1.write ptr (some { prev := prev, next := node, object := some obj })
        match h2.set_next prev ptr with
        | none => .undefined
        | some h3 =>
          match h3.set_prev node ptr with
          | none => .undefined
          | some h4 => .ok (h4, { l with _size := (l._size + 1) % SIZE_MOD })

/-- The member `emplace(it, args...)`. -/
def emplace (h : Heap T) (l : LinkedList) (it : List_Iterator_Base) (args : A)
    (env : Env A T) : Result (State T) (State T) :=
  let node := it.get_pointer
  match h.cells node with
  | none => .undefined
  | some nc =>
    let prev := nc.prev
    match env.allocate with
    | none => .threw (h, l)
    | some ptr =>
      let h1 := h.allocate ptr
      match env.construct args with
      | none => .threw (h1.deallocate ptr, l)
      | some obj =>
        let h2 := h1.write ptr (some { prev := prev, next := node, object := some obj })
        match h2.set_next prev ptr with
        | none => .undefined
        | some h3 =>
          match h3.set_prev node ptr with
          | none => .undefined
          | some h4 => .ok (h4, { l with _size := (l._size + 1) % SIZE_MOD })

/-- The member `erase(it)`.  Destroying or deallocating something that is not
an allocated `Node` is undefined. -/
def erase (h : Heap T) (l : LinkedList) (it : List_Iterator_Base) : Option (State T) :=
  let node := it.get_pointer
  match h.cells node with
  | none => none
  | some nc =>
    let prev := nc.prev
    let next := nc.next
    if nc.object.isNone ∨ node ∉ h.allocated then none
    else
      let h1 := h.destroy node
      let h2 := h1.deallocate node
      match h2.set_next prev next with
      | none => none
      | some h3 =>
        match h3.set_prev next prev with
        | none => none
        | some h4 => some (h4, { l with _size := (l._size + SIZE_MOD - 1) % SIZE_MOD })

/-- The member `push_back(value)`. -/
def push_back (h : Heap T) (l : LinkedList) (value : T) (env : Env T T) :
    Result (State T) (State T) :=
  insert h l (cend l) value env

/-- The member `push_front(value)`. -/
def push_front (h : Heap T) (l : LinkedList) (value : T) (env : Env T T) :
    Result (State T) (State T) :=
  match cbegin h l with
  | none => .undefined
  | some it => insert h l it value env

/-- The member `emplace_back(args...)`. -/
def emplace_back (h : Heap T) (l : LinkedList) (args : A) (env : Env A T) :
    Result (State T) (State T) :=
  emplace h l (cend l) args env

/-- The member `emplace_front(args...)`. -/
def emplace_front (h : Heap T) (l : LinkedList) (args : A) (env : Env A T) :
    Result (State T) (State T) :=
  match cbegin h l with
  | none => .undefined
  | some it => emplace h l it args env

/-- The member `pop_back()`: `erase(--cend())`. -/
def pop_back (h : Heap T) (l : LinkedList) : Option (State T) :=
  match (cend l).decr h with
  | none => none
  | some it => erase h l it

/-- The member `pop_front()`: `erase(cbegin())`. -/
def pop_front (h : Heap T) (l : LinkedList) : Option (State T) :=
  match cbegin h l with
  | none => none
  | some it => erase h l it

/-- The loop of `clear()`: `while (size() != 0) pop_back();`, at most `fuel`
iterations (`none` also when the fuel runs out). -/
def clear_loop : Nat → Heap T → LinkedList → Option (State T)
  | 0, h, l => if l.size ≠ 0 then none else some (h, l)
  | fuel + 1, h, l =>
    if l.size ≠ 0 then
      match pop_back h l with
      | none => none
      | some (h1, l1) => clear_loop fuel h1 l1
    else some (h, l)

/-- The member `clear()`. -/
def clear (fuel : Nat) (h : Heap T) (l : LinkedList) : Option (State T) :=
  clear_loop fuel h l

/-- The destructor `~List()`: `clear()`, then the storage of the list object
(and with it the sentinel) goes away. -/
def destructor (fuel : Nat) (h : Heap T) (l : LinkedList) : Option (Heap T) :=
  match clear fuel h l with
  | none => none
  | some (h1, l1) => some (h1.write l1._fake_node none)

/-- The statement `std::swap(x, y)` on two `BaseNode` objects at `a` and `b`:
`tmp = x; x = y; y = tmp`, copying `prev` and `next`. -/
def swap_nodes (h : Heap T) (a b : Addr) : Option (Heap T) :=
  match h.cells a with
  | none => none
  | some ca =>
    match h.cells b with
    | none => none
    | some cb =>
      let h1 := h.write a (some { ca with prev := cb.prev, next := cb.next })
      match h1.cells b with
      | none => none
      | some cb1 => some (h1.write b (some { cb1 with prev := ca.prev, next := ca.next }))

/-- The statement `std::swap(a->next, b->next)`. -/
def swap_next (h : Heap T) (a b : Addr) : Option (Heap T) :=
  match h.cells a with
  | none => none
  | some ca =>
    match h.cells b with
    | none => none
    | some cb =>
      match h.set_next a cb.next with
      | none => none
      | some h1 => h1.set_next b ca.next

/-- The statement `std::swap(a->prev, b->prev)`. -/
def swap_prev (h : Heap T) (a b : Addr) : Option (Heap T) :=
  match h.cells a with
  | none => none
  | some ca =>
    match h.cells b with
    | none => none
    | some cb =>
      match h.set_prev a cb.prev with
      | none => none
      | some h1 => h1.set_prev b ca.prev

/-- The member `swap(other)`; the result is memory, `*this` and `other`. -/
def swap (h : Heap T) (l other : LinkedList) : Option (Heap T × LinkedList × LinkedList) :=
  let l1 : LinkedList := { l with _size := other._size }
  let other1 : LinkedList := { other with _size := l._size }
  match swap_nodes h l1._fake_node other1._fake_node with
  | none => none
  | some h1 =>
    match h1.cells l1._fake_node, h1.cells other1._fake_node with
    | some s, some o =>
      match swap_next h1 s.prev o.prev with
      | none => none
      | some h2 =>
        match h2.cells l1._fake_node, h2.cells other1._fake_node with
        | some s2, some o2 =>
          match swap_prev h2 s2.next o2.next with
          | none => none
          | some h3 => some (h3, l1, other1)
        | _, _ => none
    | _, _ => none

/-- The loop of the copy constructor, `for (const T& value : other) push_back(value);`
with `it` the running iterator and `stop` the iterator `other.end()`.  Call number
`k` of `push_back` runs in the surroundings `envs k`.  At most `fuel` iterations. -/
def copy_loop (envs : Nat → Env T T) (stop : List_Iterator_Base) :
    Nat → Nat → Heap T → LinkedList → List_Iterator_Base → Result (State T) (State T)
  | 0, _, _, _, _ => .undefined
  | fuel + 1, k, h, l, it =>
    if it = stop then .ok (h, l)
    else
      match it.deref h with
      | none => .undefined
      | some value =>
        match push_back h l value (envs k) with
        | .undefined => .undefined
        | .threw s => .threw s
        | .ok (h1, l1) =>
          match it.incr h1 with
          | none => .undefined
          | some it1 => copy_loop envs stop fuel (k + 1) h1 l1 it1

/-- The copy constructor `List(const List& other)` run on the storage at `self`.
When a `push_back` throws, the already constructed list is destroyed and the
exception leaves the constructor. -/
def copy_ctor (envs : Nat → Env T T) (fuel : Nat) (h : Heap T) (self : Addr)
    (other : LinkedList) : Result (Heap T) (State T) :=
  let (h0, l0) := default_ctor h self
  match cbegin h0 other with
  | none => .undefined
  | some first =>
    match copy_loop envs (cend other) fuel 0 h0 l0 first with
    | .undefined => .undefined
    | .ok s => .ok s
    | .threw (h1, l1) =>
      match destructor fuel h1 l1 with
      | none => .undefined
      | some h2 => .threw h2

/-- The copy assignment `operator=(const List& other)`: the temporary `temp` is
built on the storage at `tmp`, swapped with `*this`, and destroyed on return.
The result is memory and `*this`. -/
def assign (envs : Nat → Env T T) (fuel : Nat) (h : Heap T) (l : LinkedList)
    (other : LinkedList) (tmp : Addr) : Result (Heap T) (State T) :=
  match copy_ctor envs fuel h tmp other with
  | .undefined => .undefined
  | .threw h1 => .threw h1
  | .ok (h1, temp) =>
    match swap h1 l temp with
    | none => .undefined
    | some (h2, l2, temp2) =>
      match destructor fuel h2 temp2 with
      | none => .undefined
      | some h3 => .ok (h3, l2)

/-- Forward traversal `for (it = first; it != stop; ++it) visit(*it)`, at most
`fuel` tests of the loop condition: the elements visited, in order. -/
def forward_from (h : Heap T) (stop : List_Iterator_Base) :
    Nat → List_Iterator_Base → Option (List T)
  | 0, _ => none
  | fuel + 1, it =>
    if it = stop then some []
    else
      match it.deref h with
      | none => none
      | some x =>
        match it.incr h with
        | none => none
        | some it1 => (forward_from h stop fuel it1).map (fun xs => x :: xs)

/-- Forward traversal of the range `begin() .. end()`. -/
def forward (fuel : Nat) (h : Heap T) (l : LinkedList) : Option (List T) :=
  match cbegin h l with
  | none => none
  | some first => forward_from h (cend l) fuel first

/-- Traversal with `std::reverse_iterator`, `cur` being the wrapped iterator:
`*r` is `*--tmp` for a copy `tmp` of `cur`, `++r` is `--cur`, and the loop stops
when `cur` equals the iterator wrapped by the end of the range. -/
def backward_from (h : Heap T) (stop : List_Iterator_Base) :
    Nat → List_Iterator_Base → Option (List T)
  | 0, _ => none
  | fuel + 1, cur =>
    if cur = stop then some []
    else
      match cur.decr h with
      | none => none
      | some tmp =>
        match tmp.deref h with
        | none => none
        | some x =>
          match cur.decr h with
          | none => none
          | some cur1 => (backward_from h stop fuel cur1).map (fun xs => x :: xs)

/-- Reverse traversal of the range `rbegin() .. rend()`: `rbegin()` wraps
`end()`, `rend()` wraps `begin()`. -/
def backward (fuel : Nat) (h : Heap T) (l : LinkedList) : Option (List T) :=
  match cbegin h l with
  | none => none
  | some first => backward_from h first fuel (cend l)

/-- The assignment `*it = value` through a mutable iterator. -/
def assign_through (h : Heap T) (it : List_Iterator_Base) (value : T) : Option (Heap T) :=
  match h.cells it.ptr_ with
  | none => none
  | some c =>
    match c.object with
    | none => none
    | some _ => some (h.write it.ptr_ (some { c with object := some value }))

end LinkedList

/-! ## Vocabulary of the specification -/

/-- The state a call leaves behind, whether it returned or threw. -/
def Result.final {σ : Type} : Result σ σ → Option σ
  | .ok s => some s
  | .threw s => some s
  | .undefined => none

/-- Address of the first entry of `ns`, or `d` when there is none. -/
def headAddr {β : Type} (ns : List (Addr × β)) (d : Addr) : Addr :=
  match ns with
  | [] => d
  | n :: _ => n.1

/-- Address of the last entry of `ns`, or `d` when there is none. -/
def lastAddr {β : Type} : List (Addr × β) → Addr → Addr
  | [], d => d
  | n :: ns, _ => lastAddr ns n.1

/-- The objects listed in `ns` (address, stored element if any) are alive and
linked in this order: the first one's `prev` is `pf`, the last one's `next`
is `al`. -/
def Seg {T : Type} (cells : Addr → Option (Node T)) :
    Addr → List (Addr × Option T) → Addr → Prop
  | _, [], _ => True
  | pf, n :: ns, al =>
    cells n.1 = some { prev := pf, next := headAddr ns al, object := n.2 } ∧
      Seg cells n.1 ns al

/-- Value nodes seen as ring entries. -/
def lift {T : Type} (ns : List (Addr × T)) : List (Addr × Option T) :=
  ns.map (fun n => (n.1, some n.2))

/-- The ring of a list: the sentinel followed by the value nodes `ns`. -/
def ring {T : Type} (l : LinkedList) (ns : List (Addr × T)) : List (Addr × Option T) :=
  (l._fake_node, none) :: lift ns

/-- An address the allocator may hand out, or on which an object may be built:
not null, inside the address space, no object alive there, not handed out. -/
def Fresh {T : Type} (h : Heap T) (p : Addr) : Prop :=
  p ≠ nullptr ∧ p < SIZE_MOD ∧ h.cells p = none ∧ p ∉ h.allocated

/-- The allocator keeps its contract during a call: a block it hands out is fresh. -/
def Env.Sound {A T : Type} (env : Env A T) (h : Heap T) : Prop :=
  ∀ p, env.allocate = some p → Fresh h p

/-- Well-formed list: in memory `h` the list `l` consists of the value nodes `ns`
(address and element, in order), closed into a ring through the sentinel, all
objects distinct, `_size` equal to their number, every value node an allocated
block, and every address non-null and inside the address space. -/
def WellFormed {T : Type} (h : Heap T) (l : LinkedList) (ns : List (Addr × T)) : Prop :=
  Seg h.cells (lastAddr (ring l ns) l._fake_node) (ring l ns) l._fake_node ∧
  ((ring l ns).map Prod.fst).Nodup ∧
  l._size = ns.length ∧
  (∀ n ∈ ns, n.1 ∈ h.allocated) ∧
  (∀ n ∈ ring l ns, n.1 ≠ nullptr ∧ n.1 < SIZE_MOD)

/-- Address of the position with index `i`: value node `i`, or the sentinel
when `i` is the number of value nodes. -/
def addrAt {T : Type} (l : LinkedList) (ns : List (Addr × T)) (i : Nat) : Addr :=
  headAddr (ns.drop i) l._fake_node

/-- Positions of a list: the iterators obtained from `end()` by `++`. -/
inductive Position {T : Type} (h : Heap T) (l : LinkedList) : List_Iterator_Base → Prop
  | at_end : Position h l l.cend
  | next (it it1 : List_Iterator_Base) :
      Position h l it → it.incr h = some it1 → Position h l it1

/-- One operation on a list: `insert`, `emplace`, `push_back`, `push_front`,
`emplace_back`, `emplace_front` at a position of the list (returning or
throwing, the allocator keeping its contract), `erase` of a value node,
`pop_back` and `pop_front` on a non-empty list, and an assignment through an
iterator to a value node. -/
inductive Step {T : Type} : LinkedList.State T → LinkedList.State T → Prop
  | insert (h : Heap T) (l : LinkedList) (it : List_Iterator_Base) (v : T) (env : Env T T)
      (s : LinkedList.State T) :
      Position h l it → env.Sound h → (l.insert h it v env).final = some s → Step (h, l) s
  | emplace (A : Type) (h : Heap T) (l : LinkedList) (it : List_Iterator_Base) (args : A)
      (env : Env A T) (s : LinkedList.State T) :
      Position h l it → env.Sound h → (l.emplace h it args env).final = some s → Step (h, l) s
  | push_back (h : Heap T) (l : LinkedList) (v : T) (env : Env T T) (s : LinkedList.State T) :
      env.Sound h → (l.push_back h v env).final = some s → Step (h, l) s
  | push_front (h : Heap T) (l : LinkedList) (v : T) (env : Env T T) (s : LinkedList.State T) :
      env.Sound h → (l.push_front h v env).final = some s → Step (h, l) s
  | emplace_back (A : Type) (h : Heap T) (l : LinkedList) (args : A) (env : Env A T)
      (s : LinkedList.State T) :
      env.Sound h → (l.emplace_back h args env).final = some s → Step (h, l) s
  | emplace_front (A : Type) (h : Heap T) (l : LinkedList) (args : A) (env : Env A T)
      (s : LinkedList.State T) :
      env.Sound h → (l.emplace_front h args env).final = some s → Step (h, l) s
  | erase (h : Heap T) (l : LinkedList) (it : List_Iterator_Base) (s : LinkedList.State T) :
      Position h l it → it ≠ l.cend → l.erase h it = some s → Step (h, l) s
  | pop_back (h : Heap T) (l : LinkedList) (s : LinkedList.State T) :
      l.size ≠ 0 → l.pop_back h = some s → Step (h, l) s
  | pop_front (h : Heap T) (l : LinkedList) (s : LinkedList.State T) :
      l.size ≠ 0 → l.pop_front h = some s → Step (h, l) s
  | assign_through (h : Heap T) (l : LinkedList) (it : List_Iterator_Base) (v : T)
      (h1 : Heap T) :
      Position h l it → it ≠ l.cend → LinkedList.assign_through h it v = some h1 →
      Step (h, l) (h1, l)

/-- Lists reached from a freshly constructed list by a finite sequence of
operations. -/
inductive Reachable {T : Type} : LinkedList.State T → Prop
  | init (h0 : Heap T) (self : Addr) : Fresh h0 self → Reachable (LinkedList.default_ctor h0 self)
  | step (s s1 : LinkedList.State T) : Reachable s → Step s s1 → Reachable s1

/-- The list `l` with value nodes `ns` in memory `h` has evolved into `l1` in
memory `h1`: the result is well-formed with the same sentinel, every object of
its ring was in the ring before or sits where nothing lived before, and objects
alive outside the ring are untouched and keep their allocation status. -/
def Evolves {T : Type} (h : Heap T) (l : LinkedList) (ns : List (Addr × T))
    (h1 : Heap T) (l1 : LinkedList) : Prop :=
  ∃ ns1, WellFormed h1 l1 ns1 ∧ l1._fake_node = l._fake_node ∧
    (∀ a ∈ (ring l1 ns1).map Prod.fst, a ∈ (ring l ns).map Prod.fst ∨ h.cells a = none) ∧
    (∀ a, a ∉ (ring l ns).map Prod.fst → h.cells a ≠ none →
      h1.cells a = h.cells a ∧ (a ∈ h1.allocated ↔ a ∈ h.allocated))

/-- The call fails: the allocator throws, or it hands out a block that was not
handed out before and the element constructor throws. -/
def Env.Fails {A T : Type} (env : Env A T) (h : Heap T) (args : A) : Prop :=
  env.allocate = none ∨
    ∃ p, env.allocate = some p ∧ p ∉ h.allocated ∧ env.construct args = none

/-- Decision procedure for `Seg`. -/
def Seg.decide {T : Type} [DecidableEq T] (cells : Addr → Option (Node T)) :
    (pf : Addr) → (ns : List (Addr × Option T)) → (al : Addr) → Decidable (Seg cells pf ns al)
  | _, [], _ => isTrue trivial
  | _, n :: ns, al =>
    match Seg.decide cells n.1 ns al with
    | isTrue ht =>
      if hc : cells n.1 = some { prev := _, next := headAddr ns al, object := n.2 } then
        isTrue ⟨hc, ht⟩
      else isFalse (fun hh => hc hh.1)
    | isFalse hf => isFalse (fun hh => hf hh.2)

instance {T : Type} [DecidableEq T] (cells : Addr → Option (Node T)) (pf : Addr)
    (ns : List (Addr × Option T)) (al : Addr) : Decidable (Seg cells pf ns al) :=
  Seg.decide cells pf ns al

instance {T : Type} [DecidableEq T] (h : Heap T) (p : Addr) : Decidable (Fresh h p) := by
  unfold Fresh; infer_instance

instance {T : Type} [DecidableEq T] (h : Heap T) (l : LinkedList) (ns : List (Addr × T)) :
    Decidable (WellFormed h l ns) := by
  unfold WellFormed; infer_instance

/-- Smallest value of the 32-bit `int`. -/
def INT_MIN : Int := -2147483648

/-- Largest value of the 32-bit `int`. -/
def INT_MAX : Int := 2147483647

/-- One link forward: the `next` of the object at `a`, when one lives there. -/
def link_next {T : Type} (h : Heap T) (a : Addr) : Option Addr :=
  (h.cells a).map Node.next

/-- One link backward: the `prev` of the object at `a`, when one lives there. -/
def link_prev {T : Type} (h : Heap T) (a : Addr) : Option Addr :=
  (h.cells a).map Node.prev

/-- Following a link exactly `k` times, starting at `a`. -/
def follow (link : Addr → Option Addr) (k : Nat) (a : Addr) : Option Addr :=
  (fun o => Option.bind o link)^[k] (some a)

/-- Calling `pop_back()` exactly `k` times in a row. -/
def pop_back_times {T : Type} : Nat → LinkedList.State T → Option (LinkedList.State T)
  | 0, s => some s
  | k + 1, s =>
    match s.2.pop_back s.1 with
    | none => none
    | some s1 => pop_back_times k s1

/-- What one operation does to the allocator: nothing (the list object unchanged
too), or one block not handed out before is now handed out and `_size` is one
larger, or one block handed out before is taken back and `_size` is one smaller. -/
def AllocStep {T : Type} (h : Heap T) (l : LinkedList) (s1 : LinkedList.State T) : Prop :=
  (s1.1.allocated = h.allocated ∧ s1.2 = l) ∨
  (∃ p, p ∉ h.allocated ∧ s1.1.allocated = Insert.insert p h.allocated ∧
    s1.2._size = l._size + 1) ∨
  (∃ a, a ∈ h.allocated ∧ s1.1.allocated = h.allocated.erase a ∧ s1.2._size + 1 = l._size)

/-- The live allocations are exactly the value nodes `ns`. -/
def Accounted {T : Type} (h : Heap T) (ns : List (Addr × T)) : Prop :=
  h.allocated = (ns.map Prod.fst).toFinset

instance {T : Type} (h : Heap T) (ns : List (Addr × T)) : Decidable (Accounted h ns) := by
  unfold Accounted; infer_instance

/-! ## Sample states -/

/-- Memory in which nothing lives. -/
def demo_empty : Heap Nat := { cells := fun _ => none, allocated := ∅ }

/-- Surroundings in which the allocator hands out block `p` and the element is
copied faithfully. -/
def demo_env (p : Addr) : Env Nat Nat := { allocate := some p, construct := some }

/-- Memory holding the list `[1, 2, 3]`: sentinel at `10`, nodes at `20`, `30`, `40`. -/
def demo_heap : Heap Nat :=
  { cells := fun a =>
      if a = 10 then some { prev := 40, next := 20, object := none }
      else if a = 20 then some { prev := 10, next := 30, object := some 1 }
      else if a = 30 then some { prev := 20, next := 40, object := some 2 }
      else if a = 40 then some { prev := 30, next := 10, object := some 3 }
      else none
    allocated := {20, 30, 40} }

/-- The list object of the list in `demo_heap`. -/
def demo_list : LinkedList := { _fake_node := 10, _size := 3 }

/-- The value nodes of the list in `demo_heap`. -/
def demo_nodes : List (Addr × Nat) := [(20, 1), (30, 2), (40, 3)]

/-- The state a call leaves behind, `d` when it ran into undefined behaviour. -/
def after {σ : Type} (r : Result σ σ) (d : σ) : σ := r.final.getD d

/-- An empty list constructed at address `10`. -/
def demo_s0 : LinkedList.State Nat := LinkedList.default_ctor demo_empty 10

/-- The list of `demo_s0` after `push_back(1)`. -/
def demo_s1 : LinkedList.State Nat :=
  after (demo_s0.2.push_back demo_s0.1 1 (demo_env 20)) demo_s0

/-- The list of `demo_s1` after `push_front(2)`. -/
def demo_s2 : LinkedList.State Nat :=
  after (demo_s1.2.push_front demo_s1.1 2 (demo_env 30)) demo_s1

/-- The list of `demo_s2` after `pop_back()`. -/
def demo_s3 : LinkedList.State Nat := (demo_s2.2.pop_back demo_s2.1).getD demo_s2

/-- Surroundings of the `k`-th `push_back` of a copy: block `100 + k`, faithful copy. -/
def demo_envs (k : Nat) : Env Nat Nat := demo_env (100 + k)

/-- Two lists in one memory: the empty list of `demo_s0` at `10` and, as the list
object of this state, the list `[1]` with sentinel `11` and its node at `21`. -/
def demo_pair : LinkedList.State Nat :=
  after ((LinkedList.default_ctor demo_s0.1 11).2.push_back
    (LinkedList.default_ctor demo_s0.1 11).1 1 (demo_env 21)) demo_s0

/-- An empty list constructed at address `11` next to the list of `demo_heap`. -/
def demo_other : LinkedList.State Nat := LinkedList.default_ctor demo_heap 11

/-- The list of `demo_heap` after `insert` of `9` in front of the element `2`:
the list `[1, 9, 2, 3]` with the new node at `50`. -/
def demo_four : LinkedList.State Nat :=
  after (demo_list.insert demo_heap ⟨30⟩ 9 (demo_env 50)) (demo_heap, demo_list)

/-- Two non-empty lists in one memory: the list `[1, 2, 3]` of `demo_heap` and, as
the list object of this state, the list `[7]` with sentinel `11` and its node at `21`. -/
def demo_two : LinkedList.State Nat :=
  after (demo_other.2.push_back demo_other.1 7 (demo_env 21)) demo_other

/-! ## Segments of linked objects -/

section SegLemmas

variable {T : Type}

theorem headAddr_lift (ns : List (Addr × T)) (d : Addr) : headAddr (lift ns) d = headAddr ns d := by
  cases ns <;> rfl

theorem lastAddr_lift (ns : List (Addr × T)) (d : Addr) : lastAddr (lift ns) d = lastAddr ns d := by
  induction ns generalizing d with
  | nil => rfl
  | cons n ns ih => simp [lift, lastAddr] at ih ⊢; exact ih n.1

theorem map_fst_lift (ns : List (Addr × T)) : (lift ns).map Prod.fst = ns.map Prod.fst := by
  simp [lift, Function.comp_def]

theorem lift_append (s t : List (Addr × T)) : lift (s ++ t) = lift s ++ lift t := by
  simp [lift]

theorem headAddr_append {β : Type} (s t : List (Addr × β)) (d : Addr) :
    headAddr (s ++ t) d = headAddr s (headAddr t d) := by
  cases s <;> rfl

theorem lastAddr_append {β : Type} (s t : List (Addr × β)) (d : Addr) :
    lastAddr (s ++ t) d = lastAddr t (lastAddr s d) := by
  induction s generalizing d with
  | nil => rfl
  | cons n s ih => simp [lastAddr, ih]

theorem lastAddr_cons_irrel {β : Type} (n : Addr × β) (s : List (Addr × β)) (d e : Addr) :
    lastAddr (n :: s) d = lastAddr (n :: s) e := rfl

theorem headAddr_mem {β : Type} (s : List (Addr × β)) (d : Addr) (hs : s ≠ []) :
    headAddr s d ∈ s.map Prod.fst := by
  cases s with
  | nil => exact absurd rfl hs
  | cons n s => simp [headAddr]

theorem lastAddr_mem {β : Type} (s : List (Addr × β)) (d : Addr) (hs : s ≠ []) :
    lastAddr s d ∈ s.map Prod.fst := by
  induction s generalizing d with
  | nil => exact absurd rfl hs
  | cons n s ih =>
    cases s with
    | nil => simp [lastAddr]
    | cons m s =>
      have := ih n.1 (by simp)
      simp only [lastAddr] at this ⊢
      exact List.mem_cons_of_mem _ this

theorem seg_append (cells : Addr → Option (Node T)) (s t : List (Addr × Option T))
    (pf al : Addr) :
    Seg cells pf (s ++ t) al ↔
      Seg cells pf s (headAddr t al) ∧ Seg cells (lastAddr s pf) t al := by
  induction s generalizing pf with
  | nil => simp [Seg, lastAddr]
  | cons n s ih =>
    have e : (n :: s) ++ t = n :: (s ++ t) := rfl
    rw [e]
    simp only [Seg, lastAddr, headAddr_append, and_assoc]
    rw [ih]

theorem seg_congr (c c1 : Addr → Option (Node T)) (ns : List (Addr × Option T))
    (pf al : Addr) (hc : ∀ a ∈ ns.map Prod.fst, c1 a = c a) (hs : Seg c pf ns al) :
    Seg c1 pf ns al := by
  induction ns generalizing pf with
  | nil => trivial
  | cons n ns ih =>
    refine ⟨?_, ih _ (fun a ha => hc a (by simp at ha ⊢; exact Or.inr ha)) hs.2⟩
    rw [hc n.1 (by simp)]; exact hs.1

theorem seg_set_next_last (c : Addr → Option (Node T)) (ns : List (Addr × Option T))
    (pf al q : Addr) (hne : ns ≠ []) (hnd : (ns.map Prod.fst).Nodup) (hs : Seg c pf ns al) :
    ∃ x, c (lastAddr ns pf) = some x ∧
      Seg (fun a => if a = lastAddr ns pf then some { x with next := q } else c a) pf ns q := by
  induction ns generalizing pf with
  | nil => exact absurd rfl hne
  | cons n ns ih =>
    cases ns with
    | nil =>
      refine ⟨_, hs.1, ?_⟩
      simp [Seg, lastAddr, headAddr]
    | cons m ns =>
      have hnd1 : ((m :: ns).map Prod.fst).Nodup := (List.nodup_cons.mp hnd).2
      obtain ⟨x, hx, hseg⟩ := ih n.1 (by simp) hnd1 hs.2
      refine ⟨x, hx, ?_, hseg⟩
      have hmem : lastAddr (m :: ns) n.1 ∈ (m :: ns).map Prod.fst := lastAddr_mem _ _ (by simp)
      have hn : n.1 ≠ lastAddr (m :: ns) n.1 := by
        intro he
        exact (List.nodup_cons.mp hnd).1 (he ▸ hmem)
      have h1 := hs.1
      simp only [lastAddr, headAddr] at hn h1 ⊢
      simp [hn, h1]

theorem seg_set_prev_head (c : Addr → Option (Node T)) (ns : List (Addr × Option T))
    (pf al r : Addr) (hne : ns ≠ []) (hnd : (ns.map Prod.fst).Nodup) (hs : Seg c pf ns al) :
    ∃ x, c (headAddr ns al) = some x ∧
      Seg (fun a => if a = headAddr ns al then some { x with prev := r } else c a) r ns al := by
  cases ns with
  | nil => exact absurd rfl hne
  | cons n ns =>
    refine ⟨_, hs.1, ?_, ?_⟩
    · simp [headAddr]
    · apply seg_congr c _ ns n.1 al _ hs.2
      intro a ha
      have : a ≠ n.1 := by
        intro he
        exact (List.nodup_cons.mp hnd).1 (he ▸ ha)
      simp [headAddr, this]

theorem seg_cell_of_mem (c : Addr → Option (Node T)) (ns : List (Addr × Option T))
    (pf al a : Addr) (hs : Seg c pf ns al) (ha : a ∈ ns.map Prod.fst) :
    ∃ x, c a = some x ∧ (x.next ∈ ns.map Prod.fst ∨ x.next = al) ∧
      (x.prev ∈ ns.map Prod.fst ∨ x.prev = pf) := by
  induction ns generalizing pf with
  | nil => simp at ha
  | cons n ns ih =>
    rcases List.mem_cons.mp ha with he | hmem
    · refine ⟨_, he ▸ hs.1, ?_, Or.inr rfl⟩
      cases ns with
      | nil => exact Or.inr rfl
      | cons m ns => left; simp [headAddr]
    · obtain ⟨x, hx, hn, hp⟩ := ih n.1 hs.2 hmem
      refine ⟨x, hx, ?_, ?_⟩
      · rcases hn with hn | hn
        · exact Or.inl (List.mem_cons_of_mem _ hn)
        · exact Or.inr hn
      · rcases hp with hp | hp
        · exact Or.inl (List.mem_cons_of_mem _ hp)
        · left; rw [hp]; simp

theorem seg_last_cell (c : Addr → Option (Node T)) (ns : List (Addr × Option T))
    (pf al : Addr) (hne : ns ≠ []) (hs : Seg c pf ns al) :
    ∃ x, c (lastAddr ns pf) = some x ∧ x.next = al := by
  induction ns generalizing pf with
  | nil => exact absurd rfl hne
  | cons n ns ih =>
    cases ns with
    | nil => exact ⟨_, hs.1, rfl⟩
    | cons m ns => exact ih n.1 (by simp) hs.2

theorem seg_object (c : Addr → Option (Node T)) (ns : List (Addr × Option T))
    (pf al : Addr) (hs : Seg c pf ns al) (n : Addr × Option T) (hn : n ∈ ns)
    (hnd : (ns.map Prod.fst).Nodup) :
    ∃ x, c n.1 = some x ∧ x.object = n.2 := by
  induction ns generalizing pf with
  | nil => simp at hn
  | cons m ns ih =>
    rcases List.mem_cons.mp hn with rfl | hmem
    · exact ⟨_, hs.1, rfl⟩
    · exact ih m.1 hs.2 hmem (List.nodup_cons.mp hnd).2

theorem nodup_length_le (xs : List Nat) (N : Nat) (hnd : xs.Nodup) (hlt : ∀ a ∈ xs, a < N) :
    xs.length ≤ N := by
  have h1 : xs.toFinset ⊆ Finset.range N := by
    intro a ha
    simp only [List.mem_toFinset] at ha
    exact Finset.mem_range.mpr (hlt a ha)
  have h2 := Finset.card_le_card h1
  rw [List.toFinset_card_of_nodup hnd, Finset.card_range] at h2
  exact h2

end SegLemmas

/-! ## Relinking inside a ring -/

section Relink

variable {T : Type}

theorem write_cells (h : Heap T) (p : Addr) (x : Option (Node T)) (a : Addr) :
    (h.write p x).cells a = if a = p then x else h.cells a := rfl

theorem write_allocated (h : Heap T) (p : Addr) (x : Option (Node T)) :
    (h.write p x).allocated = h.allocated := rfl

theorem set_next_last (h : Heap T) (ns : List (Addr × Option T)) (pf al q : Addr)
    (hne : ns ≠ []) (hnd : (ns.map Prod.fst).Nodup) (hs : Seg h.cells pf ns al) :
    ∃ h1, h.set_next (lastAddr ns pf) q = some h1 ∧ Seg h1.cells pf ns q ∧
      h1.allocated = h.allocated ∧ ∀ a, a ≠ lastAddr ns pf → h1.cells a = h.cells a := by
  obtain ⟨x, hx, hseg⟩ := seg_set_next_last h.cells ns pf al q hne hnd hs
  refine ⟨h.write (lastAddr ns pf) (some { x with next := q }), ?_, hseg, rfl, ?_⟩
  · simp [Heap.set_next, hx]
  · intro a ha
    simp [write_cells, ha]

theorem set_prev_head (h : Heap T) (ns : List (Addr × Option T)) (pf al r : Addr)
    (hne : ns ≠ []) (hnd : (ns.map Prod.fst).Nodup) (hs : Seg h.cells pf ns al) :
    ∃ h1, h.set_prev (headAddr ns al) r = some h1 ∧ Seg h1.cells r ns al ∧
      h1.allocated = h.allocated ∧ ∀ a, a ≠ headAddr ns al → h1.cells a = h.cells a := by
  obtain ⟨x, hx, hseg⟩ := seg_set_prev_head h.cells ns pf al r hne hnd hs
  refine ⟨h.write (headAddr ns al) (some { x with prev := r }), ?_, hseg, rfl, ?_⟩
  · simp [Heap.set_prev, hx]
  · intro a ha
    simp [write_cells, ha]

/-- The cell in front of which a new node goes: its `prev` is the last entry before it. -/
theorem ring_position_cell (c : Addr → Option (Node T)) (as bs : List (Addr × Option T))
    (f : Addr) (has : as ≠ []) (hf : headAddr as f = f)
    (hs : Seg c (lastAddr (as ++ bs) f) (as ++ bs) f) :
    ∃ nc, c (headAddr bs f) = some nc ∧ nc.prev = lastAddr as f := by
  rw [seg_append] at hs
  cases bs with
  | nil =>
    cases as with
    | nil => exact absurd rfl has
    | cons n as =>
      simp only [headAddr] at hf
      subst hf
      exact ⟨_, hs.1.1, by simp [lastAddr]⟩
  | cons m bs =>
    refine ⟨_, hs.2.1, ?_⟩
    cases as with
    | nil => exact absurd rfl has
    | cons n as => simp [lastAddr, lastAddr_append]

/-- Linking a new object at `p` in front of the first entry of `bs` (the head of
the ring when `bs` is empty): the two assignments of `insert` succeed and yield
the ring with the new entry in between. -/
theorem ring_link (h : Heap T) (as bs : List (Addr × Option T)) (f p : Addr) (o : Option T)
    (has : as ≠ []) (hf : headAddr as f = f)
    (hnd : ((as ++ bs).map Prod.fst).Nodup) (hp : p ∉ (as ++ bs).map Prod.fst)
    (hs : Seg h.cells (lastAddr (as ++ bs) f) (as ++ bs) f) :
    ∃ h3 h4,
      (h.write p (some { prev := lastAddr as f, next := headAddr bs f, object := o })).set_next
          (lastAddr as f) p = some h3 ∧
      h3.set_prev (headAddr bs f) p = some h4 ∧
      Seg h4.cells (lastAddr (as ++ (p, o) :: bs) f) (as ++ (p, o) :: bs) f ∧
      h4.allocated = h.allocated ∧
      ∀ a, a ∉ (as ++ bs).map Prod.fst → a ≠ p → h4.cells a = h.cells a := by
  have hnd_as : (as.map Prod.fst).Nodup := by
    rw [List.map_append] at hnd; exact (List.nodup_append.mp hnd).1
  have hnd_bs : (bs.map Prod.fst).Nodup := by
    rw [List.map_append] at hnd; exact (List.nodup_append.mp hnd).2.1
  have hdisj : ∀ a, a ∈ as.map Prod.fst → a ∈ bs.map Prod.fst → False := by
    rw [List.map_append] at hnd
    intro a h1 h2
    exact (List.nodup_append.mp hnd).2.2 h1 h2
  have hp_as : p ∉ as.map Prod.fst := fun hh => hp (by rw [List.map_append]; exact List.mem_append_left _ hh)
  have hp_bs : p ∉ bs.map Prod.fst := fun hh => hp (by rw [List.map_append]; exact List.mem_append_right _ hh)
  have hlast_as : lastAddr as f ∈ as.map Prod.fst := lastAddr_mem as f has
  have hlastL : ∀ d, lastAddr as d = lastAddr as f := by
    intro d; cases as with
    | nil => exact absurd rfl has
    | cons n as => rfl
  rw [seg_append] at hs
  obtain ⟨hs_as, hs_bs⟩ := hs
  rw [hlastL] at hs_bs
  -- memory after the construction of the new object
  let h2 := h.write p (some { prev := lastAddr as f, next := headAddr bs f, object := o })
  have h2c : ∀ a, a ≠ p → h2.cells a = h.cells a := by
    intro a ha; simp [h2, write_cells, ha]
  have hs_as2 : Seg h2.cells (lastAddr (as ++ bs) f) as (headAddr bs f) :=
    seg_congr _ _ _ _ _ (fun a ha => h2c a (fun he => hp_as (he ▸ ha))) hs_as
  have hs_bs2 : Seg h2.cells (lastAddr as f) bs f :=
    seg_congr _ _ _ _ _ (fun a ha => h2c a (fun he => hp_bs (he ▸ ha))) hs_bs
  obtain ⟨h3, hset3, hs_as3, hal3, hfr3⟩ :=
    set_next_last h2 as (lastAddr (as ++ bs) f) (headAddr bs f) p has hnd_as hs_as2
  rw [hlastL] at hset3 hfr3
  have hs_bs3 : Seg h3.cells (lastAddr as f) bs f :=
    seg_congr _ _ _ _ _ (fun a ha => hfr3 a (fun he => hdisj _ hlast_as (he ▸ ha))) hs_bs2
  have hp3 : h3.cells p = some { prev := lastAddr as f, next := headAddr bs f, object := o } := by
    rw [hfr3 p (fun he => hp_as (he ▸ hlast_as))]
    simp [h2, write_cells]
  refine ⟨h3, ?_⟩
  cases bs with
  | nil =>
    have hheq : f = headAddr as p := by
      cases as with
      | nil => exact absurd rfl has
      | cons n as => simpa [headAddr] using hf.symm
    simp only [List.append_nil] at hs_as3
    obtain ⟨h4, hset4, hs4, hal4, hfr4⟩ :=
      set_prev_head h3 as (lastAddr as f) p p has hnd_as hs_as3
    rw [← hheq] at hset4 hfr4
    have hfmem : f ∈ as.map Prod.fst := by rw [hheq]; exact headAddr_mem as p has
    refine ⟨h4, hset3, hset4, ?_, ?_, ?_⟩
    · rw [seg_append]
      refine ⟨by simpa [headAddr, lastAddr_append, lastAddr] using hs4, ?_⟩
      simp only [Seg, and_true]
      rw [hfr4 p (fun he => hp_as (he ▸ hfmem)), hp3]
      simp [hlastL, headAddr]
    · rw [hal4, hal3]; rfl
    · intro a ha hap
      simp only [List.append_nil] at ha
      rw [hfr4 a (fun he => ha (he ▸ hfmem)), hfr3 a (fun he => ha (he ▸ hlast_as)), h2c a hap]
  | cons m bs =>
    obtain ⟨h4, hset4, hs4, hal4, hfr4⟩ :=
      set_prev_head h3 (m :: bs) (lastAddr as f) f p (by simp) hnd_bs hs_bs3
    have hhead : headAddr (m :: bs) f ∈ (m :: bs).map Prod.fst := headAddr_mem _ _ (by simp)
    refine ⟨h4, hset3, hset4, ?_, ?_, ?_⟩
    · rw [seg_append]
      refine ⟨?_, ?_, ?_⟩
      · apply seg_congr h3.cells
        · intro a ha
          exact hfr4 a (fun he => hdisj a ha (he ▸ hhead))
        · have : lastAddr (as ++ (p, o) :: m :: bs) f = lastAddr (as ++ m :: bs) f := by
            simp [lastAddr_append, lastAddr]
          rw [this]
          simpa [headAddr] using hs_as3
      · rw [hfr4 p (fun he => hp_bs (he ▸ hhead)), hp3]
        simp [hlastL, headAddr]
      · exact hs4
    · rw [hal4, hal3]; rfl
    · intro a ha hap
      have ha_as : a ∉ as.map Prod.fst := fun hh => ha (by rw [List.map_append]; exact List.mem_append_left _ hh)
      have ha_bs : a ∉ (m :: bs).map Prod.fst := fun hh => ha (by rw [List.map_append]; exact List.mem_append_right _ hh)
      rw [hfr4 a (fun he => ha_bs (he ▸ hhead)), hfr3 a (fun he => ha_as (he ▸ hlast_as)), h2c a hap]

end Relink

section Unlink

variable {T : Type}

/-- Taking the entry at `a` out of a ring: once the object at `a` is gone, the
two assignments of `erase` succeed and yield the ring without that entry. -/
theorem ring_unlink (h : Heap T) (as bs : List (Addr × Option T)) (f a : Addr) (o : Option T)
    (has : as ≠ []) (hf : headAddr as f = f)
    (hnd : ((as ++ (a, o) :: bs).map Prod.fst).Nodup)
    (hs : Seg h.cells (lastAddr (as ++ (a, o) :: bs) f) (as ++ (a, o) :: bs) f) :
    h.cells a = some { prev := lastAddr as f, next := headAddr bs f, object := o } ∧
    ∃ h3 h4,
      (h.write a none).set_next (lastAddr as f) (headAddr bs f) = some h3 ∧
      h3.set_prev (headAddr bs f) (lastAddr as f) = some h4 ∧
      Seg h4.cells (lastAddr (as ++ bs) f) (as ++ bs) f ∧
      h4.allocated = h.allocated ∧
      h4.cells a = none ∧
      ∀ q, q ∉ (as ++ bs).map Prod.fst → q ≠ a → h4.cells q = h.cells q := by
  have hnd1 : (as.map Prod.fst ++ a :: bs.map Prod.fst).Nodup := by
    simpa [List.map_append] using hnd
  have hnd_as : (as.map Prod.fst).Nodup := (List.nodup_append.mp hnd1).1
  have hnd_abs : (a :: bs.map Prod.fst).Nodup := (List.nodup_append.mp hnd1).2.1
  have hnd_bs : (bs.map Prod.fst).Nodup := (List.nodup_cons.mp hnd_abs).2
  have ha_bs : a ∉ bs.map Prod.fst := (List.nodup_cons.mp hnd_abs).1
  have ha_as : a ∉ as.map Prod.fst := fun hh =>
    (List.nodup_append.mp hnd1).2.2 hh (List.mem_cons_self _ _)
  have hdisj : ∀ q, q ∈ as.map Prod.fst → q ∈ bs.map Prod.fst → False := fun q h1 h2 =>
    (List.nodup_append.mp hnd1).2.2 h1 (List.mem_cons_of_mem _ h2)
  have hlast_as : lastAddr as f ∈ as.map Prod.fst := lastAddr_mem as f has
  have hlastL : ∀ d, lastAddr as d = lastAddr as f := by
    intro d; cases as with
    | nil => exact absurd rfl has
    | cons n as => rfl
  rw [seg_append] at hs
  obtain ⟨hs_as, hcell, hs_bs⟩ := hs
  rw [hlastL] at hcell
  simp only [headAddr] at hs_as hcell hs_bs
  refine ⟨hcell, ?_⟩
  let h2 := h.write a none
  have h2c : ∀ q, q ≠ a → h2.cells q = h.cells q := by
    intro q hq; simp [h2, write_cells, hq]
  have hs_as2 : Seg h2.cells (lastAddr (as ++ (a, o) :: bs) f) as a :=
    seg_congr _ _ _ _ _ (fun q hq => h2c q (fun he => ha_as (he ▸ hq))) hs_as
  have hs_bs2 : Seg h2.cells a bs f :=
    seg_congr _ _ _ _ _ (fun q hq => h2c q (fun he => ha_bs (he ▸ hq))) hs_bs
  obtain ⟨h3, hset3, hs_as3, hal3, hfr3⟩ :=
    set_next_last h2 as (lastAddr (as ++ (a, o) :: bs) f) a (headAddr bs f) has hnd_as hs_as2
  rw [hlastL] at hset3 hfr3
  have hs_bs3 : Seg h3.cells a bs f :=
    seg_congr _ _ _ _ _ (fun q hq => hfr3 q (fun he => hdisj _ hlast_as (he ▸ hq))) hs_bs2
  have ha3 : h3.cells a = none := by
    rw [hfr3 a (fun he => ha_as (he ▸ hlast_as))]
    simp [h2, write_cells]
  refine ⟨h3, ?_⟩
  cases bs with
  | nil =>
    have hL : lastAddr (as ++ [(a, o)]) f = a := by simp [lastAddr_append, lastAddr]
    rw [hL] at hs_as3
    simp only [headAddr] at hs_as3
    obtain ⟨h4, hset4, hs4, hal4, hfr4⟩ :=
      set_prev_head h3 as a f (lastAddr as f) has hnd_as hs_as3
    rw [hf] at hset4 hfr4
    have hfmem : f ∈ as.map Prod.fst := by
      have := headAddr_mem as f has
      rwa [hf] at this
    refine ⟨h4, hset3, hset4, ?_, ?_, ?_, ?_⟩
    · simpa using hs4
    · rw [hal4, hal3]; rfl
    · rw [hfr4 a (fun he => ha_as (he ▸ hfmem)), ha3]
    · intro q hq hqa
      simp only [List.append_nil] at hq
      rw [hfr4 q (fun he => hq (he ▸ hfmem)), hfr3 q (fun he => hq (he ▸ hlast_as)), h2c q hqa]
  | cons m bs =>
    obtain ⟨h4, hset4, hs4, hal4, hfr4⟩ :=
      set_prev_head h3 (m :: bs) a f (lastAddr as f) (by simp) hnd_bs hs_bs3
    have hhead : headAddr (m :: bs) f ∈ (m :: bs).map Prod.fst := headAddr_mem _ _ (by simp)
    refine ⟨h4, hset3, hset4, ?_, ?_, ?_, ?_⟩
    · rw [seg_append]
      refine ⟨?_, ?_⟩
      · apply seg_congr h3.cells
        · intro q hq
          exact hfr4 q (fun he => hdisj q hq (he ▸ hhead))
        · have : lastAddr (as ++ (a, o) :: m :: bs) f = lastAddr (as ++ m :: bs) f := by
            simp [lastAddr_append, lastAddr]
          rw [← this]
          exact hs_as3
      · rw [hlastL]; exact hs4
    · rw [hal4, hal3]; rfl
    · rw [hfr4 a (fun he => ha_bs (he ▸ hhead)), ha3]
    · intro q hq hqa
      have hq_as : q ∉ as.map Prod.fst := fun hh => hq (by rw [List.map_append]; exact List.mem_append_left _ hh)
      have hq_bs : q ∉ (m :: bs).map Prod.fst := fun hh => hq (by rw [List.map_append]; exact List.mem_append_right _ hh)
      rw [hfr4 q (fun he => hq_bs (he ▸ hhead)), hfr3 q (fun he => hq_as (he ▸ hlast_as)), h2c q hqa]

end Unlink

/-! ## Specification of `insert`, `emplace` and `erase` on well-formed lists -/

section Core

variable {T A : Type}

theorem ring_split (l : LinkedList) (s t : List (Addr × T)) :
    ring l (s ++ t) = ((l._fake_node, (none : Option T)) :: lift s) ++ lift t := by
  simp [ring, lift_append]

theorem ring_split_cons (l : LinkedList) (s t : List (Addr × T)) (n : Addr × T) :
    ring l (s ++ n :: t) =
      ((l._fake_node, (none : Option T)) :: lift s) ++ (n.1, some n.2) :: lift t := by
  simp [ring, lift_append, lift]

theorem wf_live (h : Heap T) (l : LinkedList) (ns : List (Addr × T)) (hwf : WellFormed h l ns)
    (a : Addr) (ha : a ∈ (ring l ns).map Prod.fst) :
    ∃ x, h.cells a = some x ∧ x.next ∈ (ring l ns).map Prod.fst ∧
      x.prev ∈ (ring l ns).map Prod.fst := by
  obtain ⟨x, hx, hn, hp⟩ := seg_cell_of_mem _ _ _ _ a hwf.1 ha
  refine ⟨x, hx, ?_, ?_⟩
  · rcases hn with hn | hn
    · exact hn
    · rw [hn]; simp [ring]
  · rcases hp with hp | hp
    · exact hp
    · rw [hp]; exact lastAddr_mem _ _ (by simp [ring])

theorem fresh_not_mem (h : Heap T) (l : LinkedList) (ns : List (Addr × T))
    (hwf : WellFormed h l ns) (p : Addr) (hp : h.cells p = none) :
    p ∉ (ring l ns).map Prod.fst := by
  intro hmem
  obtain ⟨x, hx, _⟩ := wf_live h l ns hwf p hmem
  rw [hp] at hx
  exact Option.noConfusion hx

theorem wf_length_lt (h : Heap T) (l : LinkedList) (ns : List (Addr × T))
    (hwf : WellFormed h l ns) : ns.length + 1 ≤ SIZE_MOD := by
  have := nodup_length_le _ SIZE_MOD hwf.2.1 (by
    intro a ha
    obtain ⟨n, hn, rfl⟩ := List.mem_map.mp ha
    exact (hwf.2.2.2.2 n hn).2)
  simpa [ring, lift] using this

theorem wf_length_fresh (h : Heap T) (l : LinkedList) (ns : List (Addr × T))
    (hwf : WellFormed h l ns) (p : Addr) (hp : Fresh h p) : ns.length + 2 ≤ SIZE_MOD := by
  have hnot := fresh_not_mem h l ns hwf p hp.2.2.1
  have := nodup_length_le (p :: (ring l ns).map Prod.fst) SIZE_MOD
    (List.nodup_cons.mpr ⟨hnot, hwf.2.1⟩) (by
      intro a ha
      rcases List.mem_cons.mp ha with rfl | ha
      · exact hp.2.1
      · obtain ⟨n, hn, rfl⟩ := List.mem_map.mp ha
        exact (hwf.2.2.2.2 n hn).2)
  simpa [ring, lift] using this

/-- Effect of a successful `insert` in front of the position that splits the
value nodes into `s` and `t`. -/
theorem insert_spec (h : Heap T) (l : LinkedList) (s t : List (Addr × T))
    (it : List_Iterator_Base) (v w : T) (p : Addr) (env : Env T T)
    (hwf : WellFormed h l (s ++ t)) (hit : it.ptr_ = headAddr t l._fake_node)
    (ha : env.allocate = some p) (hp : Fresh h p) (hc : env.construct v = some w) :
    ∃ h1, l.insert h it v env = .ok (h1, { l with _size := l._size + 1 }) ∧
      WellFormed h1 { l with _size := l._size + 1 } (s ++ (p, w) :: t) ∧
      h1.allocated = Insert.insert p h.allocated ∧
      ∀ a, a ∉ (ring l (s ++ t)).map Prod.fst → a ≠ p → h1.cells a = h.cells a := by
  have hnot := fresh_not_mem h l _ hwf p hp.2.2.1
  have hlen := wf_length_fresh h l _ hwf p hp
  obtain ⟨hseg, hnd, hsz, hal, hrg⟩ := hwf
  rw [ring_split] at hseg hnd hrg hnot
  obtain ⟨nc, hnc, hprev⟩ := ring_position_cell h.cells ((l._fake_node, none) :: lift s)
    (lift t) l._fake_node (by simp) rfl hseg
  obtain ⟨h3, h4, hset3, hset4, hseg4, hal4, hfr4⟩ :=
    ring_link (h.allocate p) ((l._fake_node, none) :: lift s) (lift t) l._fake_node p (some w)
      (by simp) rfl hnd hnot hseg
  rw [← headAddr_lift] at hit
  have hmod : (l._size + 1) % SIZE_MOD = l._size + 1 := by
    apply Nat.mod_eq_of_lt
    rw [hsz]; omega
  refine ⟨h4, ?_, ⟨?_, ?_, ?_, ?_, ?_⟩, ?_, ?_⟩
  · simp only [LinkedList.insert, List_Iterator_Base.get_pointer, hit, hnc, ha, hc, hprev,
      hset3, hset4, hmod]
  · rw [ring_split_cons]; exact hseg4
  · rw [ring_split_cons]
    simp only [List.map_append, List.map_cons] at hnd hnot ⊢
    rw [List.nodup_middle]
    exact List.nodup_cons.mpr ⟨hnot, hnd⟩
  · simp only [hsz, List.length_append, List.length_cons]; omega
  · intro n hn
    rw [hal4]
    simp only [Heap.allocate, Finset.mem_insert]
    rcases List.mem_append.mp hn with hn | hn
    · exact Or.inr (hal n (List.mem_append_left _ hn))
    · rcases List.mem_cons.mp hn with rfl | hn
      · exact Or.inl rfl
      · exact Or.inr (hal n (List.mem_append_right _ hn))
  · intro n hn
    rw [ring_split_cons] at hn
    rcases List.mem_append.mp hn with hn | hn
    · exact hrg n (List.mem_append_left _ hn)
    · rcases List.mem_cons.mp hn with rfl | hn
      · exact ⟨hp.1, hp.2.1⟩
      · exact hrg n (List.mem_append_right _ hn)
  · rw [hal4]; rfl
  · intro a ha1 ha2
    rw [ring_split] at ha1
    exact hfr4 a ha1 ha2

theorem emplace_eq_insert (h : Heap T) (l : LinkedList) (it : List_Iterator_Base) (args : A)
    (env : Env A T) (v : T) :
    l.emplace h it args env =
      l.insert h it v { allocate := env.allocate, construct := fun _ => env.construct args } :=
  rfl

/-- Effect of `erase` on the value node `n` that sits between `s` and `t`. -/
theorem erase_spec (h : Heap T) (l : LinkedList) (s t : List (Addr × T)) (n : Addr × T)
    (hwf : WellFormed h l (s ++ n :: t)) :
    ∃ h1, l.erase h ⟨n.1⟩ = some (h1, { l with _size := l._size - 1 }) ∧
      WellFormed h1 { l with _size := l._size - 1 } (s ++ t) ∧
      h1.allocated = h.allocated.erase n.1 ∧
      h1.cells n.1 = none ∧
      (∀ a, a ∉ (ring l (s ++ t)).map Prod.fst → a ≠ n.1 → h1.cells a = h.cells a) ∧
      (∃ x, h1.cells (lastAddr (ring l s) l._fake_node) = some x ∧
        x.next = headAddr t l._fake_node) ∧
      (∃ y, h1.cells (headAddr t l._fake_node) = some y ∧
        y.prev = lastAddr (ring l s) l._fake_node) ∧
      h.cells n.1 = some { prev := lastAddr (ring l s) l._fake_node,
                           next := headAddr t l._fake_node, object := some n.2 } := by
  have hlen := wf_length_lt h l _ hwf
  obtain ⟨hseg, hnd, hsz, hal, hrg⟩ := hwf
  rw [ring_split_cons] at hseg hnd hrg
  obtain ⟨hcell, h3, h4, hset3, hset4, hseg4, hal4, hgone, hfr4⟩ :=
    ring_unlink (h.deallocate n.1) ((l._fake_node, none) :: lift s) (lift t) l._fake_node n.1
      (some n.2) (by simp) rfl hnd hseg
  have hcell1 : h.cells n.1 = some
      { prev := lastAddr ((l._fake_node, none) :: lift s) l._fake_node
        next := headAddr (lift t) l._fake_node
        object := some n.2 } := hcell
  have hset3b : ((h.destroy n.1).deallocate n.1).set_next
      (lastAddr ((l._fake_node, none) :: lift s) l._fake_node) (headAddr (lift t) l._fake_node)
      = some h3 := hset3
  have hmod : (l._size + SIZE_MOD - 1) % SIZE_MOD = l._size - 1 := by
    rw [hsz] at *
    simp only [List.length_append, List.length_cons] at hlen ⊢
    have : s.length + (t.length + 1) + SIZE_MOD - 1 = (s.length + t.length) + SIZE_MOD := by omega
    rw [this, Nat.add_mod_right, Nat.mod_eq_of_lt (by omega)]
    omega
  have hnalloc : n.1 ∈ h.allocated := hal n (by simp)
  have hnd1 : (((l._fake_node, (none : Option T)) :: lift s).map Prod.fst ++
      n.1 :: (lift t).map Prod.fst).Nodup := by
    simpa [List.map_append] using hnd
  refine ⟨h4, ?_, ⟨?_, ?_, ?_, ?_, ?_⟩, ?_, hgone, ?_, ?_, ?_,
    (by rw [← headAddr_lift]; exact hcell1)⟩
  · simp only [LinkedList.erase, List_Iterator_Base.get_pointer, hcell1, hnalloc, hset3b,
      hset4, hmod]
    simp
  · rw [ring_split]; exact hseg4
  · rw [ring_split]
    have := List.nodup_middle.mp hnd1
    simpa [List.map_append] using (List.nodup_cons.mp this).2
  · simp only [hsz, List.length_append, List.length_cons]; omega
  · intro m hm
    rw [hal4]
    simp only [Heap.deallocate, Finset.mem_erase]
    have hm1 : m ∈ s ++ n :: t := by
      rcases List.mem_append.mp hm with hm | hm
      · exact List.mem_append_left _ hm
      · exact List.mem_append_right _ (List.mem_cons_of_mem _ hm)
    refine ⟨?_, hal m hm1⟩
    intro he
    have hmem : m.1 ∈ ((l._fake_node, (none : Option T)) :: lift s).map Prod.fst ++
        (lift t).map Prod.fst := by
      rcases List.mem_append.mp hm with hm | hm
      · apply List.mem_append_left
        simp only [List.map_cons, map_fst_lift]
        exact List.mem_cons_of_mem _ (List.mem_map_of_mem _ hm)
      · apply List.mem_append_right
        rw [map_fst_lift]
        exact List.mem_map_of_mem _ hm
    have := (List.nodup_cons.mp (List.nodup_middle.mp hnd1)).1
    exact this (he ▸ hmem)
  · intro m hm
    rw [ring_split] at hm
    rcases List.mem_append.mp hm with hm | hm
    · exact hrg m (List.mem_append_left _ hm)
    · exact hrg m (List.mem_append_right _ (List.mem_cons_of_mem _ hm))
  · rw [hal4]; rfl
  · intro a ha1 ha2
    rw [ring_split] at ha1
    exact hfr4 a ha1 ha2
  · rw [seg_append] at hseg4
    obtain ⟨x, hx, hxn⟩ := seg_last_cell h4.cells ((l._fake_node, none) :: lift s) _ _
      (by simp) hseg4.1
    rw [headAddr_lift] at hxn
    exact ⟨x, hx, hxn⟩
  · obtain ⟨y, hy, hyp⟩ := ring_position_cell h4.cells ((l._fake_node, none) :: lift s)
      (lift t) l._fake_node (by simp) rfl hseg4
    rw [headAddr_lift] at hy
    exact ⟨y, hy, hyp⟩

end Core

/-! ## Iterators and traversal on well-formed lists -/

section Traversal

variable {T : Type}

theorem incr_eq (h : Heap T) (it : List_Iterator_Base) :
    it.incr h = (h.cells it.ptr_).map (fun c => ⟨c.next⟩) := by
  unfold List_Iterator_Base.incr List_Iterator_Base.add_assign
  have h1 : ((1 : Int) > 0) := by decide
  have h2 : (1 : Int).toNat = 1 := rfl
  rw [if_pos h1, h2]
  unfold List_Iterator_Base.walk_next
  cases h.cells it.ptr_ <;> simp [List_Iterator_Base.walk_next]

theorem decr_eq (h : Heap T) (it : List_Iterator_Base) :
    it.decr h = (h.cells it.ptr_).map (fun c => ⟨c.prev⟩) := by
  unfold List_Iterator_Base.decr List_Iterator_Base.sub_assign List_Iterator_Base.add_assign
  have h0 : wrap_int (-1) = -1 := by decide
  have h1 : ¬ ((-1 : Int) > 0) := by decide
  have h2 : ((-1 : Int) < 0) := by decide
  have h3 : (-(-1 : Int)).toNat = 1 := rfl
  rw [h0, if_neg h1, if_pos h2, h3]
  unfold List_Iterator_Base.walk_prev
  cases h.cells it.ptr_ <;> simp [List_Iterator_Base.walk_prev]

theorem forward_seg (h : Heap T) (vs : List (Addr × T)) (pf al : Addr)
    (hs : Seg h.cells pf (lift vs) al) (hal : al ∉ vs.map Prod.fst) (fuel : Nat)
    (hf : vs.length < fuel) :
    LinkedList.forward_from h ⟨al⟩ fuel ⟨headAddr vs al⟩ = some (vs.map Prod.snd) := by
  induction vs generalizing pf fuel with
  | nil =>
    cases fuel with
    | zero => simp at hf
    | succ k => simp [LinkedList.forward_from, headAddr]
  | cons n vs ih =>
    cases fuel with
    | zero => simp at hf
    | succ k =>
      have hne : n.1 ≠ al := by
        intro he; apply hal; simp [he]
      have hcell : h.cells n.1 = some
          { prev := pf, next := headAddr (lift vs) al, object := some n.2 } := hs.1
      have hrec := ih n.1 hs.2 (fun hh => hal (List.mem_cons_of_mem _ hh)) k
        (by simp at hf; omega)
      have hh : headAddr (n :: vs) al = n.1 := rfl
      rw [hh]
      simp only [LinkedList.forward_from, List_Iterator_Base.mk.injEq, hne,
        if_false, List_Iterator_Base.deref, hcell, incr_eq, Option.map_some',
        headAddr_lift, hrec, List.map_cons]

theorem backward_seg (h : Heap T) (ms : List (Addr × T)) (pf q : Addr)
    (hs : Seg h.cells pf (lift ms) q)
    (hq : ∃ x, h.cells q = some x ∧ x.prev = lastAddr ms pf)
    (hnd : (ms.map Prod.fst).Nodup) (hqn : q ∉ ms.map Prod.fst) (fuel : Nat)
    (hf : ms.length < fuel) :
    LinkedList.backward_from h ⟨headAddr ms q⟩ fuel ⟨q⟩ = some ((ms.map Prod.snd).reverse) := by
  induction ms using List.reverseRecOn generalizing q fuel with
  | nil =>
    cases fuel with
    | zero => simp at hf
    | succ k => simp [LinkedList.backward_from, headAddr]
  | append_singleton ms n ih =>
    cases fuel with
    | zero => simp at hf
    | succ k =>
      obtain ⟨x, hx, hxp⟩ := hq
      have hxp1 : x.prev = n.1 := by rw [hxp]; simp [lastAddr_append, lastAddr]
      have hstop : headAddr (ms ++ [n]) q ≠ q := by
        intro he
        apply hqn
        rw [← he]
        exact headAddr_mem _ _ (by simp)
      have hstop1 : q ≠ headAddr (ms ++ [n]) q := fun he => hstop he.symm
      rw [lift_append, seg_append] at hs
      obtain ⟨hs1, hs2⟩ := hs
      have hcell : h.cells n.1 = some
          { prev := lastAddr (lift ms) pf, next := q, object := some n.2 } := hs2.1
      have hnd1 : (ms.map Prod.fst ++ [n.1]).Nodup := by simpa using hnd
      have hrec := ih n.1 hs1 ⟨_, hcell, lastAddr_lift ms pf⟩ (List.nodup_append.mp hnd1).1
        (fun hh => (List.nodup_append.mp hnd1).2.2 hh (by simp)) k (by simp at hf; omega)
      have hhead : headAddr (ms ++ [n]) q = headAddr ms n.1 := by
        rw [headAddr_append]; rfl
      rw [hhead] at hstop1
      simp only [LinkedList.backward_from, hhead, List_Iterator_Base.mk.injEq, hstop1,
        if_false, decr_eq, hx, Option.map_some', hxp1, List_Iterator_Base.deref, hcell, hrec,
        List.map_append, List.map_cons, List.map_nil, List.reverse_append, List.reverse_cons,
        List.reverse_nil, List.nil_append, List.singleton_append]

theorem wf_sentinel (h : Heap T) (l : LinkedList) (ns : List (Addr × T))
    (hwf : WellFormed h l ns) :
    h.cells l._fake_node = some
      { prev := lastAddr ns l._fake_node, next := headAddr ns l._fake_node, object := none } ∧
    Seg h.cells l._fake_node (lift ns) l._fake_node := by
  have h1 := hwf.1
  simp only [ring, Seg, lastAddr, headAddr_lift, lastAddr_lift] at h1
  exact h1

theorem wf_nodup (h : Heap T) (l : LinkedList) (ns : List (Addr × T))
    (hwf : WellFormed h l ns) :
    l._fake_node ∉ ns.map Prod.fst ∧ (ns.map Prod.fst).Nodup := by
  have h1 := hwf.2.1
  simp only [ring, List.map_cons, map_fst_lift] at h1
  exact List.nodup_cons.mp h1

theorem wf_cbegin (h : Heap T) (l : LinkedList) (ns : List (Addr × T))
    (hwf : WellFormed h l ns) : l.cbegin h = some ⟨headAddr ns l._fake_node⟩ := by
  simp [LinkedList.cbegin, (wf_sentinel h l ns hwf).1]

theorem forward_wf (h : Heap T) (l : LinkedList) (ns : List (Addr × T))
    (hwf : WellFormed h l ns) (fuel : Nat) (hf : ns.length < fuel) :
    l.forward fuel h = some (ns.map Prod.snd) := by
  unfold LinkedList.forward
  rw [wf_cbegin h l ns hwf]
  exact forward_seg h ns _ _ (wf_sentinel h l ns hwf).2 (wf_nodup h l ns hwf).1 fuel hf

theorem backward_wf (h : Heap T) (l : LinkedList) (ns : List (Addr × T))
    (hwf : WellFormed h l ns) (fuel : Nat) (hf : ns.length < fuel) :
    l.backward fuel h = some ((ns.map Prod.snd).reverse) := by
  unfold LinkedList.backward
  rw [wf_cbegin h l ns hwf]
  exact backward_seg h ns _ _ (wf_sentinel h l ns hwf).2
    ⟨_, (wf_sentinel h l ns hwf).1, rfl⟩ (wf_nodup h l ns hwf).2 (wf_nodup h l ns hwf).1 fuel hf

theorem position_mem (h : Heap T) (l : LinkedList) (ns : List (Addr × T))
    (hwf : WellFormed h l ns) (it : List_Iterator_Base) (hpos : Position h l it) :
    it.ptr_ ∈ (ring l ns).map Prod.fst := by
  induction hpos with
  | at_end => simp [ring, LinkedList.cend]
  | next it it1 _ hinc ih =>
    obtain ⟨x, hx, hn, _⟩ := wf_live h l ns hwf _ ih
    rw [incr_eq, hx] at hinc
    simp only [Option.map_some', Option.some.injEq] at hinc
    rw [← hinc]; exact hn

theorem mem_ring_split (l : LinkedList) (ns : List (Addr × T)) (a : Addr)
    (ha : a ∈ (ring l ns).map Prod.fst) :
    ∃ s t, ns = s ++ t ∧ a = headAddr t l._fake_node := by
  simp only [ring, List.map_cons, map_fst_lift, List.mem_cons] at ha
  rcases ha with ha | ha
  · exact ⟨ns, [], by simp, ha⟩
  · obtain ⟨n, hn, rfl⟩ := List.mem_map.mp ha
    obtain ⟨s, t, rfl⟩ := List.append_of_mem hn
    exact ⟨s, n :: t, rfl, rfl⟩

theorem mem_nodes_split (l : LinkedList) (ns : List (Addr × T)) (a : Addr)
    (ha : a ∈ (ring l ns).map Prod.fst) (hne : a ≠ l._fake_node) :
    ∃ s n t, ns = s ++ n :: t ∧ a = n.1 := by
  simp only [ring, List.map_cons, map_fst_lift, List.mem_cons] at ha
  rcases ha with ha | ha
  · exact absurd ha hne
  · obtain ⟨n, hn, rfl⟩ := List.mem_map.mp ha
    obtain ⟨s, t, rfl⟩ := List.append_of_mem hn
    exact ⟨s, n, t, rfl, rfl⟩

end Traversal

/-! ## Every operation keeps a list well-formed -/

section Steps

variable {T A : Type}

theorem wf_congr (h h1 : Heap T) (l : LinkedList) (ns : List (Addr × T))
    (hwf : WellFormed h l ns)
    (hc : ∀ a ∈ (ring l ns).map Prod.fst, h1.cells a = h.cells a)
    (ha : ∀ n ∈ ns, n.1 ∈ h1.allocated) : WellFormed h1 l ns :=
  ⟨seg_congr _ _ _ _ _ hc hwf.1, hwf.2.1, hwf.2.2.1, ha, hwf.2.2.2.2⟩

theorem wf_default_ctor (h0 : Heap T) (self : Addr) (hf : Fresh h0 self) :
    WellFormed (LinkedList.default_ctor h0 self).1 (LinkedList.default_ctor h0 self).2 [] := by
  refine ⟨?_, ?_, rfl, ?_, ?_⟩
  · simp [LinkedList.default_ctor, ring, lift, Seg, lastAddr, headAddr, write_cells]
  · simp [ring, lift]
  · intro n hn; simp at hn
  · intro n hn
    simp only [ring, lift, List.map_nil, List.mem_singleton] at hn
    subst hn
    exact ⟨hf.1, hf.2.1⟩

theorem evolves_same (h h1 : Heap T) (l : LinkedList) (ns : List (Addr × T))
    (hwf : WellFormed h l ns) (hc : h1.cells = h.cells) (ha : h1.allocated = h.allocated) :
    Evolves h l ns h1 l :=
  ⟨ns, wf_congr h h1 l ns hwf (fun a _ => by rw [hc]) (fun n hn => by rw [ha]; exact hwf.2.2.2.1 n hn),
    rfl, fun a ha1 => Or.inl ha1, fun a _ _ => ⟨by rw [hc], by rw [ha]⟩⟩

/-- Effect of a successful `emplace`. -/
theorem emplace_spec (h : Heap T) (l : LinkedList) (s t : List (Addr × T))
    (it : List_Iterator_Base) (args : A) (w : T) (p : Addr) (env : Env A T)
    (hwf : WellFormed h l (s ++ t)) (hit : it.ptr_ = headAddr t l._fake_node)
    (ha : env.allocate = some p) (hp : Fresh h p) (hc : env.construct args = some w) :
    ∃ h1, l.emplace h it args env = .ok (h1, { l with _size := l._size + 1 }) ∧
      WellFormed h1 { l with _size := l._size + 1 } (s ++ (p, w) :: t) ∧
      h1.allocated = Insert.insert p h.allocated ∧
      ∀ a, a ∉ (ring l (s ++ t)).map Prod.fst → a ≠ p → h1.cells a = h.cells a := by
  rw [emplace_eq_insert h l it args env w]
  exact insert_spec h l s t it w w p _ hwf hit ha hp hc

theorem emplace_final (h : Heap T) (l : LinkedList) (ns : List (Addr × T))
    (it : List_Iterator_Base) (args : A) (env : Env A T) (s1 : LinkedList.State T)
    (hwf : WellFormed h l ns) (hit : it.ptr_ ∈ (ring l ns).map Prod.fst)
    (hsound : env.Sound h) (hfin : (l.emplace h it args env).final = some s1) :
    Evolves h l ns s1.1 s1.2 := by
  obtain ⟨s, t, rfl, hit1⟩ := mem_ring_split l ns _ hit
  obtain ⟨x, hx, _⟩ := wf_live h l _ hwf _ hit
  cases ha : env.allocate with
  | none =>
    have : l.emplace h it args env = .threw (h, l) := by
      simp only [LinkedList.emplace, List_Iterator_Base.get_pointer, hx, ha]
    rw [this] at hfin
    simp only [Result.final, Option.some.injEq] at hfin
    subst hfin
    exact evolves_same h h l _ hwf rfl rfl
  | some p =>
    have hp : Fresh h p := hsound p ha
    cases hc : env.construct args with
    | none =>
      have : l.emplace h it args env = .threw ((h.allocate p).deallocate p, l) := by
        simp only [LinkedList.emplace, List_Iterator_Base.get_pointer, hx, ha, hc]
      rw [this] at hfin
      simp only [Result.final, Option.some.injEq] at hfin
      subst hfin
      exact evolves_same h _ l _ hwf rfl (by
        simp only [Heap.deallocate, Heap.allocate]
        exact Finset.erase_insert hp.2.2.2)
    | some w =>
      obtain ⟨h1, hok, hwf1, hal1, hfr1⟩ := emplace_spec h l s t it args w p env hwf hit1 ha hp hc
      rw [hok] at hfin
      simp only [Result.final, Option.some.injEq] at hfin
      subst hfin
      refine ⟨_, hwf1, rfl, ?_, ?_⟩
      · intro a ha1
        rw [ring_split_cons] at ha1
        rw [ring_split]
        simp only [List.map_append, List.map_cons, List.mem_append, List.mem_cons] at ha1 ⊢
        rcases ha1 with ha1 | rfl | ha1
        · exact Or.inl (Or.inl ha1)
        · exact Or.inr hp.2.2.1
        · exact Or.inl (Or.inr ha1)
      · intro a ha1 ha2
        have hap : a ≠ p := fun he => ha2 (he ▸ hp.2.2.1)
        refine ⟨hfr1 a ha1 hap, ?_⟩
        simp only [hal1, Finset.mem_insert, hap, false_or]

theorem insert_final (h : Heap T) (l : LinkedList) (ns : List (Addr × T))
    (it : List_Iterator_Base) (v : T) (env : Env T T) (s1 : LinkedList.State T)
    (hwf : WellFormed h l ns) (hit : it.ptr_ ∈ (ring l ns).map Prod.fst)
    (hsound : env.Sound h) (hfin : (l.insert h it v env).final = some s1) :
    Evolves h l ns s1.1 s1.2 :=
  emplace_final h l ns it v env s1 hwf hit hsound hfin

theorem erase_final (h : Heap T) (l : LinkedList) (ns : List (Addr × T))
    (it : List_Iterator_Base) (s1 : LinkedList.State T)
    (hwf : WellFormed h l ns) (hit : it.ptr_ ∈ (ring l ns).map Prod.fst)
    (hne : it.ptr_ ≠ l._fake_node) (hfin : l.erase h it = some s1) :
    Evolves h l ns s1.1 s1.2 := by
  obtain ⟨s, n, t, rfl, hit1⟩ := mem_nodes_split l ns _ hit hne
  obtain ⟨h1, hok, hwf1, hal1, _, hfr1, _⟩ := erase_spec h l s t n hwf
  have hiteq : it = ⟨n.1⟩ := by cases it; simp at hit1; simp [hit1]
  rw [hiteq, hok] at hfin
  simp only [Option.some.injEq] at hfin
  subst hfin
  have hsub : ∀ a, a ∈ (ring l (s ++ t)).map Prod.fst → a ∈ (ring l (s ++ n :: t)).map Prod.fst := by
    intro a ha1
    rw [ring_split] at ha1
    rw [ring_split_cons]
    simp only [List.map_append, List.map_cons, List.mem_append, List.mem_cons] at ha1 ⊢
    rcases ha1 with ha1 | ha1
    · exact Or.inl ha1
    · exact Or.inr (Or.inr ha1)
  have hn_mem : n.1 ∈ (ring l (s ++ n :: t)).map Prod.fst := by
    rw [ring_split_cons]; simp
  refine ⟨_, hwf1, rfl, fun a ha1 => Or.inl (hsub a ha1), ?_⟩
  intro a ha1 _
  have han : a ≠ n.1 := fun he => ha1 (he ▸ hn_mem)
  refine ⟨hfr1 a (fun hh => ha1 (hsub a hh)) han, ?_⟩
  simp only [hal1, Finset.mem_erase, han, ne_eq, not_false_eq_true, true_and]

end Steps

section MoreSteps

variable {T A : Type}

theorem seg_set_object (c : Addr → Option (Node T)) (as bs : List (Addr × Option T))
    (a pf al : Addr) (o o1 : Option T)
    (hnd : ((as ++ (a, o) :: bs).map Prod.fst).Nodup)
    (hs : Seg c pf (as ++ (a, o) :: bs) al) :
    ∃ x, c a = some x ∧ x.object = o ∧
      Seg (fun q => if q = a then some { x with object := o1 } else c q) pf
        (as ++ (a, o1) :: bs) al := by
  have hnd1 : (as.map Prod.fst ++ a :: bs.map Prod.fst).Nodup := by
    simpa [List.map_append] using hnd
  have ha_bs : a ∉ bs.map Prod.fst := (List.nodup_cons.mp (List.nodup_append.mp hnd1).2.1).1
  have ha_as : a ∉ as.map Prod.fst := fun hh =>
    (List.nodup_append.mp hnd1).2.2 hh (List.mem_cons_self _ _)
  rw [seg_append] at hs
  obtain ⟨hs_as, hcell, hs_bs⟩ := hs
  refine ⟨_, hcell, rfl, ?_⟩
  rw [seg_append]
  refine ⟨?_, ?_, ?_⟩
  · apply seg_congr c _ _ _ _ _ hs_as
    intro q hq
    have : q ≠ a := fun he => ha_as (he ▸ hq)
    simp [this]
  · simp
  · apply seg_congr c _ _ _ _ _ hs_bs
    intro q hq
    have : q ≠ a := fun he => ha_bs (he ▸ hq)
    simp [this]

theorem assign_through_final (h : Heap T) (l : LinkedList) (ns : List (Addr × T))
    (it : List_Iterator_Base) (v : T) (h1 : Heap T)
    (hwf : WellFormed h l ns) (hit : it.ptr_ ∈ (ring l ns).map Prod.fst)
    (hne : it.ptr_ ≠ l._fake_node) (hfin : LinkedList.assign_through h it v = some h1) :
    Evolves h l ns h1 l := by
  obtain ⟨s, n, t, rfl, hit1⟩ := mem_nodes_split l ns _ hit hne
  obtain ⟨hseg, hnd, hsz, hal, hrg⟩ := hwf
  rw [ring_split_cons] at hseg hnd hrg
  obtain ⟨x, hx, hxo, hseg1⟩ := seg_set_object h.cells _ _ n.1 _ _ (some n.2) (some v) hnd hseg
  rw [← hit1] at hx
  simp only [LinkedList.assign_through, hx, hxo, Option.some.injEq] at hfin
  subst hfin
  have haddr : (ring l (s ++ (n.1, v) :: t)).map Prod.fst = (ring l (s ++ n :: t)).map Prod.fst := by
    simp [ring, lift]
  refine ⟨s ++ (n.1, v) :: t, ⟨?_, ?_, ?_, ?_, ?_⟩, rfl, ?_, ?_⟩
  · rw [ring_split_cons]
    have hl : lastAddr (((l._fake_node, (none : Option T)) :: lift s) ++ (n.1, some v) :: lift t)
        l._fake_node =
        lastAddr (((l._fake_node, (none : Option T)) :: lift s) ++ (n.1, some n.2) :: lift t)
        l._fake_node := by
      rw [lastAddr_append, lastAddr_append]; rfl
    show Seg _ (lastAddr (((l._fake_node, (none : Option T)) :: lift s) ++
      (n.1, some v) :: lift t) l._fake_node) _ _
    rw [hl, hit1]
    exact hseg1
  · rw [haddr, ring_split_cons]; exact hnd
  · simpa using hsz
  · intro m hm
    show m.1 ∈ h.allocated
    rcases List.mem_append.mp hm with hm | hm
    · exact hal m (List.mem_append_left _ hm)
    · rcases List.mem_cons.mp hm with rfl | hm
      · exact hal n (by simp)
      · exact hal m (List.mem_append_right _ (List.mem_cons_of_mem _ hm))
  · intro m hm
    rw [ring_split_cons] at hm
    rcases List.mem_append.mp hm with hm | hm
    · exact hrg m (List.mem_append_left _ hm)
    · rcases List.mem_cons.mp hm with rfl | hm
      · exact hrg (n.1, some n.2) (by simp)
      · exact hrg m (List.mem_append_right _ (List.mem_cons_of_mem _ hm))
  · intro a ha; rw [haddr] at ha; exact Or.inl ha
  · intro a ha _
    have : a ≠ it.ptr_ := fun he => ha (he ▸ hit)
    exact ⟨by simp [write_cells, this], Iff.rfl⟩

theorem wf_decr_cend (h : Heap T) (l : LinkedList) (ns : List (Addr × T))
    (hwf : WellFormed h l ns) : l.cend.decr h = some ⟨lastAddr ns l._fake_node⟩ := by
  rw [decr_eq]
  simp [LinkedList.cend, (wf_sentinel h l ns hwf).1]

theorem wf_head_mem (l : LinkedList) (ns : List (Addr × T)) :
    headAddr ns l._fake_node ∈ (ring l ns).map Prod.fst := by
  cases ns with
  | nil => simp [ring, headAddr]
  | cons n ns => simp [ring, lift, headAddr]

theorem wf_last_mem (l : LinkedList) (ns : List (Addr × T)) :
    lastAddr ns l._fake_node ∈ (ring l ns).map Prod.fst := by
  have := lastAddr_mem (ring l ns) l._fake_node (by simp [ring])
  simpa [ring, lastAddr, lastAddr_lift] using this

theorem wf_head_ne (h : Heap T) (l : LinkedList) (ns : List (Addr × T))
    (hwf : WellFormed h l ns) (hne : ns ≠ []) : headAddr ns l._fake_node ≠ l._fake_node := by
  intro he
  exact (wf_nodup h l ns hwf).1 (he ▸ headAddr_mem ns l._fake_node hne)

theorem wf_last_ne (h : Heap T) (l : LinkedList) (ns : List (Addr × T))
    (hwf : WellFormed h l ns) (hne : ns ≠ []) : lastAddr ns l._fake_node ≠ l._fake_node := by
  intro he
  exact (wf_nodup h l ns hwf).1 (he ▸ lastAddr_mem ns l._fake_node hne)

theorem wf_size_ne (h : Heap T) (l : LinkedList) (ns : List (Addr × T))
    (hwf : WellFormed h l ns) (hsz : l.size ≠ 0) : ns ≠ [] := by
  intro he
  apply hsz
  simp [LinkedList.size, hwf.2.2.1, he]

/-- Every operation turns a well-formed list into a well-formed list and leaves
the objects outside its ring alone. -/
theorem step_evolves (h : Heap T) (l : LinkedList) (ns : List (Addr × T))
    (s1 : LinkedList.State T) (hwf : WellFormed h l ns) (hstep : Step (h, l) s1) :
    Evolves h l ns s1.1 s1.2 := by
  cases hstep with
  | insert _ _ it v env _ hpos hsound hfin =>
    exact insert_final h l ns it v env s1 hwf (position_mem h l ns hwf it hpos) hsound hfin
  | emplace B _ _ it args env _ hpos hsound hfin =>
    exact emplace_final h l ns it args env s1 hwf (position_mem h l ns hwf it hpos) hsound hfin
  | push_back _ _ v env _ hsound hfin =>
    exact insert_final h l ns l.cend v env s1 hwf (by simp [LinkedList.cend, ring]) hsound hfin
  | push_front _ _ v env _ hsound hfin =>
    simp only [LinkedList.push_front, wf_cbegin h l ns hwf] at hfin
    exact insert_final h l ns _ v env s1 hwf (wf_head_mem l ns) hsound hfin
  | emplace_back B _ _ args env _ hsound hfin =>
    exact emplace_final h l ns l.cend args env s1 hwf (by simp [LinkedList.cend, ring]) hsound hfin
  | emplace_front B _ _ args env _ hsound hfin =>
    simp only [LinkedList.emplace_front, wf_cbegin h l ns hwf] at hfin
    exact emplace_final h l ns _ args env s1 hwf (wf_head_mem l ns) hsound hfin
  | erase _ _ it _ hpos hne hfin =>
    refine erase_final h l ns it s1 hwf (position_mem h l ns hwf it hpos) ?_ hfin
    intro he
    apply hne
    cases it
    simp only [LinkedList.cend] at he ⊢
    simp [he]
  | pop_back _ _ _ hsz hfin =>
    simp only [LinkedList.pop_back, wf_decr_cend h l ns hwf] at hfin
    exact erase_final h l ns _ s1 hwf (wf_last_mem l ns)
      (wf_last_ne h l ns hwf (wf_size_ne h l ns hwf hsz)) hfin
  | pop_front _ _ _ hsz hfin =>
    simp only [LinkedList.pop_front, wf_cbegin h l ns hwf] at hfin
    exact erase_final h l ns _ s1 hwf (wf_head_mem l ns)
      (wf_head_ne h l ns hwf (wf_size_ne h l ns hwf hsz)) hfin
  | assign_through _ _ it v h1 hpos hne hfin =>
    refine assign_through_final h l ns it v h1 hwf (position_mem h l ns hwf it hpos) ?_ hfin
    intro he
    apply hne
    cases it
    simp only [LinkedList.cend] at he ⊢
    simp [he]

/-- Every reachable list is well-formed. -/
theorem reachable_wf (s : LinkedList.State T) (hr : Reachable s) :
    ∃ ns, WellFormed s.1 s.2 ns := by
  induction hr with
  | init h0 self hf => exact ⟨[], wf_default_ctor h0 self hf⟩
  | step s s1 _ hstep ih =>
    obtain ⟨ns, hwf⟩ := ih
    obtain ⟨h, l⟩ := s
    obtain ⟨ns1, hwf1, _⟩ := step_evolves h l ns s1 hwf hstep
    exact ⟨ns1, hwf1⟩

end MoreSteps

/-! ## The claims -/

section Claims

variable {T A : Type}

theorem demo_s3_reachable : Reachable demo_s3 := by
  have h0 : Reachable demo_s0 := Reachable.init demo_empty 10 (by decide)
  have h1 : Reachable demo_s1 :=
    Reachable.step _ _ h0 (Step.push_back demo_s0.1 demo_s0.2 1 (demo_env 20) demo_s1
      (by intro p hp; cases hp; decide) rfl)
  have h2 : Reachable demo_s2 :=
    Reachable.step _ _ h1 (Step.push_front demo_s1.1 demo_s1.2 2 (demo_env 30) demo_s2
      (by intro p hp; cases hp; decide) rfl)
  exact Reachable.step _ _ h2 (Step.pop_back demo_s2.1 demo_s2.2 demo_s3 (by decide) rfl)

/-- C1: in every list reached from a freshly constructed list by a finite sequence of
operations, `size()` is the number of elements visited by the forward traversal
`begin() .. end()` and also the number visited by the reverse traversal
`rbegin() .. rend()`; both traversals finish with any fuel above `size()`. -/
theorem C1_size_counts_both_traversals (s : LinkedList.State T) (hr : Reachable s) :
    ∃ fwd bwd : List T,
      (∀ fuel, s.2.size < fuel →
        s.2.forward fuel s.1 = some fwd ∧ s.2.backward fuel s.1 = some bwd) ∧
      fwd.length = s.2.size ∧ bwd.length = s.2.size := by
  obtain ⟨ns, hwf⟩ := reachable_wf s hr
  have hsz : s.2.size = ns.length := hwf.2.2.1
  refine ⟨ns.map Prod.snd, (ns.map Prod.snd).reverse, ?_, by simp [hsz], by simp [hsz]⟩
  intro fuel hf
  rw [hsz] at hf
  exact ⟨forward_wf s.1 s.2 ns hwf fuel hf, backward_wf s.1 s.2 ns hwf fuel hf⟩

theorem C1_size_counts_both_traversals_witness :
    Reachable demo_s3 ∧
    ∃ fwd bwd : List Nat,
      (∀ fuel, demo_s3.2.size < fuel →
        demo_s3.2.forward fuel demo_s3.1 = some fwd ∧
        demo_s3.2.backward fuel demo_s3.1 = some bwd) ∧
      fwd.length = demo_s3.2.size ∧ bwd.length = demo_s3.2.size :=
  ⟨demo_s3_reachable, C1_size_counts_both_traversals demo_s3 demo_s3_reachable⟩

theorem forward_unique (h : Heap T) (l : LinkedList) (ns : List (Addr × T))
    (hwf : WellFormed h l ns) (xs : List T) (hxs : l.forward (l.size + 1) h = some xs) :
    xs = ns.map Prod.snd := by
  have hsz : l.size = ns.length := hwf.2.2.1
  rw [forward_wf h l ns hwf (l.size + 1) (by omega)] at hxs
  exact (Option.some.inj hxs).symm

/-- C2: on a well-formed list whose forward traversal is `xs`, `insert` in front of the
position with index `i` (`i = size()` being `end()`) returns, and the resulting list
has forward traversal `xs.take i ++ [v] ++ xs.drop i` and `size()` one larger. -/
theorem C2_insert_at_position (h : Heap T) (l : LinkedList) (ns : List (Addr × T))
    (xs : List T) (i : Nat) (v : T) (p : Addr) (env : Env T T)
    (hwf : WellFormed h l ns) (hxs : l.forward (l.size + 1) h = some xs) (_hi : i ≤ l.size)
    (ha : env.allocate = some p) (hp : Fresh h p) (hc : env.construct v = some v) :
    ∃ h1 l1, l.insert h ⟨addrAt l ns i⟩ v env = .ok (h1, l1) ∧
      (∀ fuel, l1.size < fuel →
        l1.forward fuel h1 = some (xs.take i ++ [v] ++ xs.drop i)) ∧
      l1.size = l.size + 1 ∧ ∃ ns1, WellFormed h1 l1 ns1 := by
  have hx := forward_unique h l ns hwf xs hxs
  have hsplit : ns = ns.take i ++ ns.drop i := (List.take_append_drop i ns).symm
  have hwf0 := hwf
  rw [hsplit] at hwf
  obtain ⟨h1, hok, hwf1, _, _⟩ :=
    insert_spec h l (ns.take i) (ns.drop i) ⟨addrAt l ns i⟩ v v p env hwf rfl ha hp hc
  refine ⟨h1, _, hok, ?_, rfl, _, hwf1⟩
  intro fuel hf
  have hsz1 := hwf1.2.2.1
  rw [forward_wf h1 _ _ hwf1 fuel (by rw [← hsz1]; exact hf), hx]
  simp [List.map_take, List.map_drop]

theorem C2_insert_at_position_witness :
    WellFormed demo_heap demo_list demo_nodes ∧
    demo_list.forward (demo_list.size + 1) demo_heap = some [1, 2, 3] ∧
    1 ≤ demo_list.size ∧ (demo_env 50).allocate = some 50 ∧ Fresh demo_heap 50 ∧
    (demo_env 50).construct 9 = some 9 ∧
    ∃ h1 l1, demo_list.insert demo_heap ⟨addrAt demo_list demo_nodes 1⟩ 9 (demo_env 50)
        = .ok (h1, l1) ∧
      (∀ fuel, l1.size < fuel → l1.forward fuel h1 = some ([1] ++ [9] ++ [2, 3])) ∧
      l1.size = 3 + 1 ∧ ∃ ns1, WellFormed h1 l1 ns1 :=
  ⟨by decide, by decide, by decide, rfl, by decide, rfl,
    C2_insert_at_position demo_heap demo_list demo_nodes [1, 2, 3] 1 9 50 (demo_env 50)
      (by decide) (by decide) (by decide) rfl (by decide) rfl⟩

/-- C3: on a well-formed list whose forward traversal is `xs`, `erase` of the value node
with index `i < size()` returns; the resulting list has forward traversal `xs` without
its `i`-th element and `size()` one smaller, and the predecessor and the successor of
the erased node (its former `prev` and `next`) point at each other. -/
theorem C3_erase_at_index (h : Heap T) (l : LinkedList) (ns : List (Addr × T))
    (xs : List T) (i : Nat)
    (hwf : WellFormed h l ns) (hxs : l.forward (l.size + 1) h = some xs) (hi : i < l.size) :
    ∃ c h1 l1, h.cells (addrAt l ns i) = some c ∧
      l.erase h ⟨addrAt l ns i⟩ = some (h1, l1) ∧
      (∀ fuel, l1.size < fuel → l1.forward fuel h1 = some (xs.eraseIdx i)) ∧
      l1.size = l.size - 1 ∧
      (∃ x, h1.cells c.prev = some x ∧ x.next = c.next) ∧
      (∃ y, h1.cells c.next = some y ∧ y.prev = c.prev) ∧
      ∃ ns1, WellFormed h1 l1 ns1 := by
  have hx := forward_unique h l ns hwf xs hxs
  have hsz : l.size = ns.length := hwf.2.2.1
  have hi1 : i < ns.length := hsz ▸ hi
  have hdrop : ns.drop i = ns[i] :: ns.drop (i + 1) := List.drop_eq_getElem_cons hi1
  have hsplit : ns = ns.take i ++ ns[i] :: ns.drop (i + 1) := by
    rw [← hdrop]; exact (List.take_append_drop i ns).symm
  have haddr : addrAt l ns i = ns[i].1 := by
    simp only [addrAt, hdrop, headAddr]
  rw [hsplit] at hwf
  obtain ⟨h1, hok, hwf1, _, _, _, hpn, hnp, hcell⟩ :=
    erase_spec h l (ns.take i) (ns.drop (i + 1)) ns[i] hwf
  rw [haddr]
  refine ⟨_, h1, _, hcell, hok, ?_, rfl, hpn, hnp, _, hwf1⟩
  intro fuel hf
  have hsz1 := hwf1.2.2.1
  rw [forward_wf h1 _ _ hwf1 fuel (by rw [← hsz1]; exact hf), hx,
    List.eraseIdx_eq_take_drop_succ]
  simp [List.map_take, List.map_drop]

theorem C3_erase_at_index_witness :
    WellFormed demo_heap demo_list demo_nodes ∧
    demo_list.forward (demo_list.size + 1) demo_heap = some [1, 2, 3] ∧
    1 < demo_list.size ∧
    ∃ c h1 l1, demo_heap.cells (addrAt demo_list demo_nodes 1) = some c ∧
      demo_list.erase demo_heap ⟨addrAt demo_list demo_nodes 1⟩ = some (h1, l1) ∧
      (∀ fuel, l1.size < fuel → l1.forward fuel h1 = some ([1, 2, 3].eraseIdx 1)) ∧
      l1.size = demo_list.size - 1 ∧
      (∃ x, h1.cells c.prev = some x ∧ x.next = c.next) ∧
      (∃ y, h1.cells c.next = some y ∧ y.prev = c.prev) ∧
      ∃ ns1, WellFormed h1 l1 ns1 :=
  ⟨by decide, by decide, by decide,
    C3_erase_at_index demo_heap demo_list demo_nodes [1, 2, 3] 1
      (by decide) (by decide) (by decide)⟩

/-- C4: on a well-formed list with two distinct value nodes `a` and `b`, `erase` of
`a` returns; afterwards `b` is still a value node of the list, the iterator to `b`
dereferences to the same element, the node `a` is gone and its block deallocated, and
every other address holds an object with the same element as before, or none as
before. -/
theorem C4_erase_keeps_other_nodes (h : Heap T) (l : LinkedList) (ns : List (Addr × T))
    (a b : Addr × T) (hwf : WellFormed h l ns) (ha : a ∈ ns) (hb : b ∈ ns)
    (hab : a.1 ≠ b.1) :
    ∃ h1 l1 ns1, l.erase h ⟨a.1⟩ = some (h1, l1) ∧ WellFormed h1 l1 ns1 ∧ b ∈ ns1 ∧
      List_Iterator_Base.deref h ⟨b.1⟩ = some b.2 ∧
      List_Iterator_Base.deref h1 ⟨b.1⟩ = some b.2 ∧
      h1.cells a.1 = none ∧ h1.allocated = h.allocated.erase a.1 ∧
      ∀ q, q ≠ a.1 → (h1.cells q).map Node.object = (h.cells q).map Node.object := by
  obtain ⟨s, t, rfl⟩ := List.append_of_mem ha
  obtain ⟨h1, hok, hwf1, hal1, hgone, hfr, _⟩ := erase_spec h l s t a hwf
  have hb1 : b ∈ s ++ t := by
    rcases List.mem_append.mp hb with hb | hb
    · exact List.mem_append_left _ hb
    · rcases List.mem_cons.mp hb with rfl | hb
      · exact absurd rfl hab
      · exact List.mem_append_right _ hb
  have hsub : ∀ e, e ∈ ring l (s ++ t) → e ∈ ring l (s ++ a :: t) := by
    intro e he
    rw [ring_split] at he
    rw [ring_split_cons]
    rcases List.mem_append.mp he with he | he
    · exact List.mem_append_left _ he
    · exact List.mem_append_right _ (List.mem_cons_of_mem _ he)
  have hobj : ∀ e, e ∈ ring l (s ++ t) →
      (h1.cells e.1).map Node.object = some e.2 ∧ (h.cells e.1).map Node.object = some e.2 := by
    intro e he
    obtain ⟨x, hx, hxo⟩ := seg_object _ _ _ _ hwf1.1 e he hwf1.2.1
    obtain ⟨y, hy, hyo⟩ := seg_object _ _ _ _ hwf.1 e (hsub e he) hwf.2.1
    simp [hx, hy, hxo, hyo]
  have hbring : (b.1, some b.2) ∈ ring l (s ++ t) := by
    simp only [ring, lift, List.mem_cons, List.mem_map]
    exact Or.inr ⟨b, hb1, rfl⟩
  have hderef : ∀ g : Heap T, (g.cells b.1).map Node.object = some (some b.2) →
      List_Iterator_Base.deref g ⟨b.1⟩ = some b.2 := by
    intro g hg
    unfold List_Iterator_Base.deref
    cases hc : g.cells b.1 with
    | none => rw [hc] at hg; simp at hg
    | some c => rw [hc] at hg; simpa using hg
  refine ⟨h1, _, _, hok, hwf1, hb1, hderef h (hobj _ hbring).2, hderef h1 (hobj _ hbring).1,
    hgone, hal1, ?_⟩
  intro q hq
  by_cases hmem : q ∈ (ring l (s ++ t)).map Prod.fst
  · obtain ⟨e, he, rfl⟩ := List.mem_map.mp hmem
    rw [(hobj e he).1, (hobj e he).2]
  · rw [hfr q hmem hq]

theorem C4_erase_keeps_other_nodes_witness :
    WellFormed demo_heap demo_list demo_nodes ∧ (20, 1) ∈ demo_nodes ∧ (40, 3) ∈ demo_nodes ∧
    (20 : Addr) ≠ 40 ∧
    ∃ h1 l1 ns1, demo_list.erase demo_heap ⟨20⟩ = some (h1, l1) ∧ WellFormed h1 l1 ns1 ∧
      ((40, 3) : Addr × Nat) ∈ ns1 ∧
      List_Iterator_Base.deref demo_heap ⟨40⟩ = some 3 ∧
      List_Iterator_Base.deref h1 ⟨40⟩ = some 3 ∧
      h1.cells 20 = none ∧ h1.allocated = demo_heap.allocated.erase 20 ∧
      ∀ q, q ≠ 20 → (h1.cells q).map Node.object = (demo_heap.cells q).map Node.object :=
  ⟨by decide, by decide, by decide, by decide,
    C4_erase_keeps_other_nodes demo_heap demo_list demo_nodes (20, 1) (40, 3)
      (by decide) (by decide) (by decide) (by decide)⟩

theorem heap_alloc_dealloc (h : Heap T) (p : Addr) (hp : p ∉ h.allocated) :
    (h.allocate p).deallocate p = h := by
  cases h
  simp only [Heap.allocate, Heap.deallocate] at hp ⊢
  rw [Finset.erase_insert hp]

theorem emplace_fails (h : Heap T) (l : LinkedList) (it : List_Iterator_Base) (nc : Node T)
    (hit : h.cells it.ptr_ = some nc) (args : A) (env : Env A T) (hf : env.Fails h args) :
    l.emplace h it args env = .threw (h, l) := by
  rcases hf with ha | ⟨p, ha, hp, hc⟩
  · simp only [LinkedList.emplace, List_Iterator_Base.get_pointer, hit, ha]
  · simp only [LinkedList.emplace, List_Iterator_Base.get_pointer, hit, ha, hc,
      heap_alloc_dealloc h p hp]

theorem fresh_preserved (h h1 : Heap T) (l : LinkedList) (ns : List (Addr × T)) (p q : Addr)
    (hwf : WellFormed h l ns) (hq : Fresh h q) (hqp : q ≠ p)
    (hal : h1.allocated = Insert.insert p h.allocated)
    (hfr : ∀ a, a ∉ (ring l ns).map Prod.fst → a ≠ p → h1.cells a = h.cells a) :
    Fresh h1 q := by
  refine ⟨hq.1, hq.2.1, ?_, ?_⟩
  · rw [hfr q (fresh_not_mem h l ns hwf q hq.2.2.1) hqp]; exact hq.2.2.1
  · rw [hal]
    simp only [Finset.mem_insert, hqp, false_or]
    exact hq.2.2.2

theorem fresh_default_ctor (h0 : Heap T) (self q : Addr) (hq : Fresh h0 q) (hne : q ≠ self) :
    Fresh (LinkedList.default_ctor h0 self).1 q := by
  refine ⟨hq.1, hq.2.1, ?_, hq.2.2.2⟩
  simp only [LinkedList.default_ctor, write_cells, hne, if_false]
  exact hq.2.2.1

/-- C5: when the allocation fails, or the allocation succeeds and the construction of
the element fails, `insert` / `emplace` at a position whose node is alive (and with
them `push_back`, `emplace_back`, `push_front`, `emplace_front`) leave by an exception
with memory and list object exactly as before the call.  In particular, when two
`emplace_back` calls on a freshly constructed list succeed and the element constructor
throws in the third, the list holds the two elements and `size()` is 2. -/
theorem C5_failure_leaves_list_unchanged (h : Heap T) (l : LinkedList)
    (it : List_Iterator_Base) (nc : Node T) (hit : h.cells it.ptr_ = some nc) :
    (∀ (v : T) (env : Env T T), env.Fails h v → l.insert h it v env = .threw (h, l)) ∧
    (∀ (B : Type) (args : B) (env : Env B T), env.Fails h args →
      l.emplace h it args env = .threw (h, l)) ∧
    (it = l.cend →
      (∀ (v : T) (env : Env T T), env.Fails h v → l.push_back h v env = .threw (h, l)) ∧
      (∀ (B : Type) (args : B) (env : Env B T), env.Fails h args →
        l.emplace_back h args env = .threw (h, l))) ∧
    (l.cbegin h = some it →
      (∀ (v : T) (env : Env T T), env.Fails h v → l.push_front h v env = .threw (h, l)) ∧
      (∀ (B : Type) (args : B) (env : Env B T), env.Fails h args →
        l.emplace_front h args env = .threw (h, l))) ∧
    (∀ (B : Type) (a1 a2 a3 : B) (e1 e2 e3 : Env B T) (h0 : Heap T) (self p1 p2 p3 : Addr)
      (x y : T), Fresh h0 self → Fresh h0 p1 → Fresh h0 p2 → p1 ≠ self → p2 ≠ self →
      p2 ≠ p1 → e1.allocate = some p1 → e1.construct a1 = some x →
      e2.allocate = some p2 → e2.construct a2 = some y →
      e3.allocate = some p3 → p3 ∉ h0.allocated → p3 ≠ p1 → p3 ≠ p2 →
      e3.construct a3 = none →
      ∃ h1 l1 h2 l2,
        (LinkedList.default_ctor h0 self).2.emplace_back (LinkedList.default_ctor h0 self).1
          a1 e1 = .ok (h1, l1) ∧
        l1.emplace_back h1 a2 e2 = .ok (h2, l2) ∧
        l2.emplace_back h2 a3 e3 = .threw (h2, l2) ∧
        (∀ fuel, 2 < fuel → l2.forward fuel h2 = some [x, y]) ∧ l2.size = 2) := by
  refine ⟨fun v env hf => emplace_fails h l it nc hit v env hf,
    fun B args env hf => emplace_fails h l it nc hit args env hf, ?_, ?_, ?_⟩
  · intro he
    subst he
    exact ⟨fun v env hf => emplace_fails h l _ nc hit v env hf,
      fun B args env hf => emplace_fails h l _ nc hit args env hf⟩
  · intro he
    refine ⟨fun v env hf => ?_, fun B args env hf => ?_⟩
    · simp only [LinkedList.push_front, he]
      exact emplace_fails h l it nc hit v env hf
    · simp only [LinkedList.emplace_front, he]
      exact emplace_fails h l it nc hit args env hf
  · intro B a1 a2 a3 e1 e2 e3 h0 self p1 p2 p3 x y hself hp1 hp2 h1s h2s h21 ha1 hc1 ha2 hc2
      ha3 hp3 h31 h32 hc3
    have hwf0 := wf_default_ctor h0 self hself
    have hf1 := fresh_default_ctor h0 self p1 hp1 h1s
    have hf2 := fresh_default_ctor h0 self p2 hp2 h2s
    obtain ⟨h1, hok1, hwf1, hal1, hfr1⟩ :=
      emplace_spec _ _ [] [] (LinkedList.default_ctor h0 self).2.cend a1 x p1 e1 hwf0 rfl ha1
        hf1 hc1
    have hf2b := fresh_preserved _ h1 _ _ p1 p2 hwf0 hf2 h21 hal1 hfr1
    obtain ⟨h2, hok2, hwf2, hal2, _⟩ :=
      emplace_spec h1 _ [(p1, x)] [] (LinkedList.cend _) a2 y p2 e2 hwf1 rfl ha2 hf2b hc2
    have hsent := (wf_sentinel h2 _ _ hwf2).1
    refine ⟨h1, _, h2, _, hok1, hok2, ?_, ?_, rfl⟩
    · apply emplace_fails h2 _ _ _ hsent
      refine Or.inr ⟨p3, ha3, ?_, hc3⟩
      rw [hal2, hal1]
      simp only [Finset.mem_insert, h32, h31, false_or]
      exact hp3
    · intro fuel hf
      exact forward_wf h2 _ _ hwf2 fuel hf

theorem C5_failure_leaves_list_unchanged_witness :
    demo_heap.cells (⟨30⟩ : List_Iterator_Base).ptr_
      = some { prev := 20, next := 40, object := some 2 } ∧
    (∀ (v : Nat) (env : Env Nat Nat), env.Fails demo_heap v →
      demo_list.insert demo_heap ⟨30⟩ v env = .threw (demo_heap, demo_list)) :=
  ⟨by decide,
    (C5_failure_leaves_list_unchanged demo_heap demo_list ⟨30⟩
      { prev := 20, next := 40, object := some 2 } (by decide)).1⟩

/-- C6: the copy assignment breaks when exactly one of the two lists is empty.
Assigning the list `[1]` to an empty list returns with `size() == 1`, but `begin()`
of the target points at the sentinel of the destroyed temporary, so the forward
traversal is undefined, and the copied node is left allocated outside every list.
Assigning an empty list to the list `[1, 2, 3]` runs into undefined behaviour (the
destructor of the temporary erases a sentinel). -/
theorem C6_assign_with_one_empty_list :
    WellFormed demo_pair.1 demo_s0.2 [] ∧ WellFormed demo_pair.1 demo_pair.2 [(21, 1)] ∧
    Fresh demo_pair.1 12 ∧ Fresh demo_pair.1 100 ∧
    (∃ h1 a1, LinkedList.assign demo_envs 10 demo_pair.1 demo_s0.2 demo_pair.2 12
        = .ok (h1, a1) ∧
      a1.size = 1 ∧ a1.cbegin h1 = some ⟨12⟩ ∧ h1.cells 12 = none ∧
      (∀ fuel, a1.forward fuel h1 = none) ∧
      h1.cells 100 = some { prev := 12, next := 100, object := some 1 } ∧
      100 ∈ h1.allocated ∧
      demo_pair.2.forward 5 h1 = some [1]) ∧
    WellFormed demo_other.1 demo_list demo_nodes ∧ WellFormed demo_other.1 demo_other.2 [] ∧
    LinkedList.assign demo_envs 10 demo_other.1 demo_list demo_other.2 12 = .undefined := by
  refine ⟨by decide, by decide, by decide, by decide, ⟨_, _, rfl, rfl, rfl, rfl, ?_, rfl, ?_, rfl⟩,
    by decide, by decide, rfl⟩
  · intro fuel
    cases fuel <;> rfl
  · decide

theorem wf_node_cell (h : Heap T) (l : LinkedList) (s t : List (Addr × T)) (n : Addr × T)
    (hwf : WellFormed h l (s ++ n :: t)) :
    h.cells n.1 = some { prev := lastAddr (ring l s) l._fake_node,
                         next := headAddr t l._fake_node, object := some n.2 } := by
  have hseg := hwf.1
  rw [ring_split_cons, seg_append] at hseg
  have hc := hseg.2.1
  rw [headAddr_lift] at hc
  have hl : ∀ d, lastAddr ((l._fake_node, (none : Option T)) :: lift s) d
      = lastAddr (ring l s) l._fake_node := fun d => rfl
  rw [hl] at hc
  exact hc

/-- The loop of the copy constructor: started at the node that splits the source
into `dn` (already copied into `new`) and `rest`, it returns with the remaining
elements appended and the source untouched. -/
theorem copy_loop_spec (envs : Nat → Env T T) (ps : Nat → Addr) (src : LinkedList)
    (rest : List (Addr × T)) :
    ∀ (dn new : List (Addr × T)) (k fuel : Nat) (h : Heap T) (l : LinkedList),
    WellFormed h src (dn ++ rest) → WellFormed h l new →
    new.map Prod.snd = dn.map Prod.snd →
    (∀ a ∈ (ring l new).map Prod.fst, a ∉ (ring src (dn ++ rest)).map Prod.fst) →
    (∀ j, j < rest.length → (envs (k + j)).allocate = some (ps (k + j)) ∧
      (∀ v, (envs (k + j)).construct v = some v) ∧ Fresh h (ps (k + j))) →
    (∀ i j, i < rest.length → j < rest.length → ps (k + i) = ps (k + j) → i = j) →
    rest.length < fuel →
    ∃ h1 l1 new1,
      LinkedList.copy_loop envs src.cend fuel k h l ⟨headAddr rest src._fake_node⟩
        = .ok (h1, l1) ∧
      WellFormed h1 l1 new1 ∧ new1.map Prod.snd = (dn ++ rest).map Prod.snd ∧
      WellFormed h1 src (dn ++ rest) ∧ l1._fake_node = l._fake_node ∧
      (∀ a ∈ (ring l1 new1).map Prod.fst, a ∉ (ring src (dn ++ rest)).map Prod.fst) ∧
      (∀ a ∈ (ring src (dn ++ rest)).map Prod.fst, h1.cells a = h.cells a) := by
  induction rest with
  | nil =>
    intro dn new k fuel h l hsrc hl hmap hdisj _ _ hfuel
    cases fuel with
    | zero => simp at hfuel
    | succ f =>
      refine ⟨h, l, new, ?_, hl, by simpa using hmap, hsrc, rfl, hdisj, fun a _ => rfl⟩
      simp [LinkedList.copy_loop, headAddr, LinkedList.cend]
  | cons n rest ih =>
    intro dn new k fuel h l hsrc hl hmap hdisj henv hinj hfuel
    cases fuel with
    | zero => simp at hfuel
    | succ f =>
      have hcell := wf_node_cell h src dn rest n hsrc
      have hn_mem : n.1 ∈ (ring src (dn ++ n :: rest)).map Prod.fst := by
        rw [ring_split_cons]; simp
      have hn_ne : n.1 ≠ src._fake_node := by
        intro he
        apply (wf_nodup h src _ hsrc).1
        rw [← he]
        simp
      obtain ⟨ha0, hc0, hf0⟩ := henv 0 (by simp)
      simp only [Nat.add_zero] at ha0 hc0 hf0
      have hl0 : WellFormed h l (new ++ []) := by simpa using hl
      obtain ⟨h1, hok, hwf1, hal1, hfr1⟩ :=
        insert_spec h l new [] l.cend n.2 n.2 (ps k) (envs k) hl0 rfl ha0 hf0 (hc0 n.2)
      simp only [List.append_nil] at hfr1
      have hsrc_same : ∀ a ∈ (ring src (dn ++ n :: rest)).map Prod.fst, h1.cells a = h.cells a := by
        intro a ha
        apply hfr1 a (fun hh => hdisj a hh ha)
        intro he
        exact fresh_not_mem h src _ hsrc (ps k) hf0.2.2.1 (he ▸ ha)
      have hsrc1 : WellFormed h1 src (dn ++ n :: rest) :=
        wf_congr h h1 src _ hsrc hsrc_same (by
          intro m hm
          rw [hal1]
          exact Finset.mem_insert_of_mem (hsrc.2.2.2.1 m hm))
      have hsrc1b : WellFormed h1 src ((dn ++ [n]) ++ rest) := by simpa using hsrc1
      have hreq : ((dn ++ [n]) ++ rest) = dn ++ n :: rest := by simp
      obtain ⟨h2, l2, new2, hloop, hwf2, hmap2, hsrc2, hfk2, hdisj2, hsame2⟩ :=
        ih (dn ++ [n]) (new ++ [(ps k, n.2)]) (k + 1) f h1 { l with _size := l._size + 1 }
          hsrc1b hwf1 (by simp [hmap])
          (by
            intro a ha
            rw [hreq]
            have ha1 : a ∈ (ring l new).map Prod.fst ∨ a = ps k := by
              simp only [ring, lift, List.map_cons, List.map_map, List.map_append, List.mem_cons,
                List.mem_append, List.map_nil, List.mem_singleton, List.not_mem_nil,
                or_false] at ha ⊢
              rcases ha with ha | ha | ha
              · exact Or.inl (Or.inl ha)
              · exact Or.inl (Or.inr ha)
              · exact Or.inr ha
            rcases ha1 with ha1 | ha1
            · exact hdisj a ha1
            · rw [ha1]; exact fresh_not_mem h src _ hsrc (ps k) hf0.2.2.1)
          (by
            intro j hj
            obtain ⟨ha, hc, hf⟩ := henv (j + 1) (by simp; omega)
            have hidx : k + 1 + j = k + (j + 1) := by omega
            rw [hidx]
            refine ⟨ha, hc, ?_⟩
            apply fresh_preserved h h1 l new (ps k) _ hl hf _ hal1 hfr1
            intro he
            have := hinj (j + 1) 0 (by simp; omega) (by simp) (by simpa using he)
            omega)
          (by
            intro i j hi hj he
            have hidx : ∀ m, k + 1 + m = k + (m + 1) := by intro m; omega
            rw [hidx, hidx] at he
            have := hinj (i + 1) (j + 1) (by simp; omega) (by simp; omega) he
            omega)
          (by simp at hfuel; omega)
      rw [hreq] at hmap2 hsrc2 hdisj2 hsame2
      refine ⟨h2, l2, new2, ?_, hwf2, hmap2, hsrc2, hfk2, hdisj2, ?_⟩
      · have hne_it : ¬ ((⟨n.1⟩ : List_Iterator_Base) = src.cend) := by
          simp only [LinkedList.cend, List_Iterator_Base.mk.injEq]
          exact hn_ne
        have hderef : List_Iterator_Base.deref h ⟨n.1⟩ = some n.2 := by
          simp [List_Iterator_Base.deref, hcell]
        have hincr : List_Iterator_Base.incr h1 ⟨n.1⟩ = some ⟨headAddr rest src._fake_node⟩ := by
          rw [incr_eq, hsrc_same n.1 hn_mem, hcell]
          rfl
        have hh : headAddr (n :: rest) src._fake_node = n.1 := rfl
        rw [hh]
        simp only [LinkedList.copy_loop, hne_it, if_false, hderef, LinkedList.push_back, hok,
          hincr]
        exact hloop
      · intro a ha
        rw [hsame2 a ha, hsrc_same a ha]

/-- Effect of the copy constructor on a well-formed source. -/
theorem copy_ctor_spec (h : Heap T) (src : LinkedList) (ns : List (Addr × T)) (self : Addr)
    (envs : Nat → Env T T) (ps : Nat → Addr) (fuel : Nat)
    (hwf : WellFormed h src ns) (hself : Fresh h self)
    (henv : ∀ k, k < src.size → (envs k).allocate = some (ps k) ∧
      (∀ v, (envs k).construct v = some v) ∧ Fresh h (ps k) ∧ ps k ≠ self)
    (hinj : ∀ i j, i < src.size → j < src.size → ps i = ps j → i = j)
    (hfuel : src.size < fuel) :
    ∃ h1 c new, LinkedList.copy_ctor envs fuel h self src = .ok (h1, c) ∧
      WellFormed h1 c new ∧ new.map Prod.snd = ns.map Prod.snd ∧ WellFormed h1 src ns ∧
      c._fake_node = self ∧
      (∀ a ∈ (ring c new).map Prod.fst, a ∉ (ring src ns).map Prod.fst) ∧
      (∀ a ∈ (ring src ns).map Prod.fst, h1.cells a = h.cells a) := by
  have hsz : src.size = ns.length := hwf.2.2.1
  have hself_not := fresh_not_mem h src ns hwf self hself.2.2.1
  have hwf0 := wf_default_ctor h self hself
  have hsame0 : ∀ a ∈ (ring src ns).map Prod.fst,
      (LinkedList.default_ctor h self).1.cells a = h.cells a := by
    intro a ha
    have : a ≠ self := fun he => hself_not (he ▸ ha)
    simp [LinkedList.default_ctor, write_cells, this]
  have hsrc0 : WellFormed (LinkedList.default_ctor h self).1 src ([] ++ ns) :=
    wf_congr h _ src ns hwf hsame0 hwf.2.2.2.1
  obtain ⟨h1, l1, new1, hloop, hwf1, hmap1, hsrc1, hfk1, hdisj1, hsame1⟩ :=
    copy_loop_spec envs ps src ns [] [] 0 fuel (LinkedList.default_ctor h self).1
      (LinkedList.default_ctor h self).2 hsrc0 hwf0 rfl
      (by
        intro a ha
        simp only [ring, lift, LinkedList.default_ctor, List.map_nil, List.map_cons,
          List.mem_singleton] at ha
        rw [ha]; exact hself_not)
      (by
        intro j hj
        obtain ⟨ha, hc, hf, hne⟩ := henv j (hsz ▸ hj)
        simp only [Nat.zero_add]
        exact ⟨ha, hc, fresh_default_ctor h self _ hf hne⟩)
      (by
        intro i j hi hj he
        simp only [Nat.zero_add] at he
        exact hinj i j (hsz ▸ hi) (hsz ▸ hj) he)
      (hsz ▸ hfuel)
  simp only [List.nil_append] at hmap1 hsrc1 hdisj1 hsame1
  refine ⟨h1, l1, new1, ?_, hwf1, hmap1, hsrc1, hfk1, hdisj1, ?_⟩
  · have hcb := wf_cbegin _ src ns hsrc0
    simp only [LinkedList.copy_ctor, hcb]
    rw [hloop]
  · intro a ha
    rw [hsame1 a ha, hsame0 a ha]

/-- Operations on one list leave another well-formed list with a disjoint ring alone. -/
theorem steps_isolated (src : LinkedList) (ns : List (Addr × T))
    (s s1 : LinkedList.State T) (hsteps : Relation.ReflTransGen Step s s1) :
    ∀ nsc, WellFormed s.1 s.2 nsc → WellFormed s.1 src ns →
      (∀ a ∈ (ring s.2 nsc).map Prod.fst, a ∉ (ring src ns).map Prod.fst) →
      ∃ nsc1, WellFormed s1.1 s1.2 nsc1 ∧ WellFormed s1.1 src ns ∧
        (∀ a ∈ (ring s1.2 nsc1).map Prod.fst, a ∉ (ring src ns).map Prod.fst) ∧
        ∀ a ∈ (ring src ns).map Prod.fst, s1.1.cells a = s.1.cells a := by
  induction hsteps with
  | refl =>
    intro nsc hc hsrc hdisj
    exact ⟨nsc, hc, hsrc, hdisj, fun a _ => rfl⟩
  | @tail b c _ hstep ih =>
    intro nsc hc hsrc hdisj
    obtain ⟨hb, lb⟩ := b
    obtain ⟨nscb, hwfb, hsrcb, hdisjb, hsameb⟩ := ih nsc hc hsrc hdisj
    obtain ⟨nsc1, hwf1, _, hnew, hframe⟩ := step_evolves hb lb nscb c hwfb hstep
    have hlive : ∀ a ∈ (ring src ns).map Prod.fst, hb.cells a ≠ none := by
      intro a ha hn
      obtain ⟨x, hx, _⟩ := wf_live hb src ns hsrcb a ha
      rw [hn] at hx
      exact Option.noConfusion hx
    have hnot : ∀ a ∈ (ring src ns).map Prod.fst, a ∉ (ring lb nscb).map Prod.fst :=
      fun a ha hh => hdisjb a hh ha
    refine ⟨nsc1, hwf1, ?_, ?_, ?_⟩
    · apply wf_congr hb c.1 src ns hsrcb
      · intro a ha
        exact (hframe a (hnot a ha) (hlive a ha)).1
      · intro n hn
        have hmem : n.1 ∈ (ring src ns).map Prod.fst := by
          simp only [ring, List.map_cons, map_fst_lift, List.mem_cons]
          exact Or.inr (List.mem_map_of_mem _ hn)
        exact (hframe n.1 (hnot _ hmem) (hlive _ hmem)).2.mpr (hsrcb.2.2.2.1 n hn)
    · intro a ha hsrcmem
      rcases hnew a ha with h1 | h1
      · exact hdisjb a h1 hsrcmem
      · exact hlive a hsrcmem h1
    · intro a ha
      rw [(hframe a (hnot a ha) (hlive a ha)).1]
      exact hsameb a ha

/-- C8: a copy-constructed list shares no object with its source, and whatever
sequence of operations (`insert`, `emplace`, `erase`, pushes, pops, assignments
through iterators) is then applied to the copy, every object of the source keeps its
links and element, the source stays well-formed with the same nodes and `size()`, and
its forward traversal is what it was. -/
theorem C8_copy_is_isolated (h : Heap T) (src : LinkedList) (ns : List (Addr × T))
    (self : Addr) (envs : Nat → Env T T) (ps : Nat → Addr) (fuel : Nat)
    (hwf : WellFormed h src ns) (hself : Fresh h self)
    (henv : ∀ k, k < src.size → (envs k).allocate = some (ps k) ∧
      (∀ v, (envs k).construct v = some v) ∧ Fresh h (ps k) ∧ ps k ≠ self)
    (hinj : ∀ i j, i < src.size → j < src.size → ps i = ps j → i = j)
    (hfuel : src.size < fuel) :
    ∃ h1 c new, LinkedList.copy_ctor envs fuel h self src = .ok (h1, c) ∧
      WellFormed h1 c new ∧
      (∀ a ∈ (ring c new).map Prod.fst, a ∉ (ring src ns).map Prod.fst) ∧
      ∀ s1, Relation.ReflTransGen Step (h1, c) s1 →
        WellFormed s1.1 src ns ∧
        (∀ a ∈ (ring src ns).map Prod.fst, s1.1.cells a = h.cells a) ∧
        (∀ f, src.size < f → src.forward f s1.1 = src.forward f h) := by
  obtain ⟨h1, c, new, hok, hwfc, _, hsrc, _, hdisj, hsame⟩ :=
    copy_ctor_spec h src ns self envs ps fuel hwf hself henv hinj hfuel
  refine ⟨h1, c, new, hok, hwfc, hdisj, ?_⟩
  intro s1 hsteps
  obtain ⟨_, _, hsrc1, _, hsame1⟩ := steps_isolated src ns (h1, c) s1 hsteps new hwfc hsrc hdisj
  have hszs : src.size = ns.length := hwf.2.2.1
  refine ⟨hsrc1, fun a ha => by rw [hsame1 a ha, hsame a ha], ?_⟩
  intro f hf
  rw [forward_wf s1.1 src ns hsrc1 f (hszs ▸ hf), forward_wf h src ns hwf f (hszs ▸ hf)]

theorem C8_copy_is_isolated_witness :
    WellFormed demo_heap demo_list demo_nodes ∧ Fresh demo_heap 11 ∧
    ∃ h1 c new, LinkedList.copy_ctor demo_envs 4 demo_heap 11 demo_list = .ok (h1, c) ∧
      WellFormed h1 c new ∧
      (∀ a ∈ (ring c new).map Prod.fst, a ∉ (ring demo_list demo_nodes).map Prod.fst) ∧
      ∀ s1, Relation.ReflTransGen Step (h1, c) s1 →
        WellFormed s1.1 demo_list demo_nodes ∧
        (∀ a ∈ (ring demo_list demo_nodes).map Prod.fst, s1.1.cells a = demo_heap.cells a) ∧
        (∀ f, demo_list.size < f → demo_list.forward f s1.1 = demo_list.forward f demo_heap) :=
  ⟨by decide, by decide,
    C8_copy_is_isolated demo_heap demo_list demo_nodes 11 demo_envs
      (fun k => 100 + k) 4 (by decide) (by decide)
      (by
        intro k hk
        have hk3 : k < 3 := hk
        refine ⟨rfl, fun v => rfl, ?_, (by show 100 + k ≠ 11; omega)⟩
        interval_cases k <;> decide)
      (by intro i j _ _ he; have he1 : 100 + i = 100 + j := he; omega) (by decide)⟩

theorem seg_walk (h : Heap T) (ns : List (Addr × Option T)) (pf al : Addr)
    (hs : Seg h.cells pf ns al) (k : Nat) (hk : k ≤ ns.length) :
    List_Iterator_Base.walk_next h k (headAddr ns al) = some (headAddr (ns.drop k) al) := by
  induction ns generalizing pf k with
  | nil =>
    have : k = 0 := by simpa using hk
    subst this
    rfl
  | cons n ns ih =>
    cases k with
    | zero => rfl
    | succ k =>
      have hcell := hs.1
      have hrec := ih n.1 hs.2 k (by simp at hk; omega)
      have hh : headAddr (n :: ns) al = n.1 := rfl
      rw [hh]
      simp only [List_Iterator_Base.walk_next, hcell, hrec, List.drop_succ_cons]

theorem walk_next_mem (h : Heap T) (l : LinkedList) (ns : List (Addr × T))
    (hwf : WellFormed h l ns) (k : Nat) :
    ∀ a ∈ (ring l ns).map Prod.fst,
      ∃ b ∈ (ring l ns).map Prod.fst, List_Iterator_Base.walk_next h k a = some b := by
  induction k with
  | zero => intro a ha; exact ⟨a, ha, rfl⟩
  | succ k ih =>
    intro a ha
    obtain ⟨x, hx, hn, _⟩ := wf_live h l ns hwf a ha
    obtain ⟨b, hb, hw⟩ := ih x.next hn
    exact ⟨b, hb, by simp only [List_Iterator_Base.walk_next, hx, hw]⟩

/-- The two objects around a cut of the ring point at each other. -/
theorem ring_neighbors (c : Addr → Option (Node T)) (as bs : List (Addr × Option T))
    (f : Addr) (has : as ≠ []) (hf : headAddr as f = f)
    (hs : Seg c (lastAddr (as ++ bs) f) (as ++ bs) f) :
    ∃ x y, c (lastAddr as f) = some x ∧ x.next = headAddr bs f ∧
      c (headAddr bs f) = some y ∧ y.prev = lastAddr as f := by
  obtain ⟨y, hy, hyp⟩ := ring_position_cell c as bs f has hf hs
  rw [seg_append] at hs
  obtain ⟨x, hx, hxn⟩ := seg_last_cell c as _ _ has hs.1
  have hl : lastAddr as (lastAddr (as ++ bs) f) = lastAddr as f := by
    cases as with
    | nil => exact absurd rfl has
    | cons n as => rfl
  rw [hl] at hx
  exact ⟨x, y, hx, hxn, hy, hyp⟩

theorem ring_node_links (h : Heap T) (l : LinkedList) (ns : List (Addr × T))
    (hwf : WellFormed h l ns) (a : Addr) (ha : a ∈ (ring l ns).map Prod.fst) :
    ∃ c, h.cells a = some c ∧
      (∃ cn, h.cells c.next = some cn ∧ cn.prev = a) ∧
      (∃ cp, h.cells c.prev = some cp ∧ cp.next = a) := by
  obtain ⟨e, he, rfl⟩ := List.mem_map.mp ha
  obtain ⟨as1, bs, hsplit⟩ := List.append_of_mem he
  have hseg := hwf.1
  have hhead : headAddr (ring l ns) l._fake_node = l._fake_node := rfl
  -- the cut behind `e`
  have hcut1 : ring l ns = (as1 ++ [e]) ++ bs := by rw [hsplit]; simp
  have hf1 : headAddr (as1 ++ [e]) l._fake_node = l._fake_node := by
    have := hhead
    rw [hcut1, headAddr_append] at this
    cases as1 with
    | nil => simpa [headAddr] using this
    | cons x as1 => simpa [headAddr] using this
  have hseg1 := hseg
  rw [hcut1] at hseg1
  obtain ⟨x, y, hx, hxn, hy, hyp⟩ :=
    ring_neighbors h.cells (as1 ++ [e]) bs l._fake_node (by simp) hf1 hseg1
  have hlast : lastAddr (as1 ++ [e]) l._fake_node = e.1 := by
    rw [lastAddr_append]; rfl
  rw [hlast] at hx hyp
  refine ⟨x, hx, ⟨y, by rw [hxn]; exact hy, hyp⟩, ?_⟩
  -- the cut in front of `e`
  cases as1 with
  | nil =>
    have he1 : e.1 = l._fake_node := by
      have := hhead
      rw [hsplit] at this
      simpa [headAddr] using this
    have hseg2 := hseg
    rw [← List.append_nil (ring l ns)] at hseg2
    obtain ⟨x2, y2, hx2, hxn2, hy2, hyp2⟩ :=
      ring_neighbors h.cells (ring l ns) [] l._fake_node (by simp [ring]) hhead hseg2
    have hy2b : h.cells e.1 = some y2 := by rw [he1]; exact hy2
    rw [hx] at hy2b
    have hxy : x = y2 := Option.some.inj hy2b
    refine ⟨x2, by rw [hxy, hyp2]; exact hx2, ?_⟩
    rw [hxn2, he1]; rfl
  | cons z as1 =>
    have hf2 : headAddr (z :: as1) l._fake_node = l._fake_node := by
      have := hhead
      rw [hsplit] at this
      simpa [headAddr] using this
    have hseg2 := hseg
    rw [hsplit] at hseg2
    obtain ⟨x2, y2, hx2, hxn2, hy2, hyp2⟩ :=
      ring_neighbors h.cells (z :: as1) (e :: bs) l._fake_node (by simp) hf2 hseg2
    have hy2b : h.cells e.1 = some y2 := hy2
    rw [hx] at hy2b
    have hxy : x = y2 := Option.some.inj hy2b
    refine ⟨x2, by rw [hxy, hyp2]; exact hx2, ?_⟩
    rw [hxn2]; rfl

/-- C9: in every reachable list the chain is a ring through the sentinel without
null links: every node met walking `next` from the sentinel (sentinel included) is
alive and non-null, its links are non-null, and `n.next.prev == n`, `n.prev.next == n`;
the walk is back at the sentinel after `size() + 1` steps and not before; and
`sentinel.next` / `sentinel.prev` are the sentinel itself for an empty list, the
first / last element otherwise. -/
theorem C9_ring_through_sentinel (s : LinkedList.State T) (hr : Reachable s) :
    (∀ k, ∃ a, List_Iterator_Base.walk_next s.1 k s.2._fake_node = some a ∧ a ≠ nullptr ∧
      ∃ c, s.1.cells a = some c ∧ c.next ≠ nullptr ∧ c.prev ≠ nullptr ∧
        (∃ cn, s.1.cells c.next = some cn ∧ cn.prev = a) ∧
        (∃ cp, s.1.cells c.prev = some cp ∧ cp.next = a)) ∧
    List_Iterator_Base.walk_next s.1 (s.2.size + 1) s.2._fake_node = some s.2._fake_node ∧
    (∀ k, 0 < k → k ≤ s.2.size →
      List_Iterator_Base.walk_next s.1 k s.2._fake_node ≠ some s.2._fake_node) ∧
    ∃ sent xs, s.1.cells s.2._fake_node = some sent ∧
      (∀ fuel, s.2.size < fuel → s.2.forward fuel s.1 = some xs) ∧
      (xs = [] → sent.next = s.2._fake_node ∧ sent.prev = s.2._fake_node) ∧
      (∀ x, xs.head? = some x →
        sent.next ≠ s.2._fake_node ∧ List_Iterator_Base.deref s.1 ⟨sent.next⟩ = some x) ∧
      (∀ x, xs.getLast? = some x →
        sent.prev ≠ s.2._fake_node ∧ List_Iterator_Base.deref s.1 ⟨sent.prev⟩ = some x) := by
  obtain ⟨ns, hwf⟩ := reachable_wf s hr
  obtain ⟨h, l⟩ := s
  simp only
  have hsz : l.size = ns.length := hwf.2.2.1
  have hfmem : l._fake_node ∈ (ring l ns).map Prod.fst := by simp [ring]
  have hnn : ∀ a ∈ (ring l ns).map Prod.fst, a ≠ nullptr := by
    intro a ha
    obtain ⟨e, he, rfl⟩ := List.mem_map.mp ha
    exact (hwf.2.2.2.2 e he).1
  have hwalk : ∀ k, k ≤ ns.length + 1 →
      List_Iterator_Base.walk_next h k l._fake_node
        = some (headAddr ((ring l ns).drop k) l._fake_node) := by
    intro k hk
    exact seg_walk h (ring l ns) _ l._fake_node hwf.1 k (by simpa [ring, lift] using hk)
  refine ⟨?_, ?_, ?_, ?_⟩
  · intro k
    obtain ⟨a, ha, hw⟩ := walk_next_mem h l ns hwf k _ hfmem
    obtain ⟨c, hc, hn, hp⟩ := ring_node_links h l ns hwf a ha
    obtain ⟨c1, hc1, hnm, hpm⟩ := wf_live h l ns hwf a ha
    rw [hc] at hc1
    have hcc : c = c1 := Option.some.inj hc1
    subst hcc
    exact ⟨a, hw, hnn a ha, c, hc, hnn _ hnm, hnn _ hpm, hn, hp⟩
  · rw [hsz, hwalk (ns.length + 1) (le_refl _)]
    have : (ring l ns).drop (ns.length + 1) = [] := by
      apply List.drop_eq_nil_of_le
      simp [ring, lift]
    rw [this]; rfl
  · intro k hk0 hk
    rw [hsz] at hk
    rw [hwalk k (by omega)]
    obtain ⟨j, rfl⟩ : ∃ j, k = j + 1 := ⟨k - 1, by omega⟩
    have hdrop : (ring l ns).drop (j + 1) = (lift ns).drop j := by simp [ring]
    rw [hdrop]
    intro he
    have hne : (lift ns).drop j ≠ [] := by
      intro hnil
      have := congrArg List.length hnil
      simp [lift] at this
      omega
    have hmem := headAddr_mem ((lift ns).drop j) l._fake_node hne
    rw [Option.some.inj he] at hmem
    have hmem2 : l._fake_node ∈ (lift ns).map Prod.fst := by
      obtain ⟨e, he1, he2⟩ := List.mem_map.mp hmem
      exact List.mem_map.mpr ⟨e, List.mem_of_mem_drop he1, he2⟩
    rw [map_fst_lift] at hmem2
    exact (wf_nodup h l ns hwf).1 hmem2
  · refine ⟨_, ns.map Prod.snd, (wf_sentinel h l ns hwf).1, ?_, ?_, ?_, ?_⟩
    · intro fuel hf
      exact forward_wf h l ns hwf fuel (hsz ▸ hf)
    · intro hnil
      have : ns = [] := by simpa using hnil
      subst this
      exact ⟨rfl, rfl⟩
    · intro x hx
      cases ns with
      | nil => simp at hx
      | cons n t =>
        simp only [List.map_cons, List.head?_cons, Option.some.injEq] at hx
        subst hx
        have hcell := wf_node_cell h l [] t n (by simpa using hwf)
        refine ⟨wf_head_ne h l _ hwf (by simp), ?_⟩
        simp [headAddr, List_Iterator_Base.deref, hcell]
    · intro x hx
      rcases List.eq_nil_or_concat ns with hnil | ⟨s0, n, hcat⟩
      · subst hnil; simp at hx
      · rw [List.concat_eq_append] at hcat
        subst hcat
        have hcc : (List.map Prod.snd (s0 ++ [n])).getLast? = some n.2 := by
          rw [List.map_append]
          exact List.getLast?_concat _
        rw [hcc] at hx
        simp only [Option.some.injEq] at hx
        subst hx
        have hcell := wf_node_cell h l s0 [] n hwf
        refine ⟨wf_last_ne h l _ hwf (by simp), ?_⟩
        have hl : lastAddr (s0 ++ [n]) l._fake_node = n.1 := by
          rw [lastAddr_append]; rfl
        simp [hl, List_Iterator_Base.deref, hcell]

theorem C9_ring_through_sentinel_witness :
    Reachable demo_s3 ∧
    List_Iterator_Base.walk_next demo_s3.1 (demo_s3.2.size + 1) demo_s3.2._fake_node
      = some demo_s3.2._fake_node ∧
    (∀ k, 0 < k → k ≤ demo_s3.2.size →
      List_Iterator_Base.walk_next demo_s3.1 k demo_s3.2._fake_node
        ≠ some demo_s3.2._fake_node) :=
  ⟨demo_s3_reachable,
    (C9_ring_through_sentinel demo_s3 demo_s3_reachable).2.1,
    (C9_ring_through_sentinel demo_s3 demo_s3_reachable).2.2.1⟩

/-- Effect of a successful `push_back` on a well-formed list. -/
theorem push_back_spec (h : Heap T) (l : LinkedList) (ns : List (Addr × T)) (v : T)
    (p : Addr) (env : Env T T) (hwf : WellFormed h l ns)
    (ha : env.allocate = some p) (hp : Fresh h p) (hc : env.construct v = some v) :
    ∃ h1, l.push_back h v env = .ok (h1, { l with _size := l._size + 1 }) ∧
      WellFormed h1 { l with _size := l._size + 1 } (ns ++ [(p, v)]) ∧
      ∀ q, Fresh h q → q ≠ p → Fresh h1 q := by
  have hwf0 : WellFormed h l (ns ++ []) := by simpa using hwf
  obtain ⟨h1, hok, hwf1, hal1, hfr1⟩ :=
    insert_spec h l ns [] l.cend v v p env hwf0 rfl ha hp hc
  simp only [List.append_nil] at hfr1
  exact ⟨h1, hok, hwf1, fun q hq hqp => fresh_preserved h h1 l ns p q hwf hq hqp hal1 hfr1⟩

/-- C10: on a well-formed list whose forward traversal is `xs`, `push_back(v)` returns
with forward traversal `xs ++ [v]` and `push_front(v)` returns with forward traversal
`v :: xs`, each with `size()` one larger; and three `push_back` calls on an empty
list give the three values in the order pushed. -/
theorem C10_push_back_push_front (h : Heap T) (l : LinkedList) (ns : List (Addr × T))
    (xs : List T) (v : T) (p : Addr) (env : Env T T)
    (hwf : WellFormed h l ns) (hxs : l.forward (l.size + 1) h = some xs)
    (ha : env.allocate = some p) (hp : Fresh h p) (hc : env.construct v = some v) :
    (∃ h1 l1, l.push_back h v env = .ok (h1, l1) ∧
      (∀ fuel, l1.size < fuel → l1.forward fuel h1 = some (xs ++ [v])) ∧
      l1.size = l.size + 1) ∧
    (∃ h1 l1, l.push_front h v env = .ok (h1, l1) ∧
      (∀ fuel, l1.size < fuel → l1.forward fuel h1 = some (v :: xs)) ∧
      l1.size = l.size + 1) ∧
    (ns = [] → ∀ (b c : T) (p2 p3 : Addr) (e2 e3 : Env T T),
      e2.allocate = some p2 → Fresh h p2 → e2.construct b = some b →
      e3.allocate = some p3 → Fresh h p3 → e3.construct c = some c →
      p2 ≠ p → p3 ≠ p → p3 ≠ p2 →
      ∃ h1 l1 h2 l2 h3 l3, l.push_back h v env = .ok (h1, l1) ∧
        l1.push_back h1 b e2 = .ok (h2, l2) ∧ l2.push_back h2 c e3 = .ok (h3, l3) ∧
        (∀ fuel, 3 < fuel → l3.forward fuel h3 = some [v, b, c]) ∧ l3.size = 3) := by
  have hx := forward_unique h l ns hwf xs hxs
  refine ⟨?_, ?_, ?_⟩
  · obtain ⟨h1, hok, hwf1, _⟩ := push_back_spec h l ns v p env hwf ha hp hc
    refine ⟨h1, _, hok, ?_, rfl⟩
    intro fuel hf
    have hsz1 := hwf1.2.2.1
    rw [forward_wf h1 _ _ hwf1 fuel (by rw [← hsz1]; exact hf), hx]
    simp
  · have hwf0 : WellFormed h l ([] ++ ns) := by simpa using hwf
    obtain ⟨h1, hok, hwf1, _, _⟩ :=
      insert_spec h l [] ns ⟨headAddr ns l._fake_node⟩ v v p env hwf0 rfl ha hp hc
    refine ⟨h1, { l with _size := l._size + 1 }, ?_, ?_, rfl⟩
    · simp only [LinkedList.push_front, wf_cbegin h l ns hwf]
      exact hok
    · intro fuel hf
      have hsz1 := hwf1.2.2.1
      rw [forward_wf h1 _ _ hwf1 fuel (by rw [← hsz1]; exact hf), hx]
      simp
  · intro hnil b c p2 p3 e2 e3 ha2 hp2 hc2 ha3 hp3 hc3 h2p h3p h32
    subst hnil
    obtain ⟨h1, hok1, hwf1, hfresh1⟩ := push_back_spec h l [] v p env hwf ha hp hc
    obtain ⟨h2, hok2, hwf2, hfresh2⟩ :=
      push_back_spec h1 _ _ b p2 e2 hwf1 ha2 (hfresh1 p2 hp2 h2p) hc2
    obtain ⟨h3, hok3, hwf3, _⟩ :=
      push_back_spec h2 _ _ c p3 e3 hwf2 ha3 (hfresh2 p3 (hfresh1 p3 hp3 h3p) h32) hc3
    refine ⟨h1, _, h2, _, h3, _, hok1, hok2, hok3, ?_, ?_⟩
    · intro fuel hf
      exact forward_wf h3 _ _ hwf3 fuel (by simpa using hf)
    · have hsz := hwf.2.2.1
      simp only [List.length_nil] at hsz
      simp [LinkedList.size, hsz]

theorem C10_push_back_push_front_witness :
    WellFormed demo_s0.1 demo_s0.2 [] ∧
    demo_s0.2.forward (demo_s0.2.size + 1) demo_s0.1 = some [] ∧
    (demo_env 20).allocate = some 20 ∧ Fresh demo_s0.1 20 ∧
    (demo_env 20).construct 1 = some 1 ∧
    ∃ h1 l1 h2 l2 h3 l3, demo_s0.2.push_back demo_s0.1 1 (demo_env 20) = .ok (h1, l1) ∧
      l1.push_back h1 2 (demo_env 30) = .ok (h2, l2) ∧
      l2.push_back h2 3 (demo_env 40) = .ok (h3, l3) ∧
      (∀ fuel, 3 < fuel → l3.forward fuel h3 = some [1, 2, 3]) ∧ l3.size = 3 :=
  ⟨by decide, by decide, rfl, by decide, rfl,
    (C10_push_back_push_front demo_s0.1 demo_s0.2 [] [] 1 20 (demo_env 20)
      (by decide) (by decide) rfl (by decide) rfl).2.2 rfl 2 3 30 40 (demo_env 30) (demo_env 40)
      rfl (by decide) rfl rfl (by decide) rfl (by decide) (by decide) (by decide)⟩

/-- C11: on a well-formed list the reverse traversal `rbegin() .. rend()` visits
exactly the reverse of what the forward traversal `begin() .. end()` visits; both
return with any fuel above `size()`. -/
theorem C11_reverse_traversal_is_reverse (h : Heap T) (l : LinkedList)
    (ns : List (Addr × T)) (hwf : WellFormed h l ns) :
    ∃ xs, (∀ fuel, l.size < fuel →
      l.forward fuel h = some xs ∧ l.backward fuel h = some xs.reverse) ∧
      xs.length = l.size := by
  have hsz : l.size = ns.length := hwf.2.2.1
  refine ⟨ns.map Prod.snd, ?_, by simp [hsz]⟩
  intro fuel hf
  rw [hsz] at hf
  exact ⟨forward_wf h l ns hwf fuel hf, backward_wf h l ns hwf fuel hf⟩

theorem C11_reverse_traversal_is_reverse_witness :
    WellFormed demo_heap demo_list demo_nodes ∧
    demo_list.forward 4 demo_heap = some [1, 2, 3] ∧
    demo_list.backward 4 demo_heap = some [3, 2, 1] ∧
    ∃ xs, (∀ fuel, demo_list.size < fuel →
      demo_list.forward fuel demo_heap = some xs ∧
      demo_list.backward fuel demo_heap = some xs.reverse) ∧
      xs.length = demo_list.size :=
  ⟨by decide, by decide, by decide,
    C11_reverse_traversal_is_reverse demo_heap demo_list demo_nodes (by decide)⟩

/-- Effect of `pop_back` on a well-formed list whose last value node is `n`. -/
theorem pop_back_spec (h : Heap T) (l : LinkedList) (s : List (Addr × T)) (n : Addr × T)
    (hwf : WellFormed h l (s ++ [n])) :
    ∃ h1, l.pop_back h = some (h1, { l with _size := l._size - 1 }) ∧
      WellFormed h1 { l with _size := l._size - 1 } s ∧
      h1.allocated = h.allocated.erase n.1 ∧ h1.cells n.1 = none ∧
      ∀ a, a ∉ (ring l s).map Prod.fst → a ≠ n.1 → h1.cells a = h.cells a := by
  obtain ⟨h1, hok, hwf1, hal1, hgone, hfr, _⟩ := erase_spec h l s [] n hwf
  simp only [List.append_nil] at hwf1 hfr
  refine ⟨h1, ?_, hwf1, hal1, hgone, hfr⟩
  have hl : lastAddr (s ++ [n]) l._fake_node = n.1 := by rw [lastAddr_append]; rfl
  simp only [LinkedList.pop_back, wf_decr_cend h l _ hwf, hl]
  exact hok

/-- Effect of `pop_front` on a well-formed list whose first value node is `n`. -/
theorem pop_front_spec (h : Heap T) (l : LinkedList) (t : List (Addr × T)) (n : Addr × T)
    (hwf : WellFormed h l (n :: t)) :
    ∃ h1, l.pop_front h = some (h1, { l with _size := l._size - 1 }) ∧
      WellFormed h1 { l with _size := l._size - 1 } t ∧
      h1.allocated = h.allocated.erase n.1 ∧ h1.cells n.1 = none := by
  have hwf0 : WellFormed h l ([] ++ n :: t) := by simpa using hwf
  obtain ⟨h1, hok, hwf1, hal1, hgone, _⟩ := erase_spec h l [] t n hwf0
  simp only [List.nil_append] at hwf1
  refine ⟨h1, ?_, hwf1, hal1, hgone⟩
  simp only [LinkedList.pop_front, wf_cbegin h l _ hwf]
  exact hok

/-- C12: on a well-formed list whose forward traversal is `x :: rest`, `pop_front()`
returns and leaves the traversal `rest`; on one whose traversal is `ys ++ [y]`,
`pop_back()` returns and leaves the traversal `ys`; `size()` is one smaller in both
cases. -/
theorem C12_pop_front_pop_back (h : Heap T) (l : LinkedList) (ns : List (Addr × T))
    (xs : List T) (hwf : WellFormed h l ns) (hxs : l.forward (l.size + 1) h = some xs) :
    (∀ x rest, xs = x :: rest →
      ∃ h1 l1, l.pop_front h = some (h1, l1) ∧
        (∀ fuel, l1.size < fuel → l1.forward fuel h1 = some rest) ∧
        l1.size + 1 = l.size) ∧
    (∀ ys y, xs = ys ++ [y] →
      ∃ h1 l1, l.pop_back h = some (h1, l1) ∧
        (∀ fuel, l1.size < fuel → l1.forward fuel h1 = some ys) ∧
        l1.size + 1 = l.size) := by
  have hx := forward_unique h l ns hwf xs hxs
  have hsz : l.size = ns.length := hwf.2.2.1
  refine ⟨?_, ?_⟩
  · intro x rest he
    cases ns with
    | nil => rw [hx] at he; simp at he
    | cons n t =>
      obtain ⟨h1, hok, hwf1, _⟩ := pop_front_spec h l t n hwf
      have hrest : rest = t.map Prod.snd := by
        rw [hx] at he
        simp only [List.map_cons, List.cons.injEq] at he
        exact he.2.symm
      refine ⟨h1, _, hok, ?_, ?_⟩
      · intro fuel hf
        have hsz1 := hwf1.2.2.1
        rw [forward_wf h1 _ _ hwf1 fuel (by rw [← hsz1]; exact hf), hrest]
      · have hsz1 : l._size = (n :: t).length := hsz
        simp only [LinkedList.size, hsz1, List.length_cons]
        omega
  · intro ys y he
    rcases List.eq_nil_or_concat ns with hnil | ⟨s0, n, hcat⟩
    · subst hnil
      rw [hx] at he
      simp at he
    · rw [List.concat_eq_append] at hcat
      subst hcat
      obtain ⟨h1, hok, hwf1, _⟩ := pop_back_spec h l s0 n hwf
      have hys : ys = s0.map Prod.snd := by
        rw [hx, List.map_append] at he
        exact (List.append_inj' he (by simp)).1.symm
      refine ⟨h1, _, hok, ?_, ?_⟩
      · intro fuel hf
        have hsz1 := hwf1.2.2.1
        rw [forward_wf h1 _ _ hwf1 fuel (by rw [← hsz1]; exact hf), hys]
      · have hsz1 : l._size = (s0 ++ [n]).length := hsz
        simp only [LinkedList.size, hsz1, List.length_append, List.length_singleton]
        omega

theorem C12_pop_front_pop_back_witness :
    WellFormed demo_four.1 demo_four.2 [(20, 1), (50, 9), (30, 2), (40, 3)] ∧
    demo_four.2.forward (demo_four.2.size + 1) demo_four.1 = some [1, 9, 2, 3] ∧
    demo_four.2.size = 4 ∧
    ∃ h1 l1, demo_four.2.pop_front demo_four.1 = some (h1, l1) ∧
      (∀ fuel, l1.size < fuel → l1.forward fuel h1 = some [9, 2, 3]) ∧
      l1.size + 1 = demo_four.2.size :=
  ⟨by decide, by decide, by decide,
    (C12_pop_front_pop_back demo_four.1 demo_four.2 [(20, 1), (50, 9), (30, 2), (40, 3)]
      [1, 9, 2, 3] (by decide) (by decide)).1 1 [9, 2, 3] rfl⟩

theorem emplace_alloc (h : Heap T) (l : LinkedList) (ns : List (Addr × T))
    (it : List_Iterator_Base) (args : A) (env : Env A T) (s1 : LinkedList.State T)
    (hwf : WellFormed h l ns) (hit : it.ptr_ ∈ (ring l ns).map Prod.fst)
    (hsound : env.Sound h) (hfin : (l.emplace h it args env).final = some s1) :
    AllocStep h l s1 := by
  obtain ⟨s, t, rfl, hit1⟩ := mem_ring_split l ns _ hit
  obtain ⟨x, hx, _⟩ := wf_live h l _ hwf _ hit
  cases ha : env.allocate with
  | none =>
    rw [emplace_fails h l it x hx args env (Or.inl ha)] at hfin
    simp only [Result.final, Option.some.injEq] at hfin
    subst hfin
    exact Or.inl ⟨rfl, rfl⟩
  | some p =>
    have hp : Fresh h p := hsound p ha
    cases hc : env.construct args with
    | none =>
      rw [emplace_fails h l it x hx args env (Or.inr ⟨p, ha, hp.2.2.2, hc⟩)] at hfin
      simp only [Result.final, Option.some.injEq] at hfin
      subst hfin
      exact Or.inl ⟨rfl, rfl⟩
    | some w =>
      obtain ⟨h1, hok, _, hal1, _⟩ := emplace_spec h l s t it args w p env hwf hit1 ha hp hc
      rw [hok] at hfin
      simp only [Result.final, Option.some.injEq] at hfin
      subst hfin
      exact Or.inr (Or.inl ⟨p, hp.2.2.2, hal1, rfl⟩)

theorem erase_alloc (h : Heap T) (l : LinkedList) (ns : List (Addr × T))
    (it : List_Iterator_Base) (s1 : LinkedList.State T)
    (hwf : WellFormed h l ns) (hit : it.ptr_ ∈ (ring l ns).map Prod.fst)
    (hne : it.ptr_ ≠ l._fake_node) (hfin : l.erase h it = some s1) :
    AllocStep h l s1 := by
  obtain ⟨s, n, t, rfl, hit1⟩ := mem_nodes_split l ns _ hit hne
  obtain ⟨h1, hok, _, hal1, _⟩ := erase_spec h l s t n hwf
  have hiteq : it = ⟨n.1⟩ := by cases it; simp at hit1; simp [hit1]
  rw [hiteq, hok] at hfin
  simp only [Option.some.injEq] at hfin
  subst hfin
  refine Or.inr (Or.inr ⟨n.1, hwf.2.2.2.1 n (by simp), hal1, ?_⟩)
  have hsz : l._size = (s ++ n :: t).length := hwf.2.2.1
  simp only [hsz, List.length_append, List.length_cons]
  omega

/-- What each operation does to the allocator. -/
theorem step_alloc (h : Heap T) (l : LinkedList) (ns : List (Addr × T))
    (s1 : LinkedList.State T) (hwf : WellFormed h l ns) (hstep : Step (h, l) s1) :
    AllocStep h l s1 := by
  cases hstep with
  | insert _ _ it v env _ hpos hsound hfin =>
    exact emplace_alloc h l ns it v env s1 hwf (position_mem h l ns hwf it hpos) hsound hfin
  | emplace B _ _ it args env _ hpos hsound hfin =>
    exact emplace_alloc h l ns it args env s1 hwf (position_mem h l ns hwf it hpos) hsound hfin
  | push_back _ _ v env _ hsound hfin =>
    exact emplace_alloc h l ns l.cend v env s1 hwf (by simp [LinkedList.cend, ring]) hsound hfin
  | push_front _ _ v env _ hsound hfin =>
    simp only [LinkedList.push_front, wf_cbegin h l ns hwf] at hfin
    exact emplace_alloc h l ns _ v env s1 hwf (wf_head_mem l ns) hsound hfin
  | emplace_back B _ _ args env _ hsound hfin =>
    exact emplace_alloc h l ns l.cend args env s1 hwf (by simp [LinkedList.cend, ring]) hsound hfin
  | emplace_front B _ _ args env _ hsound hfin =>
    simp only [LinkedList.emplace_front, wf_cbegin h l ns hwf] at hfin
    exact emplace_alloc h l ns _ args env s1 hwf (wf_head_mem l ns) hsound hfin
  | erase _ _ it _ hpos hne hfin =>
    refine erase_alloc h l ns it s1 hwf (position_mem h l ns hwf it hpos) ?_ hfin
    intro he
    apply hne
    cases it
    simp only [LinkedList.cend] at he ⊢
    simp [he]
  | pop_back _ _ _ hsz hfin =>
    simp only [LinkedList.pop_back, wf_decr_cend h l ns hwf] at hfin
    exact erase_alloc h l ns _ s1 hwf (wf_last_mem l ns)
      (wf_last_ne h l ns hwf (wf_size_ne h l ns hwf hsz)) hfin
  | pop_front _ _ _ hsz hfin =>
    simp only [LinkedList.pop_front, wf_cbegin h l ns hwf] at hfin
    exact erase_alloc h l ns _ s1 hwf (wf_head_mem l ns)
      (wf_head_ne h l ns hwf (wf_size_ne h l ns hwf hsz)) hfin
  | assign_through _ _ it v h1 hpos hne hfin =>
    left
    refine ⟨?_, rfl⟩
    cases hc : h.cells it.ptr_ with
    | none => simp [LinkedList.assign_through, hc] at hfin
    | some c =>
      cases ho : c.object with
      | none => simp [LinkedList.assign_through, hc, ho] at hfin
      | some o =>
        simp only [LinkedList.assign_through, hc, ho, Option.some.injEq] at hfin
        rw [← hfin]
        rfl

theorem accounted_card (h : Heap T) (l : LinkedList) (ns : List (Addr × T))
    (hwf : WellFormed h l ns) (hacc : Accounted h ns) : h.allocated.card = l._size := by
  rw [hacc, List.toFinset_card_of_nodup (wf_nodup h l ns hwf).2, hwf.2.2.1]
  simp

/-- An operation on a well-formed list whose live allocations are exactly its
value nodes leaves a list of which the same is true. -/
theorem accounted_after (h : Heap T) (l : LinkedList) (ns ns1 : List (Addr × T))
    (s1 : LinkedList.State T) (hwf : WellFormed h l ns) (hacc : Accounted h ns)
    (hwf1 : WellFormed s1.1 s1.2 ns1) (hstep : AllocStep h l s1) :
    Accounted s1.1 ns1 := by
  have hcard := accounted_card h l ns hwf hacc
  have hsub : (ns1.map Prod.fst).toFinset ⊆ s1.1.allocated := by
    intro a ha
    simp only [List.mem_toFinset] at ha
    obtain ⟨n, hn, rfl⟩ := List.mem_map.mp ha
    exact hwf1.2.2.2.1 n hn
  have hc1 : (ns1.map Prod.fst).toFinset.card = s1.2._size := by
    rw [List.toFinset_card_of_nodup (wf_nodup _ _ ns1 hwf1).2, hwf1.2.2.1]
    simp
  have hle : s1.1.allocated.card ≤ (ns1.map Prod.fst).toFinset.card := by
    rw [hc1]
    rcases hstep with ⟨hal, hl⟩ | ⟨p, hp, hal, hsz⟩ | ⟨a, ha, hal, hsz⟩
    · rw [hal, hl, hcard]
    · rw [hal, Finset.card_insert_of_not_mem hp, hcard, hsz]
    · rw [hal, Finset.card_erase_of_mem ha, hcard, ← hsz]
      omega
  exact (Finset.eq_of_subset_of_card_le hsub hle).symm

/-- C13: with the allocator modelled as the set of live allocations, whenever the
live allocations are exactly the value nodes of a well-formed list, they still are
after every sequence of operations (successful or failed insertions, erasures, pops),
so their number is `size()`; and a call in which the element constructor throws
leaves by the exception with the allocator exactly as before, the block it had
allocated given back. -/
theorem C13_live_allocations_are_the_nodes (h : Heap T) (l : LinkedList)
    (ns : List (Addr × T)) (s1 : LinkedList.State T)
    (hwf : WellFormed h l ns) (hacc : Accounted h ns)
    (hsteps : Relation.ReflTransGen Step (h, l) s1) :
    (∃ ns1, WellFormed s1.1 s1.2 ns1 ∧ Accounted s1.1 ns1 ∧
      s1.1.allocated.card = s1.2.size) ∧
    (∀ (B : Type) (it : List_Iterator_Base) (args : B) (env : Env B T) (p : Addr),
      Position h l it → env.allocate = some p → Fresh h p → env.construct args = none →
      l.emplace h it args env = .threw (h, l) ∧ p ∉ h.allocated ∧
      ∀ a, a ∈ h.allocated ↔ a ∈ ns.map Prod.fst) := by
  refine ⟨?_, ?_⟩
  · have key : ∀ s s1 : LinkedList.State T, Relation.ReflTransGen Step s s1 →
        (∃ ns, WellFormed s.1 s.2 ns ∧ Accounted s.1 ns) →
        ∃ ns1, WellFormed s1.1 s1.2 ns1 ∧ Accounted s1.1 ns1 := by
      intro s s1 hst
      induction hst with
      | refl => exact fun hh => hh
      | @tail b c _ hstep ih =>
        intro hh
        obtain ⟨nsb, hwfb, haccb⟩ := ih hh
        obtain ⟨hb, lb⟩ := b
        obtain ⟨nsc, hwfc, _⟩ := step_evolves hb lb nsb c hwfb hstep
        exact ⟨nsc, hwfc, accounted_after hb lb nsb nsc c hwfb haccb hwfc
          (step_alloc hb lb nsb c hwfb hstep)⟩
    obtain ⟨ns1, hwf1, hacc1⟩ := key (h, l) s1 hsteps ⟨ns, hwf, hacc⟩
    exact ⟨ns1, hwf1, hacc1, accounted_card _ _ ns1 hwf1 hacc1⟩
  · intro B it args env p hpos ha hp hc
    obtain ⟨x, hx, _⟩ := wf_live h l ns hwf _ (position_mem h l ns hwf it hpos)
    refine ⟨emplace_fails h l it x hx args env (Or.inr ⟨p, ha, hp.2.2.2, hc⟩), hp.2.2.2, ?_⟩
    intro a
    rw [hacc]
    simp

theorem C13_live_allocations_are_the_nodes_witness :
    WellFormed demo_heap demo_list demo_nodes ∧ Accounted demo_heap demo_nodes ∧
    Relation.ReflTransGen Step (demo_heap, demo_list) demo_four ∧
    ∃ ns1, WellFormed demo_four.1 demo_four.2 ns1 ∧ Accounted demo_four.1 ns1 ∧
      demo_four.1.allocated.card = demo_four.2.size :=
  have hreach : Relation.ReflTransGen Step (demo_heap, demo_list) demo_four :=
    Relation.ReflTransGen.single
      (Step.insert demo_heap demo_list ⟨30⟩ 9 (demo_env 50) demo_four
        (Position.next _ _ (Position.next _ _ Position.at_end rfl) rfl)
        (by intro p hp; cases hp; decide) rfl)
  ⟨by decide, by decide, hreach,
    (C13_live_allocations_are_the_nodes demo_heap demo_list demo_nodes demo_four
      (by decide) (by decide) hreach).1⟩

/-- C16: the end operations are the general ones and the two insertion paths agree.
`push_back` is `insert` at `end()`, `emplace_back` is `emplace` at `end()`, and
`emplace` with one value argument is `insert`; on a well-formed list `begin()` and
`--end()` are defined, `push_front` / `emplace_front` are `insert` / `emplace` at
`begin()`, `pop_front` is `erase(begin())` and `pop_back` is `erase(--end())`. -/
theorem C16_end_operations_are_general_ones (h : Heap T) (l : LinkedList)
    (ns : List (Addr × T)) (hwf : WellFormed h l ns) :
    (∀ (v : T) (env : Env T T), l.push_back h v env = l.insert h l.cend v env) ∧
    (∀ (B : Type) (args : B) (env : Env B T),
      l.emplace_back h args env = l.emplace h l.cend args env) ∧
    (∀ (it : List_Iterator_Base) (v : T) (env : Env T T),
      l.emplace h it v env = l.insert h it v env) ∧
    (∃ first last, l.cbegin h = some first ∧ l.cend.decr h = some last ∧
      (∀ (v : T) (env : Env T T), l.push_front h v env = l.insert h first v env) ∧
      (∀ (B : Type) (args : B) (env : Env B T),
        l.emplace_front h args env = l.emplace h first args env) ∧
      l.pop_front h = l.erase h first ∧ l.pop_back h = l.erase h last) := by
  refine ⟨fun _ _ => rfl, fun _ _ _ => rfl, fun _ _ _ => rfl, ?_⟩
  refine ⟨_, _, wf_cbegin h l ns hwf, wf_decr_cend h l ns hwf, ?_, ?_, ?_, ?_⟩
  · intro v env
    simp only [LinkedList.push_front, wf_cbegin h l ns hwf]
  · intro B args env
    simp only [LinkedList.emplace_front, wf_cbegin h l ns hwf]
  · simp only [LinkedList.pop_front, wf_cbegin h l ns hwf]
  · simp only [LinkedList.pop_back, wf_decr_cend h l ns hwf]

theorem C16_end_operations_are_general_ones_witness :
    WellFormed demo_heap demo_list demo_nodes ∧
    demo_list.pop_back demo_heap = demo_list.erase demo_heap ⟨40⟩ ∧
    (∀ (v : Nat) (env : Env Nat Nat),
      demo_list.push_back demo_heap v env = demo_list.insert demo_heap demo_list.cend v env) :=
  ⟨by decide, rfl,
    (C16_end_operations_are_general_ones demo_heap demo_list demo_nodes (by decide)).1⟩

/-- C17: a list constructed by `List()` or by `List(alloc)` has `size() == 0`,
`begin() == end()`, a sentinel whose `next` and `prev` are the sentinel itself, and
empty forward and reverse traversals. -/
theorem C17_default_constructed_list_is_empty (h : Heap T) (self : Addr) :
    LinkedList.alloc_ctor h self = LinkedList.default_ctor h self ∧
    (LinkedList.default_ctor h self).2.size = 0 ∧
    (LinkedList.default_ctor h self).2.cbegin (LinkedList.default_ctor h self).1
      = some (LinkedList.default_ctor h self).2.cend ∧
    (LinkedList.default_ctor h self).2._fake_node = self ∧
    (LinkedList.default_ctor h self).1.cells self
      = some { prev := self, next := self, object := none } ∧
    (∀ fuel, 0 < fuel →
      (LinkedList.default_ctor h self).2.forward fuel (LinkedList.default_ctor h self).1
        = some [] ∧
      (LinkedList.default_ctor h self).2.backward fuel (LinkedList.default_ctor h self).1
        = some []) := by
  have hcell : (LinkedList.default_ctor h self).1.cells self
      = some { prev := self, next := self, object := none } := by
    simp [LinkedList.default_ctor, write_cells]
  have hbeg : (LinkedList.default_ctor h self).2.cbegin (LinkedList.default_ctor h self).1
      = some (LinkedList.default_ctor h self).2.cend := by
    simp [LinkedList.cbegin, LinkedList.cend, LinkedList.default_ctor, write_cells]
  refine ⟨rfl, rfl, hbeg, rfl, hcell, ?_⟩
  intro fuel hf
  obtain ⟨k, rfl⟩ : ∃ k, fuel = k + 1 := ⟨fuel - 1, by omega⟩
  constructor
  · simp only [LinkedList.forward, hbeg, LinkedList.forward_from, if_true]
  · simp only [LinkedList.backward, hbeg, LinkedList.backward_from, if_true]

/-- C18: `swap` breaks when exactly one of the two lists is empty.  Swapping the
list `[1, 2, 3]` with an empty list returns with the sizes exchanged, but the
sentinel of each list ends with `next` pointing at the sentinel of the other list,
so `begin() != end()` for the list that should be empty and both forward traversals
are undefined.  Swapping two non-empty lists works: `[1, 2, 3]` and `[7]` are
exchanged. -/
theorem C18_swap_with_one_empty_list :
    WellFormed demo_other.1 demo_list demo_nodes ∧ WellFormed demo_other.1 demo_other.2 [] ∧
    (∃ h1 a1 b1, LinkedList.swap demo_other.1 demo_list demo_other.2 = some (h1, a1, b1) ∧
      a1 = { _fake_node := 10, _size := 0 } ∧ b1 = { _fake_node := 11, _size := 3 } ∧
      h1.cells 10 = some { prev := 40, next := 11, object := none } ∧
      h1.cells 11 = some { prev := 11, next := 10, object := none } ∧
      h1.cells 40 = some { prev := 30, next := 20, object := some 3 } ∧
      a1.cbegin h1 = some ⟨11⟩ ∧ a1.cend = ⟨10⟩ ∧
      (∀ fuel, a1.forward fuel h1 = none) ∧ (∀ fuel, b1.forward fuel h1 = none)) ∧
    WellFormed demo_two.1 demo_list demo_nodes ∧ WellFormed demo_two.1 demo_two.2 [(21, 7)] ∧
    (∃ h1 a1 b1, LinkedList.swap demo_two.1 demo_list demo_two.2 = some (h1, a1, b1) ∧
      WellFormed h1 a1 [(21, 7)] ∧ WellFormed h1 b1 demo_nodes ∧
      a1.forward 5 h1 = some [7] ∧ b1.forward 5 h1 = some [1, 2, 3]) := by
  refine ⟨by decide, by decide,
    ⟨_, _, _, rfl, rfl, rfl, rfl, rfl, rfl, rfl, rfl, ?_, ?_⟩,
    by decide, by decide, ⟨_, _, _, rfl, ?_, ?_, ?_, ?_⟩⟩
  · intro fuel
    cases fuel <;> rfl
  · intro fuel
    cases fuel <;> rfl
  · decide
  · decide
  · decide
  · decide

/-! ### Walking along the ring -/

theorem follow_none (link : Addr → Option Addr) (k : Nat) :
    (fun o => Option.bind o link)^[k] none = none := by
  induction k with
  | zero => rfl
  | succ k ih => rw [Function.iterate_succ_apply]; exact ih

theorem follow_succ (link : Addr → Option Addr) (k : Nat) (a : Addr) :
    follow link (k + 1) a = (link a).bind (follow link k) := by
  unfold follow
  rw [Function.iterate_succ_apply]
  cases hl : link a with
  | none => simp [hl, follow_none]
  | some b => simp [hl]

theorem walk_next_succ (h : Heap T) (k : Nat) (a : Addr) :
    List_Iterator_Base.walk_next h (k + 1) a =
      (h.cells a).bind (fun c => List_Iterator_Base.walk_next h k c.next) := by
  cases hc : h.cells a <;> simp [List_Iterator_Base.walk_next, hc]

theorem walk_prev_succ (h : Heap T) (k : Nat) (a : Addr) :
    List_Iterator_Base.walk_prev h (k + 1) a =
      (h.cells a).bind (fun c => List_Iterator_Base.walk_prev h k c.prev) := by
  cases hc : h.cells a <;> simp [List_Iterator_Base.walk_prev, hc]

theorem walk_next_eq_follow (h : Heap T) (k : Nat) (a : Addr) :
    List_Iterator_Base.walk_next h k a = follow (link_next h) k a := by
  induction k generalizing a with
  | zero => rfl
  | succ k ih =>
    rw [follow_succ, walk_next_succ]
    cases hc : h.cells a with
    | none =>
      have hl : link_next h a = none := by simp [link_next, hc]
      rw [hl]; rfl
    | some c =>
      have hl : link_next h a = some c.next := by simp [link_next, hc]
      rw [hl]
      exact ih c.next

theorem walk_prev_eq_follow (h : Heap T) (k : Nat) (a : Addr) :
    List_Iterator_Base.walk_prev h k a = follow (link_prev h) k a := by
  induction k generalizing a with
  | zero => rfl
  | succ k ih =>
    rw [follow_succ, walk_prev_succ]
    cases hc : h.cells a with
    | none =>
      have hl : link_prev h a = none := by simp [link_prev, hc]
      rw [hl]; rfl
    | some c =>
      have hl : link_prev h a = some c.prev := by simp [link_prev, hc]
      rw [hl]
      exact ih c.prev

theorem walk_next_add (h : Heap T) (j k : Nat) (a : Addr) :
    List_Iterator_Base.walk_next h (j + k) a =
      (List_Iterator_Base.walk_next h j a).bind (List_Iterator_Base.walk_next h k) := by
  induction j generalizing a with
  | zero =>
    rw [Nat.zero_add]
    rfl
  | succ j ih =>
    have e : j + 1 + k = (j + k) + 1 := by omega
    rw [e, walk_next_succ, walk_next_succ]
    cases h.cells a with
    | none => rfl
    | some c => exact ih c.next

theorem walk_prev_add (h : Heap T) (j k : Nat) (a : Addr) :
    List_Iterator_Base.walk_prev h (j + k) a =
      (List_Iterator_Base.walk_prev h j a).bind (List_Iterator_Base.walk_prev h k) := by
  induction j generalizing a with
  | zero =>
    rw [Nat.zero_add]
    rfl
  | succ j ih =>
    have e : j + 1 + k = (j + k) + 1 := by omega
    rw [e, walk_prev_succ, walk_prev_succ]
    cases h.cells a with
    | none => rfl
    | some c => exact ih c.prev

theorem walk_prev_mem (h : Heap T) (l : LinkedList) (ns : List (Addr × T))
    (hwf : WellFormed h l ns) (k : Nat) :
    ∀ a ∈ (ring l ns).map Prod.fst,
      ∃ b ∈ (ring l ns).map Prod.fst, List_Iterator_Base.walk_prev h k a = some b := by
  induction k with
  | zero => intro a ha; exact ⟨a, ha, rfl⟩
  | succ k ih =>
    intro a ha
    obtain ⟨x, hx, _, hp⟩ := wf_live h l ns hwf a ha
    obtain ⟨b, hb, hw⟩ := ih x.prev hp
    exact ⟨b, hb, by simp only [List_Iterator_Base.walk_prev, hx, hw]⟩

theorem walk_next_prev_inv (h : Heap T) (l : LinkedList) (ns : List (Addr × T))
    (hwf : WellFormed h l ns) (k : Nat) :
    ∀ a b, a ∈ (ring l ns).map Prod.fst → List_Iterator_Base.walk_next h k a = some b →
      List_Iterator_Base.walk_prev h k b = some a := by
  induction k with
  | zero =>
    intro a b _ hw
    simp only [List_Iterator_Base.walk_next, Option.some.injEq] at hw
    subst hw; rfl
  | succ k ih =>
    intro a b ha hw
    rw [walk_next_add] at hw
    obtain ⟨m, hm, hwm⟩ := walk_next_mem h l ns hwf k a ha
    rw [hwm] at hw
    simp only [Option.some_bind] at hw
    obtain ⟨c, hc, ⟨cn, hcn, hcnp⟩, _⟩ := ring_node_links h l ns hwf m hm
    rw [walk_next_succ, hc] at hw
    simp only [Option.some_bind, List_Iterator_Base.walk_next, Option.some.injEq] at hw
    subst hw
    rw [walk_prev_succ, hcn]
    simp only [Option.some_bind, hcnp]
    exact ih a m ha hwm

theorem walk_prev_next_inv (h : Heap T) (l : LinkedList) (ns : List (Addr × T))
    (hwf : WellFormed h l ns) (k : Nat) :
    ∀ a b, a ∈ (ring l ns).map Prod.fst → List_Iterator_Base.walk_prev h k a = some b →
      List_Iterator_Base.walk_next h k b = some a := by
  induction k with
  | zero =>
    intro a b _ hw
    simp only [List_Iterator_Base.walk_prev, Option.some.injEq] at hw
    subst hw; rfl
  | succ k ih =>
    intro a b ha hw
    rw [walk_prev_add] at hw
    obtain ⟨m, hm, hwm⟩ := walk_prev_mem h l ns hwf k a ha
    rw [hwm] at hw
    simp only [Option.some_bind] at hw
    obtain ⟨c, hc, _, ⟨cp, hcp, hcpn⟩⟩ := ring_node_links h l ns hwf m hm
    rw [walk_prev_succ, hc] at hw
    simp only [Option.some_bind, List_Iterator_Base.walk_prev, Option.some.injEq] at hw
    subst hw
    rw [walk_next_succ, hcp]
    simp only [Option.some_bind, hcpn]
    exact ih a m ha hwm

theorem walk_next_turn_sentinel (h : Heap T) (l : LinkedList) (ns : List (Addr × T))
    (hwf : WellFormed h l ns) :
    List_Iterator_Base.walk_next h (ns.length + 1) l._fake_node = some l._fake_node := by
  have hw := seg_walk h (ring l ns) _ l._fake_node hwf.1 (ns.length + 1)
    (by simp [ring, lift])
  have hd : (ring l ns).drop (ns.length + 1) = [] := by
    apply List.drop_eq_nil_of_le
    simp [ring, lift]
  rw [hd] at hw
  exact hw

theorem walk_next_from_sentinel (h : Heap T) (l : LinkedList) (ns : List (Addr × T))
    (hwf : WellFormed h l ns) (a : Addr) (ha : a ∈ (ring l ns).map Prod.fst) :
    ∃ i, List_Iterator_Base.walk_next h i l._fake_node = some a := by
  obtain ⟨s, t, rfl, hat⟩ := mem_ring_split l ns a ha
  refine ⟨s.length + 1, ?_⟩
  have hw := seg_walk h (ring l (s ++ t)) _ l._fake_node hwf.1 (s.length + 1)
    (by simp [ring, lift])
  have hd : (ring l (s ++ t)).drop (s.length + 1) = lift t := by
    simp [ring, lift]
  rw [hd, headAddr_lift, ← hat] at hw
  exact hw

/-- A full turn forward brings every object of the ring back to itself. -/
theorem walk_next_turn (h : Heap T) (l : LinkedList) (ns : List (Addr × T))
    (hwf : WellFormed h l ns) (a : Addr) (ha : a ∈ (ring l ns).map Prod.fst) :
    List_Iterator_Base.walk_next h (ns.length + 1) a = some a := by
  obtain ⟨i, hi⟩ := walk_next_from_sentinel h l ns hwf a ha
  have h1 := walk_next_add h i (ns.length + 1) l._fake_node
  have h2 := walk_next_add h (ns.length + 1) i l._fake_node
  rw [hi] at h1
  rw [walk_next_turn_sentinel h l ns hwf] at h2
  simp only [Option.some_bind] at h1 h2
  rw [← h1, Nat.add_comm, h2, hi]

/-- A full turn backward brings every object of the ring back to itself. -/
theorem walk_prev_turn (h : Heap T) (l : LinkedList) (ns : List (Addr × T))
    (hwf : WellFormed h l ns) (a : Addr) (ha : a ∈ (ring l ns).map Prod.fst) :
    List_Iterator_Base.walk_prev h (ns.length + 1) a = some a :=
  walk_next_prev_inv h l ns hwf _ a a ha (walk_next_turn h l ns hwf a ha)

theorem walk_prev_turns (h : Heap T) (l : LinkedList) (ns : List (Addr × T))
    (hwf : WellFormed h l ns) (a : Addr) (ha : a ∈ (ring l ns).map Prod.fst) (m : Nat) :
    List_Iterator_Base.walk_prev h (m * (ns.length + 1)) a = some a := by
  induction m with
  | zero => rw [Nat.zero_mul]; rfl
  | succ m ih =>
    rw [Nat.succ_mul, walk_prev_add, ih]
    exact walk_prev_turn h l ns hwf a ha

theorem walk_next_turns (h : Heap T) (l : LinkedList) (ns : List (Addr × T))
    (hwf : WellFormed h l ns) (a : Addr) (ha : a ∈ (ring l ns).map Prod.fst) (m : Nat) :
    List_Iterator_Base.walk_next h (m * (ns.length + 1)) a = some a := by
  induction m with
  | zero => rw [Nat.zero_mul]; rfl
  | succ m ih =>
    rw [Nat.succ_mul, walk_next_add, ih]
    exact walk_next_turn h l ns hwf a ha

theorem position_of_walk (h : Heap T) (l : LinkedList) (i : Nat) :
    ∀ a, List_Iterator_Base.walk_next h i l._fake_node = some a → Position h l ⟨a⟩ := by
  induction i with
  | zero =>
    intro a hw
    simp only [List_Iterator_Base.walk_next, Option.some.injEq] at hw
    subst hw
    exact Position.at_end
  | succ i ih =>
    intro a hw
    rw [walk_next_add] at hw
    cases hm : List_Iterator_Base.walk_next h i l._fake_node with
    | none => rw [hm] at hw; simp at hw
    | some m =>
      rw [hm] at hw
      simp only [Option.some_bind] at hw
      refine Position.next ⟨m⟩ ⟨a⟩ (ih m hm) ?_
      rw [incr_eq]
      rw [walk_next_succ] at hw
      cases hc : h.cells m with
      | none => rw [hc] at hw; simp at hw
      | some c =>
        rw [hc] at hw
        simp only [Option.some_bind, List_Iterator_Base.walk_next, Option.some.injEq] at hw
        simp [hw]

theorem position_of_mem (h : Heap T) (l : LinkedList) (ns : List (Addr × T))
    (hwf : WellFormed h l ns) (a : Addr) (ha : a ∈ (ring l ns).map Prod.fst) :
    Position h l ⟨a⟩ := by
  obtain ⟨i, hi⟩ := walk_next_from_sentinel h l ns hwf a ha
  exact position_of_walk h l i a hi

theorem add_assign_pos (h : Heap T) (it : List_Iterator_Base) (k : Int) (hk : 0 < k) :
    it.add_assign h k = (List_Iterator_Base.walk_next h k.toNat it.ptr_).map
      List_Iterator_Base.mk := by
  unfold List_Iterator_Base.add_assign
  rw [if_pos hk]

theorem add_assign_neg (h : Heap T) (it : List_Iterator_Base) (k : Int) (hk : k < 0) :
    it.add_assign h k = (List_Iterator_Base.walk_prev h k.natAbs it.ptr_).map
      List_Iterator_Base.mk := by
  unfold List_Iterator_Base.add_assign
  have h1 : ¬ (k > 0) := by omega
  have h2 : (-k).toNat = k.natAbs := by omega
  rw [if_neg h1, if_pos hk, h2]

theorem add_assign_zero (h : Heap T) (it : List_Iterator_Base) :
    it.add_assign h 0 = some it := by
  unfold List_Iterator_Base.add_assign
  simp

/-- C14: on a well-formed list, for an iterator `it` at a position of the list and an
offset `k` of the 32-bit difference type, `it += k` returns an iterator at a position
of the list: the node reached by following `next` exactly `k` times when `k > 0`, by
following `prev` exactly `|k|` times when `k < 0`, and `it` itself when `k == 0`;
`++it` is `it += 1` and `--it` is `it += -1`. -/
theorem C14_add_assign_follows_links (h : Heap T) (l : LinkedList) (ns : List (Addr × T))
    (it : List_Iterator_Base) (k : Int) (hwf : WellFormed h l ns) (hpos : Position h l it)
    (_hk : INT_MIN ≤ k ∧ k ≤ INT_MAX) :
    (∃ it1, it.add_assign h k = some it1 ∧ Position h l it1 ∧
      (0 < k → follow (link_next h) k.toNat it.ptr_ = some it1.ptr_) ∧
      (k < 0 → follow (link_prev h) k.natAbs it.ptr_ = some it1.ptr_) ∧
      (k = 0 → it1 = it)) ∧
    it.incr h = it.add_assign h 1 ∧ it.decr h = it.add_assign h (-1) := by
  have hmem := position_mem h l ns hwf it hpos
  refine ⟨?_, rfl, ?_⟩
  · rcases lt_trichotomy k 0 with hneg | hzero | hkpos
    · obtain ⟨b, hb, hw⟩ := walk_prev_mem h l ns hwf k.natAbs _ hmem
      refine ⟨⟨b⟩, ?_, position_of_mem h l ns hwf b hb, ?_, ?_, ?_⟩
      · rw [add_assign_neg h it k hneg, hw]; rfl
      · intro hp; omega
      · intro _; rw [← walk_prev_eq_follow]; exact hw
      · intro hz; omega
    · subst hzero
      exact ⟨it, add_assign_zero h it, hpos, fun hp => absurd hp (by decide),
        fun hn => absurd hn (by decide), fun _ => rfl⟩
    · obtain ⟨b, hb, hw⟩ := walk_next_mem h l ns hwf k.toNat _ hmem
      refine ⟨⟨b⟩, ?_, position_of_mem h l ns hwf b hb, ?_, ?_, ?_⟩
      · rw [add_assign_pos h it k hkpos, hw]; rfl
      · intro _; rw [← walk_next_eq_follow]; exact hw
      · intro hn; omega
      · intro hz; omega
  · unfold List_Iterator_Base.decr List_Iterator_Base.sub_assign
    have h0 : wrap_int (-1) = -1 := by decide
    rw [h0]

theorem C14_add_assign_follows_links_witness :
    WellFormed demo_heap demo_list demo_nodes ∧ Position demo_heap demo_list demo_list.cend ∧
    (INT_MIN ≤ (-2 : Int) ∧ (-2 : Int) ≤ INT_MAX) ∧
    ∃ it1, demo_list.cend.add_assign demo_heap (-2) = some it1 ∧
      Position demo_heap demo_list it1 ∧
      (0 < (-2 : Int) → follow (link_next demo_heap) (-2 : Int).toNat demo_list.cend.ptr_
        = some it1.ptr_) ∧
      ((-2 : Int) < 0 → follow (link_prev demo_heap) (-2 : Int).natAbs demo_list.cend.ptr_
        = some it1.ptr_) ∧
      ((-2 : Int) = 0 → it1 = demo_list.cend) :=
  ⟨by decide, Position.at_end, by decide,
    (C14_add_assign_follows_links demo_heap demo_list demo_nodes demo_list.cend (-2)
      (by decide) Position.at_end (by decide)).1⟩

theorem wrap_int_neg (k : Int) (h0 : 0 < k) (h1 : k ≤ 2147483648) : wrap_int (-k) = -k := by
  unfold wrap_int
  omega

theorem sub_assign_pos (h : Heap T) (it : List_Iterator_Base) (k : Int) (h0 : 0 < k)
    (h1 : k ≤ 2147483648) :
    it.sub_assign h k = (List_Iterator_Base.walk_prev h k.toNat it.ptr_).map
      List_Iterator_Base.mk := by
  unfold List_Iterator_Base.sub_assign
  rw [wrap_int_neg k h0 h1, add_assign_neg h it (-k) (by omega)]
  have : (-k).natAbs = k.toNat := by omega
  rw [this]

theorem sub_assign_neg (h : Heap T) (it : List_Iterator_Base) (k : Int) (h0 : k < 0)
    (h1 : -2147483648 < k) :
    it.sub_assign h k = (List_Iterator_Base.walk_next h k.natAbs it.ptr_).map
      List_Iterator_Base.mk := by
  unfold List_Iterator_Base.sub_assign
  have hw : wrap_int (-k) = -k := by unfold wrap_int; omega
  rw [hw, add_assign_pos h it (-k) (by omega)]
  have : (-k).toNat = k.natAbs := by omega
  rw [this]

theorem sub_assign_int_min (h : Heap T) (it : List_Iterator_Base) :
    it.sub_assign h INT_MIN = (List_Iterator_Base.walk_prev h 2147483648 it.ptr_).map
      List_Iterator_Base.mk := by
  unfold List_Iterator_Base.sub_assign
  have hw : wrap_int (-INT_MIN) = -2147483648 := by decide
  rw [hw, add_assign_neg h it (-2147483648) (by decide)]
  rfl

theorem add_assign_int_min (h : Heap T) (it : List_Iterator_Base) :
    it.add_assign h INT_MIN = (List_Iterator_Base.walk_prev h 2147483648 it.ptr_).map
      List_Iterator_Base.mk := by
  have h1 : INT_MIN = -2147483648 := rfl
  rw [h1, add_assign_neg h it (-2147483648) (by decide)]
  rfl

theorem walk_prev_mod (h : Heap T) (l : LinkedList) (ns : List (Addr × T))
    (hwf : WellFormed h l ns) (a : Addr) (ha : a ∈ (ring l ns).map Prod.fst) (m r : Nat) :
    List_Iterator_Base.walk_prev h (m * (ns.length + 1) + r) a
      = List_Iterator_Base.walk_prev h r a := by
  rw [walk_prev_add, walk_prev_turns h l ns hwf a ha m]
  rfl

/-- Walking forward from the sentinel, the sentinel is not met again before a
full turn. -/
theorem walk_next_sentinel_first (h : Heap T) (l : LinkedList) (ns : List (Addr × T))
    (hwf : WellFormed h l ns) (k : Nat) (hk0 : 0 < k) (hk : k ≤ ns.length) :
    List_Iterator_Base.walk_next h k l._fake_node ≠ some l._fake_node := by
  have hw := seg_walk h (ring l ns) _ l._fake_node hwf.1 k (by simp [ring, lift]; omega)
  have hhead : headAddr (ring l ns) l._fake_node = l._fake_node := rfl
  rw [hhead] at hw
  rw [hw]
  obtain ⟨j, rfl⟩ : ∃ j, k = j + 1 := ⟨k - 1, by omega⟩
  have hdrop : (ring l ns).drop (j + 1) = (lift ns).drop j := by simp [ring]
  rw [hdrop]
  intro he
  have hne : (lift ns).drop j ≠ [] := by
    intro hnil
    have := congrArg List.length hnil
    simp [lift] at this
    omega
  have hmem := headAddr_mem ((lift ns).drop j) l._fake_node hne
  rw [Option.some.inj he] at hmem
  have hmem2 : l._fake_node ∈ (lift ns).map Prod.fst := by
    obtain ⟨e, he1, he2⟩ := List.mem_map.mp hmem
    exact List.mem_map.mpr ⟨e, List.mem_of_mem_drop he1, he2⟩
  rw [map_fst_lift] at hmem2
  exact (wf_nodup h l ns hwf).1 hmem2

/-- From every object of the ring the sentinel is reached by walking forward. -/
theorem walk_next_to_sentinel (h : Heap T) (l : LinkedList) (ns : List (Addr × T))
    (hwf : WellFormed h l ns) (a : Addr) (ha : a ∈ (ring l ns).map Prod.fst) :
    ∃ i, List_Iterator_Base.walk_next h i a = some l._fake_node := by
  obtain ⟨i, hi⟩ := walk_next_from_sentinel h l ns hwf a ha
  refine ⟨i * ns.length, ?_⟩
  have hfmem : l._fake_node ∈ (ring l ns).map Prod.fst := by simp [ring]
  have hturn := walk_next_turns h l ns hwf l._fake_node hfmem i
  have e : i * (ns.length + 1) = i + i * ns.length := by
    rw [Nat.mul_succ, Nat.add_comm]
  rw [e, walk_next_add, hi] at hturn
  exact hturn

/-- Walking forward less than a full turn does not come back to the start. -/
theorem walk_next_fixed (h : Heap T) (l : LinkedList) (ns : List (Addr × T))
    (hwf : WellFormed h l ns) (a : Addr) (ha : a ∈ (ring l ns).map Prod.fst) (r : Nat)
    (hr : r < ns.length + 1) (hw : List_Iterator_Base.walk_next h r a = some a) : r = 0 := by
  obtain ⟨i, hi⟩ := walk_next_to_sentinel h l ns hwf a ha
  have h1 := walk_next_add h i r a
  have h2 := walk_next_add h r i a
  rw [hi] at h1
  rw [hw] at h2
  simp only [Option.some_bind] at h1 h2
  rw [Nat.add_comm, h2, hi] at h1
  by_contra hne
  exact walk_next_sentinel_first h l ns hwf r (by omega) (by omega) h1.symm

/-- Walking backward comes back to the start only after whole turns. -/
theorem walk_prev_fixed_dvd (h : Heap T) (l : LinkedList) (ns : List (Addr × T))
    (hwf : WellFormed h l ns) (a : Addr) (ha : a ∈ (ring l ns).map Prod.fst) (j : Nat)
    (hw : List_Iterator_Base.walk_prev h j a = some a) : (ns.length + 1) ∣ j := by
  have hsplit : j = j / (ns.length + 1) * (ns.length + 1) + j % (ns.length + 1) := by
    rw [Nat.mul_comm]
    exact (Nat.div_add_mod j (ns.length + 1)).symm
  have hw1 := hw
  rw [hsplit, walk_prev_mod h l ns hwf a ha] at hw1
  have hnext := walk_prev_next_inv h l ns hwf _ a a ha hw1
  have hzero := walk_next_fixed h l ns hwf a ha _ (Nat.mod_lt _ (by omega)) hnext
  exact Nat.dvd_of_mod_eq_zero hzero

theorem it_eta (it : List_Iterator_Base) : (⟨it.ptr_⟩ : List_Iterator_Base) = it := by
  cases it; rfl

/-- C20, as stated, fails: on the well-formed list `[2, 1]` (a ring of three objects)
with the offset `INT_MIN`, `end() + INT_MIN` is the node at `30`, and subtracting
`INT_MIN` from it walks another `2 ^ 31` links backward, to the node at `20`, not
back to `end()`; the same happens with the subtraction first. -/
theorem C20_round_trip_fails_at_int_min :
    WellFormed demo_s2.1 demo_s2.2 [(30, 2), (20, 1)] ∧
    Position demo_s2.1 demo_s2.2 ⟨10⟩ ∧ (INT_MIN ≤ INT_MIN ∧ INT_MIN ≤ INT_MAX) ∧
    (⟨10⟩ : List_Iterator_Base).plus demo_s2.1 INT_MIN = some ⟨30⟩ ∧
    (⟨30⟩ : List_Iterator_Base).minus demo_s2.1 INT_MIN = some ⟨20⟩ ∧
    (⟨10⟩ : List_Iterator_Base).minus demo_s2.1 INT_MIN = some ⟨30⟩ ∧
    (⟨30⟩ : List_Iterator_Base).plus demo_s2.1 INT_MIN = some ⟨20⟩ ∧
    (⟨20⟩ : List_Iterator_Base) ≠ ⟨10⟩ := by
  have hwf : WellFormed demo_s2.1 demo_s2.2 [(30, 2), (20, 1)] := by decide
  have e : (2147483648 : Nat) = 715827882 * (([(30, 2), (20, 1)] : List (Addr × Nat)).length + 1) + 2 := by
    decide
  have w10 : List_Iterator_Base.walk_prev demo_s2.1 2147483648 10 = some 30 := by
    rw [e, walk_prev_mod demo_s2.1 demo_s2.2 _ hwf 10 (by decide)]
    decide
  have w30 : List_Iterator_Base.walk_prev demo_s2.1 2147483648 30 = some 20 := by
    rw [e, walk_prev_mod demo_s2.1 demo_s2.2 _ hwf 30 (by decide)]
    decide
  refine ⟨hwf, Position.at_end, by decide, ?_, ?_, ?_, ?_, by decide⟩
  · show List_Iterator_Base.add_assign demo_s2.1 ⟨10⟩ INT_MIN = _
    rw [add_assign_int_min, w10]; rfl
  · show List_Iterator_Base.sub_assign demo_s2.1 ⟨30⟩ INT_MIN = _
    rw [sub_assign_int_min, w30]; rfl
  · show List_Iterator_Base.sub_assign demo_s2.1 ⟨10⟩ INT_MIN = _
    rw [sub_assign_int_min, w10]; rfl
  · show List_Iterator_Base.add_assign demo_s2.1 ⟨30⟩ INT_MIN = _
    rw [add_assign_int_min, w30]; rfl

/-- C20, amended: on a well-formed list, for an iterator `it` at a position of the
list and every offset `k` of the 32-bit difference type other than `INT_MIN`,
`(it + k) - k == it` and `(it - k) + k == it`.  For `k == INT_MIN` both `it + k` and
`it - k` walk `2 ^ 31` links backward, so the round trip ends `2 ^ 32` links behind
`it`, which is `it` if and only if the length `size() + 1` of the ring divides
`2 ^ 32`. -/
theorem C20_round_trip_except_int_min (h : Heap T) (l : LinkedList) (ns : List (Addr × T))
    (it : List_Iterator_Base) (hwf : WellFormed h l ns) (hpos : Position h l it) :
    (∀ k : Int, INT_MIN < k → k ≤ INT_MAX →
      (∃ j, it.plus h k = some j ∧ j.minus h k = some it) ∧
      (∃ j, it.minus h k = some j ∧ j.plus h k = some it)) ∧
    (∃ j e, it.plus h INT_MIN = some j ∧ it.minus h INT_MIN = some j ∧
      j.minus h INT_MIN = some e ∧ j.plus h INT_MIN = some e ∧
      List_Iterator_Base.walk_prev h 4294967296 it.ptr_ = some e.ptr_ ∧
      (e = it ↔ (l.size + 1) ∣ 4294967296)) := by
  have hmem := position_mem h l ns hwf it hpos
  have hsz : l.size = ns.length := hwf.2.2.1
  refine ⟨?_, ?_⟩
  · intro k hlo hhi
    have hlo1 : -2147483648 < k := hlo
    have hhi1 : k ≤ 2147483647 := hhi
    rcases lt_trichotomy k 0 with hneg | hzero | hkpos
    · obtain ⟨b, hb, hw⟩ := walk_prev_mem h l ns hwf k.natAbs _ hmem
      obtain ⟨c, hc, hw2⟩ := walk_next_mem h l ns hwf k.natAbs _ hmem
      refine ⟨⟨⟨b⟩, ?_, ?_⟩, ⟨⟨c⟩, ?_, ?_⟩⟩
      · show it.add_assign h k = _
        rw [add_assign_neg h it k hneg, hw]; rfl
      · show List_Iterator_Base.sub_assign h ⟨b⟩ k = _
        rw [sub_assign_neg h _ k hneg hlo1, walk_prev_next_inv h l ns hwf _ _ _ hmem hw]
        exact congrArg some (it_eta it)
      · show it.sub_assign h k = _
        rw [sub_assign_neg h it k hneg hlo1, hw2]; rfl
      · show List_Iterator_Base.add_assign h ⟨c⟩ k = _
        rw [add_assign_neg h _ k hneg, walk_next_prev_inv h l ns hwf _ _ _ hmem hw2]
        exact congrArg some (it_eta it)
    · subst hzero
      have hs : it.sub_assign h 0 = some it := by
        unfold List_Iterator_Base.sub_assign
        have : wrap_int (-0) = 0 := by decide
        rw [this]; exact add_assign_zero h it
      exact ⟨⟨it, add_assign_zero h it, hs⟩, ⟨it, hs, add_assign_zero h it⟩⟩
    · obtain ⟨b, hb, hw⟩ := walk_next_mem h l ns hwf k.toNat _ hmem
      obtain ⟨c, hc, hw2⟩ := walk_prev_mem h l ns hwf k.toNat _ hmem
      refine ⟨⟨⟨b⟩, ?_, ?_⟩, ⟨⟨c⟩, ?_, ?_⟩⟩
      · show it.add_assign h k = _
        rw [add_assign_pos h it k hkpos, hw]; rfl
      · show List_Iterator_Base.sub_assign h ⟨b⟩ k = _
        rw [sub_assign_pos h _ k hkpos (by omega), walk_next_prev_inv h l ns hwf _ _ _ hmem hw]
        exact congrArg some (it_eta it)
      · show it.sub_assign h k = _
        rw [sub_assign_pos h it k hkpos (by omega), hw2]; rfl
      · show List_Iterator_Base.add_assign h ⟨c⟩ k = _
        rw [add_assign_pos h _ k hkpos, walk_prev_next_inv h l ns hwf _ _ _ hmem hw2]
        exact congrArg some (it_eta it)
  · obtain ⟨b, hb, hw⟩ := walk_prev_mem h l ns hwf 2147483648 _ hmem
    obtain ⟨c, hc, hw2⟩ := walk_prev_mem h l ns hwf 2147483648 b hb
    have hsum : List_Iterator_Base.walk_prev h 4294967296 it.ptr_ = some c := by
      have e : (4294967296 : Nat) = 2147483648 + 2147483648 := by decide
      rw [e, walk_prev_add, hw]
      exact hw2
    refine ⟨⟨b⟩, ⟨c⟩, ?_, ?_, ?_, ?_, hsum, ?_⟩
    · show it.add_assign h INT_MIN = _
      rw [add_assign_int_min, hw]; rfl
    · show it.sub_assign h INT_MIN = _
      rw [sub_assign_int_min, hw]; rfl
    · show List_Iterator_Base.sub_assign h ⟨b⟩ INT_MIN = _
      rw [sub_assign_int_min, hw2]; rfl
    · show List_Iterator_Base.add_assign h ⟨b⟩ INT_MIN = _
      rw [add_assign_int_min, hw2]; rfl
    · constructor
      · intro he
        have hc2 : c = it.ptr_ := by rw [← he]
        rw [hc2] at hsum
        rw [hsz]
        exact walk_prev_fixed_dvd h l ns hwf _ hmem 4294967296 hsum
      · intro hdvd
        obtain ⟨m, hm⟩ := hdvd
        have hturn := walk_prev_turns h l ns hwf _ hmem m
        have e2 : m * (ns.length + 1) = 4294967296 := by
          rw [hm, hsz, Nat.mul_comm]
        rw [e2, hsum] at hturn
        have hc2 : c = it.ptr_ := Option.some.inj hturn
        exact hc2 ▸ it_eta it

theorem C20_round_trip_except_int_min_witness :
    WellFormed demo_heap demo_list demo_nodes ∧ Position demo_heap demo_list demo_list.cend ∧
    (∀ k : Int, INT_MIN < k → k ≤ INT_MAX →
      (∃ j, demo_list.cend.plus demo_heap k = some j ∧
        j.minus demo_heap k = some demo_list.cend) ∧
      (∃ j, demo_list.cend.minus demo_heap k = some j ∧
        j.plus demo_heap k = some demo_list.cend)) :=
  ⟨by decide, Position.at_end,
    (C20_round_trip_except_int_min demo_heap demo_list demo_nodes demo_list.cend
      (by decide) Position.at_end).1⟩

theorem wf_empty_list (h : Heap T) (l : LinkedList) (hwf : WellFormed h l []) :
    l = { _fake_node := l._fake_node, _size := 0 } := by
  have hsz : l._size = 0 := hwf.2.2.1
  cases l
  simp only at hsz
  simp [hsz]

/-- The loop of `clear()` on a well-formed list with value nodes `ns`: it needs
exactly as many iterations as there are nodes, each one a `pop_back()`. -/
theorem clear_loop_spec (ns : List (Addr × T)) :
    ∀ (h : Heap T) (l : LinkedList), WellFormed h l ns →
    ∃ h1,
      (∀ fuel, ns.length ≤ fuel →
        LinkedList.clear_loop fuel h l = some (h1, { _fake_node := l._fake_node, _size := 0 })) ∧
      (∀ fuel, fuel < ns.length → LinkedList.clear_loop fuel h l = none) ∧
      pop_back_times ns.length (h, l) = some (h1, { _fake_node := l._fake_node, _size := 0 }) ∧
      WellFormed h1 { _fake_node := l._fake_node, _size := 0 } [] ∧
      (∀ n ∈ ns, h1.cells n.1 = none ∧ n.1 ∉ h1.allocated) ∧
      (∀ a, a ∉ (ring l ns).map Prod.fst →
        h1.cells a = h.cells a ∧ (a ∈ h1.allocated ↔ a ∈ h.allocated)) ∧
      (∀ k, k ≤ ns.length → ∃ hk lk, pop_back_times k (h, l) = some (hk, lk) ∧
        WellFormed hk lk (ns.take (ns.length - k))) := by
  induction ns using List.reverseRecOn with
  | nil =>
    intro h l hwf
    have hl := wf_empty_list h l hwf
    have hsz : l.size = 0 := hwf.2.2.1
    refine ⟨h, ?_, ?_, ?_, ?_, ?_, ?_, ?_⟩
    · intro fuel _
      cases fuel <;> simp [LinkedList.clear_loop, hsz, ← hl]
    · intro fuel hf
      simp at hf
    · simp only [List.length_nil, pop_back_times, ← hl]
    · rw [← hl]; exact hwf
    · intro n hn; simp at hn
    · intro a _; exact ⟨rfl, Iff.rfl⟩
    · intro k hk
      have : k = 0 := by simpa using hk
      subst this
      exact ⟨h, l, rfl, by simpa using hwf⟩
  | append_singleton s n ih =>
    intro h l hwf
    obtain ⟨h', hpop, hwf', hal', hgone', hfr'⟩ := pop_back_spec h l s n hwf
    obtain ⟨h1, hclear, hshort, htimes, hwf1, hdead, hframe, hmid⟩ := ih h' _ hwf'
    have hsz : l.size = s.length + 1 := by
      have := hwf.2.2.1
      simpa [LinkedList.size] using this
    have hne : l.size ≠ 0 := by omega
    have hnd := wf_nodup h l _ hwf
    have hn_not : n.1 ∉ (ring l s).map Prod.fst := by
      have h1' := hwf.2.1
      rw [ring_split_cons] at h1'
      simp only [List.map_append, List.map_cons, lift, List.map_nil] at h1'
      have h2 := (List.nodup_append.mp h1').2.2
      intro hmem
      exact h2 (by simpa [ring, lift] using hmem) (by simp)
    refine ⟨h1, ?_, ?_, ?_, hwf1, ?_, ?_, ?_⟩
    · intro fuel hf
      obtain ⟨f, rfl⟩ : ∃ f, fuel = f + 1 := ⟨fuel - 1, by simp at hf; omega⟩
      simp only [LinkedList.clear_loop, hne, ne_eq, not_false_eq_true, if_true, hpop]
      exact hclear f (by simp at hf; omega)
    · intro fuel hf
      cases fuel with
      | zero => simp [LinkedList.clear_loop, hne]
      | succ f =>
        simp only [LinkedList.clear_loop, hne, ne_eq, not_false_eq_true, if_true, hpop]
        exact hshort f (by simp at hf; omega)
    · simp only [List.length_append, List.length_singleton, pop_back_times, hpop]
      exact htimes
    · intro m hm
      rcases List.mem_append.mp hm with hm | hm
      · exact hdead m hm
      · simp only [List.mem_singleton] at hm
        subst hm
        have hfrm := hframe m.1 hn_not
        refine ⟨by rw [hfrm.1]; exact hgone', ?_⟩
        rw [hfrm.2, hal']
        simp
    · intro a ha
      have ha_s : a ∉ (ring l s).map Prod.fst := by
        intro hmem
        apply ha
        rw [ring_split_cons]
        simp only [List.map_append, List.map_cons]
        exact List.mem_append_left _ (by simpa [ring] using hmem)
      have ha_n : a ≠ n.1 := by
        intro he
        apply ha
        rw [ring_split_cons]
        simp [he]
      have hfrm := hframe a ha_s
      refine ⟨by rw [hfrm.1]; exact hfr' a ha_s ha_n, ?_⟩
      rw [hfrm.2, hal']
      simp [ha_n]
    · intro k hk
      cases k with
      | zero =>
        refine ⟨h, l, rfl, ?_⟩
        rw [Nat.sub_zero, List.take_length]
        exact hwf
      | succ k =>
        obtain ⟨hk1, lk1, hpt, hwfk⟩ := hmid k (by simp at hk; omega)
        refine ⟨hk1, lk1, ?_, ?_⟩
        · simp only [pop_back_times, hpop]
          exact hpt
        · have e : (s ++ [n]).take ((s ++ [n]).length - (k + 1)) = s.take (s.length - k) := by
            have e1 : (s ++ [n]).length - (k + 1) = s.length - k := by simp
            rw [e1, List.take_append_of_le_length (by omega)]
          rw [e]
          exact hwfk

/-- C19: on a well-formed list of size `n` whose forward traversal is `xs`, `clear()`
returns after exactly `n` iterations of its loop: it returns with any fuel of at
least `n` and with none below, and its result is that of `n` calls of `pop_back()`;
after `k` of them the list holds the first `n - k` elements.  It leaves `size() == 0`,
`begin() == end()`, the sentinel linked to itself and every value node dead and
deallocated; the destructor then releases the sentinel. -/
theorem C19_clear_pops_every_node (h : Heap T) (l : LinkedList) (ns : List (Addr × T))
    (xs : List T) (hwf : WellFormed h l ns) (hxs : l.forward (l.size + 1) h = some xs) :
    ∃ h1 l1,
      (∀ fuel, l.size ≤ fuel → LinkedList.clear fuel h l = some (h1, l1)) ∧
      (∀ fuel, fuel < l.size → LinkedList.clear fuel h l = none) ∧
      pop_back_times l.size (h, l) = some (h1, l1) ∧
      (∀ k, k ≤ l.size → ∃ hk lk, pop_back_times k (h, l) = some (hk, lk) ∧
        lk.size = l.size - k ∧
        ∀ fuel, lk.size < fuel → lk.forward fuel hk = some (xs.take (l.size - k))) ∧
      l1.size = 0 ∧ l1._fake_node = l._fake_node ∧ l1.cbegin h1 = some l1.cend ∧
      h1.cells l._fake_node
        = some { prev := l._fake_node, next := l._fake_node, object := none } ∧
      (∀ n ∈ ns, h1.cells n.1 = none ∧ n.1 ∉ h1.allocated) ∧
      (∀ fuel, l.size ≤ fuel →
        LinkedList.destructor fuel h l = some (h1.write l._fake_node none)) := by
  have hx := forward_unique h l ns hwf xs hxs
  have hsz : l.size = ns.length := hwf.2.2.1
  obtain ⟨h1, hclear, hshort, htimes, hwf1, hdead, _, hmid⟩ := clear_loop_spec ns h l hwf
  have hsent := (wf_sentinel h1 _ [] hwf1).1
  refine ⟨h1, { _fake_node := l._fake_node, _size := 0 }, ?_, ?_, ?_, ?_, rfl, rfl, ?_, ?_,
    hdead, ?_⟩
  · intro fuel hf
    exact hclear fuel (hsz ▸ hf)
  · intro fuel hf
    exact hshort fuel (hsz ▸ hf)
  · rw [hsz]; exact htimes
  · intro k hk
    obtain ⟨hk1, lk1, hpt, hwfk⟩ := hmid k (hsz ▸ hk)
    have hszk : lk1.size = (ns.take (ns.length - k)).length := hwfk.2.2.1
    refine ⟨hk1, lk1, hpt, ?_, ?_⟩
    · rw [hszk, hsz, List.length_take]
      omega
    · intro fuel hf
      rw [forward_wf hk1 lk1 _ hwfk fuel (hszk ▸ hf), hx, hsz, List.map_take]
  · exact wf_cbegin h1 _ [] hwf1
  · exact hsent
  · intro fuel hf
    have hc := hclear fuel (hsz ▸ hf)
    simp only [LinkedList.destructor, LinkedList.clear, hc]

theorem C19_clear_pops_every_node_witness :
    WellFormed demo_heap demo_list demo_nodes ∧
    demo_list.forward (demo_list.size + 1) demo_heap = some [1, 2, 3] ∧
    ∃ h1 l1,
      (∀ fuel, demo_list.size ≤ fuel → LinkedList.clear fuel demo_heap demo_list
        = some (h1, l1)) ∧
      (∀ fuel, fuel < demo_list.size → LinkedList.clear fuel demo_heap demo_list = none) ∧
      pop_back_times demo_list.size (demo_heap, demo_list) = some (h1, l1) ∧
      (∀ k, k ≤ demo_list.size →
        ∃ hk lk, pop_back_times k (demo_heap, demo_list) = some (hk, lk) ∧
        lk.size = demo_list.size - k ∧
        ∀ fuel, lk.size < fuel →
          lk.forward fuel hk = some ([1, 2, 3].take (demo_list.size - k))) ∧
      l1.size = 0 ∧ l1._fake_node = demo_list._fake_node ∧ l1.cbegin h1 = some l1.cend ∧
      h1.cells demo_list._fake_node
        = some { prev := demo_list._fake_node, next := demo_list._fake_node, object := none } ∧
      (∀ n ∈ demo_nodes, h1.cells n.1 = none ∧ n.1 ∉ h1.allocated) ∧
      (∀ fuel, demo_list.size ≤ fuel →
        LinkedList.destructor fuel demo_heap demo_list
          = some (h1.write demo_list._fake_node none)) :=
  ⟨by decide, by decide,
    C19_clear_pops_every_node demo_heap demo_list demo_nodes [1, 2, 3] (by decide) (by decide)⟩

end Claims
